import Mathlib

/-!
# A Brainfuck interpreter (`main.go`): shallow embedding and verification

Strings are lists of bytes (`List Nat`), Go `int` values that are never negative are `Nat`,
the memory pointer is an `Int` (it becomes `-1` on underflow), and a `byte` cell is a `Nat`
whose arithmetic is reduced modulo 256 explicitly.  A Go `map[int]int` is an association
list read through `mapGet`, which yields `0` for an absent key as Go does.  Everything
written to standard output is recorded in the extra field `stdout`.  A run-time panic
(index or slice bound out of range) is an explicit result.
-/

namespace Brainfuck

/-! ## Data model -/

/-- Errors returned by `BuildLoopMap`, with the position they report. -/
inductive BracketError where
  | unmatchedClosing (pos : Nat)
  | unmatchedOpening (pos : Nat)
  deriving DecidableEq, Repr

/-- Errors returned by `Execute`, with the position they report. -/
inductive ExecError where
  | overflow (pos : Int)
  | underflow (pos : Int)
  deriving DecidableEq, Repr

/-- One item written to standard output: a byte produced by the `.` instruction, or one
`fmt` call of `DebugPrint` (carrying the values it formats), or the single-step prompt, or
the line `Error: ...` that `main` prints for an error returned by `BuildLoopMap` or by
`Execute`. -/
inductive Out where
  | byte (b : Nat)
  | dbgBanner
  | dbgCodePtr (pc : Nat)
  | dbgPtr (p : Int)
  | dbgCell (v : Nat)
  | dbgDump (cells : List Nat)
  | dbgLoopMap (m : List (Nat × Nat))
  | dbgRule
  | prompt
  | errBracket (e : BracketError)
  | errExec (e : ExecError)
  deriving DecidableEq, Repr

/-- The `Interpreter` struct of `main.go`, with the standard output produced so far. -/
structure Interpreter where
  code : List Nat
  input : List Nat
  memory : List Nat
  ptr : Int
  codePtr : Nat
  inputPtr : Nat
  loopMap : List (Nat × Nat)
  debugMode : Bool
  memorySize : Nat
  stdout : List Out
  deriving DecidableEq, Repr

/-- Result of one pass through the body of the loop of `Execute` (or of a part of it):
the body completed, `Execute` returned an error, or the Go runtime panicked. -/
inductive Step where
  | next (bf : Interpreter)
  | fail (bf : Interpreter) (e : ExecError)
  | panic (bf : Interpreter)
  deriving DecidableEq, Repr

/-- How a run ended. -/
inductive Outcome where
  | halted
  | error (e : ExecError)
  | panicked
  deriving DecidableEq, Repr

/-- The interpreter state carried by a `Step`. -/
def Step.state : Step → Interpreter
  | .next bf => bf
  | .fail bf _ => bf
  | .panic bf => bf

/-! ## Go maps -/

/-- The entry stored under key `k`, if there is one. -/
def mapLookup : List (Nat × Nat) → Nat → Option Nat
  | [], _ => none
  | (k', v) :: rest, k => if k = k' then some v else mapLookup rest k

/-- Go's `m[k]` as an expression: the zero value when `k` is absent. -/
def mapGet (m : List (Nat × Nat)) (k : Nat) : Nat :=
  (mapLookup m k).getD 0

/-- Go's `m[k] = v`. -/
def mapSet (m : List (Nat × Nat)) (k v : Nat) : List (Nat × Nat) :=
  (k, v) :: m.filter (fun e => e.1 != k)

/-! ## `range` over a string -/

/-- The constant `utf8.RuneError`. -/
def runeError : Nat := 0xFFFD

/-- A UTF-8 continuation byte: `locb <= b && b <= hicb`. -/
def isCont (b : Nat) : Bool := 0x80 ≤ b && b ≤ 0xBF

/-- The Go runtime's `decoderune(s, k)`: the rune starting at byte `k` and the index after it.
An invalid or truncated sequence yields `RuneError` and consumes one byte. -/
def decoderune (s : List Nat) (k : Nat) : Nat × Nat :=
  if s.length ≤ k then (runeError, k + 1)
  else
    let t := s.drop k
    let s0 := t.getD 0 0
    let s1 := t.getD 1 0
    let s2 := t.getD 2 0
    let s3 := t.getD 3 0
    if 0xC0 ≤ s0 ∧ s0 < 0xE0 then
      if 1 < t.length ∧ isCont s1 then
        let r := ((s0 &&& 0x1F) <<< 6) ||| (s1 &&& 0x3F)
        if 0x7F < r then (r, k + 2) else (runeError, k + 1)
      else (runeError, k + 1)
    else if 0xE0 ≤ s0 ∧ s0 < 0xF0 then
      if 2 < t.length ∧ isCont s1 ∧ isCont s2 then
        let r := ((s0 &&& 0x0F) <<< 12) ||| ((s1 &&& 0x3F) <<< 6) ||| (s2 &&& 0x3F)
        if 0x7FF < r ∧ ¬ (0xD800 ≤ r ∧ r ≤ 0xDFFF) then (r, k + 3) else (runeError, k + 1)
      else (runeError, k + 1)
    else if 0xF0 ≤ s0 ∧ s0 < 0xF8 then
      if 3 < t.length ∧ isCont s1 ∧ isCont s2 ∧ isCont s3 then
        let r := ((s0 &&& 0x07) <<< 18) ||| ((s1 &&& 0x3F) <<< 12) |||
          ((s2 &&& 0x3F) <<< 6) ||| (s3 &&& 0x3F)
        if 0xFFFF < r ∧ r ≤ 0x10FFFF then (r, k + 4) else (runeError, k + 1)
      else (runeError, k + 1)
    else (runeError, k + 1)

/-- The iterations of `for i, cmd := range s` from byte index `hv1` on: the pairs `(i, cmd)`
in order.  A byte below `utf8.RuneSelf` is its own rune; otherwise `decoderune` is called.
Each iteration advances by at least one byte, so `s.length` iterations always suffice. -/
def rangeLoop (s : List Nat) : Nat → Nat → List (Nat × Nat)
  | 0, _ => []
  | fuel + 1, hv1 =>
    if hv1 < s.length then
      let b := s.getD hv1 0
      if b < 0x80 then (hv1, b) :: rangeLoop s fuel (hv1 + 1)
      else (hv1, (decoderune s hv1).1) :: rangeLoop s fuel (decoderune s hv1).2
    else []

/-- All iterations of `for i, cmd := range s`. -/
def rangeString (s : List Nat) : List (Nat × Nat) :=
  rangeLoop s s.length 0

/-! ## `NewInterpreter` and `BuildLoopMap` -/

/-- The function `NewInterpreter`: zeroed tape of `memorySize` cells, empty jump table, all
cursors zero.  (`make` panics on a negative length; `memorySize` is a `Nat` here.) -/
def NewInterpreter (code input : List Nat) (memorySize : Nat) (debugMode : Bool) :
    Interpreter :=
  { code := code
    input := input
    memory := List.replicate memorySize 0
    ptr := 0
    codePtr := 0
    inputPtr := 0
    loopMap := []
    debugMode := debugMode
    memorySize := memorySize
    stdout := [] }

/-- The loop of `BuildLoopMap` over the remaining iterations `(i, cmd)`, with the pending
stack (top at the end, as `append` builds it) and the jump table.  It yields the table
together with either the error returned from inside the loop or the final stack. -/
def scanLoop : List (Nat × Nat) → List Nat → List (Nat × Nat) →
    List (Nat × Nat) × Except BracketError (List Nat)
  | [], stack, m => (m, .ok stack)
  | (i, cmd) :: rest, stack, m =>
    if cmd = 91 then
      scanLoop rest (stack ++ [i]) m
    else if cmd = 93 then
      match stack.getLast? with
      | none => (m, .error (.unmatchedClosing i))
      | some start => scanLoop rest stack.dropLast (mapSet (mapSet m start i) i start)
    else
      scanLoop rest stack m

/-- The method `BuildLoopMap`: the interpreter with its jump table filled in (as far as the
scan got) and the returned error, `none` standing for `nil`. -/
def BuildLoopMap (bf : Interpreter) : Interpreter × Option BracketError :=
  match scanLoop (rangeString bf.code) [] bf.loopMap with
  | (m, .error e) => ({ bf with loopMap := m }, some e)
  | (m, .ok []) => ({ bf with loopMap := m }, none)
  | (m, .ok (p :: _)) => ({ bf with loopMap := m }, some (.unmatchedOpening p))

/-! ## `DebugPrint` and `Execute` -/

/-- The value of `bf.memory[bf.ptr]`, or `none` when the index is out of range. -/
def cell (bf : Interpreter) : Option Nat :=
  if 0 ≤ bf.ptr then bf.memory[bf.ptr.toNat]? else none

/-- The assignment `bf.memory[bf.ptr] = v` for an index in range. -/
def setCell (bf : Interpreter) (v : Nat) : Interpreter :=
  { bf with memory := bf.memory.set bf.ptr.toNat v }

/-- Appending to standard output. -/
def emit (bf : Interpreter) (o : List Out) : Interpreter :=
  { bf with stdout := bf.stdout ++ o }

/-- The bytes `fmt` writes for the verb `%c` applied to the integer `c`: the UTF-8 encoding
of the code point `c` (`fmtC` followed by `utf8.AppendRune`). -/
def fmtC (c : Nat) : List Nat :=
  let r := if 0x10FFFF < c then runeError else c
  if r ≤ 0x7F then [r]
  else if r ≤ 0x7FF then [0xC0 ||| (r >>> 6), 0x80 ||| (r &&& 0x3F)]
  else if 0xD800 ≤ r ∧ r ≤ 0xDFFF then [0xEF, 0xBF, 0xBD]
  else if r ≤ 0xFFFF then
    [0xE0 ||| (r >>> 12), 0x80 ||| ((r >>> 6) &&& 0x3F), 0x80 ||| (r &&& 0x3F)]
  else
    [0xF0 ||| (r >>> 18), 0x80 ||| ((r >>> 12) &&& 0x3F), 0x80 ||| ((r >>> 6) &&& 0x3F),
      0x80 ||| (r &&& 0x3F)]

/-- The method `DebugPrint`.  The fourth `Printf` indexes `bf.memory[bf.ptr]` and the fifth
slices `bf.memory[:16]`; either panics when out of range, after the earlier lines have
been written. -/
def DebugPrint (bf : Interpreter) : Step :=
  let bf1 := emit bf [.dbgBanner, .dbgCodePtr bf.codePtr, .dbgPtr bf.ptr]
  match cell bf with
  | none => .panic bf1
  | some v =>
    let bf2 := emit bf1 [.dbgCell v]
    if 16 ≤ bf.memory.length then
      .next (emit bf2 [.dbgDump (bf.memory.take 16), .dbgLoopMap bf.loopMap, .dbgRule])
    else .panic bf2

/-- The `switch cmd` statement of `Execute` (lines 76 to 112). -/
def execCmd (bf : Interpreter) (cmd : Nat) : Step :=
  if cmd = 62 then
    let bf1 := { bf with ptr := bf.ptr + 1 }
    if bf1.ptr ≥ (bf1.memorySize : Int) then .fail bf1 (.overflow bf1.ptr) else .next bf1
  else if cmd = 60 then
    let bf1 := { bf with ptr := bf.ptr - 1 }
    if bf1.ptr < 0 then .fail bf1 (.underflow bf1.ptr) else .next bf1
  else if cmd = 43 then
    match cell bf with
    | none => .panic bf
    | some v => .next (setCell bf ((v + 1) % 256))
  else if cmd = 45 then
    match cell bf with
    | none => .panic bf
    | some v => .next (setCell bf ((v + 255) % 256))
  else if cmd = 46 then
    match cell bf with
    | none => .panic bf
    | some v => .next (emit bf ((fmtC v).map Out.byte))
  else if cmd = 44 then
    if bf.inputPtr < bf.input.length then
      match cell bf with
      | none => .panic bf
      | some _ =>
        .next { setCell bf (bf.input.getD bf.inputPtr 0) with inputPtr := bf.inputPtr + 1 }
    else
      match cell bf with
      | none => .panic bf
      | some _ => .next (setCell bf 0)
  else if cmd = 91 then
    match cell bf with
    | none => .panic bf
    | some v =>
      if v = 0 then .next { bf with codePtr := mapGet bf.loopMap bf.codePtr } else .next bf
  else if cmd = 93 then
    match cell bf with
    | none => .panic bf
    | some v =>
      if v ≠ 0 then .next { bf with codePtr := mapGet bf.loopMap bf.codePtr } else .next bf
  else if cmd = 35 then
    DebugPrint bf
  else
    .next bf

/-- The statement `bf.codePtr++` (line 114). -/
def advance (bf : Interpreter) : Interpreter :=
  { bf with codePtr := bf.codePtr + 1 }

/-- The single-step block (lines 116 to 120): snapshot, prompt, wait for a line on standard
input (which the interpreter state does not depend on). -/
def debugPause (bf : Interpreter) : Step :=
  if bf.debugMode then
    match DebugPrint bf with
    | .next bf1 => .next (emit bf1 [.prompt])
    | r => r
  else .next bf

/-- Lines 75 to 114: fetch, `switch`, `bf.codePtr++`. -/
def stepCore (bf : Interpreter) : Step :=
  match bf.code[bf.codePtr]? with
  | none => .panic bf
  | some cmd =>
    match execCmd bf cmd with
    | .next bf1 => .next (advance bf1)
    | r => r

/-- One pass through the body of the loop of `Execute` (lines 75 to 120). -/
def step (bf : Interpreter) : Step :=
  match stepCore bf with
  | .next bf1 => debugPause bf1
  | r => r

/-- The method `Execute`, running at most `fuel` passes of its loop: the state it leaves and
how it ended, `none` when the loop is still running after `fuel` passes. -/
def Execute : Nat → Interpreter → Interpreter × Option Outcome
  | 0, bf => if bf.codePtr < bf.code.length then (bf, none) else (bf, some .halted)
  | fuel + 1, bf =>
    if bf.codePtr < bf.code.length then
      match step bf with
      | .next bf1 => Execute fuel bf1
      | .fail bf1 e => (bf1, some (.error e))
      | .panic bf1 => (bf1, some .panicked)
    else (bf, some .halted)

/-- What `main` does once the flags are parsed and the file is read: construct, resolve the
brackets, execute.  A bracket error ends the run before any instruction executes.  An error
returned by `BuildLoopMap` or by `Execute` is printed on standard output with
`fmt.Println("Error:", err)`; a panic writes nothing there. -/
def main (code input : List Nat) (memorySize : Nat) (debugMode : Bool) (fuel : Nat) :
    Interpreter × Option (BracketError ⊕ Outcome) :=
  match BuildLoopMap (NewInterpreter code input memorySize debugMode) with
  | (bf, some e) => (emit bf [.errBracket e], some (.inl e))
  | (bf, none) =>
    match Execute fuel bf with
    | (bf1, some (.error e)) => (emit bf1 [.errExec e], some (.inr (.error e)))
    | (bf1, some .halted) => (bf1, some (.inr .halted))
    | (bf1, some .panicked) => (bf1, some (.inr .panicked))
    | (bf1, none) => (bf1, none)

/-- The bytes the `.` instruction has written so far. -/
def emitted (bf : Interpreter) : List Nat :=
  bf.stdout.filterMap fun o => match o with
    | .byte b => some b
    | _ => none

/-! ## Bracket structure of a program -/

/-- Number of `[` bytes. -/
def opens (l : List Nat) : Nat := l.count 91

/-- Number of `]` bytes. -/
def closes (l : List Nat) : Nat := l.count 93

/-- Well-formed brackets: every initial part has at least as many `[` as `]`, and the
whole has equally many. -/
def WellFormed (l : List Nat) : Prop :=
  (∀ k, k ≤ l.length → closes (l.take k) ≤ opens (l.take k)) ∧ opens l = closes l

instance (l : List Nat) : Decidable (WellFormed l) := by
  unfold WellFormed; infer_instance

/-- The bytes strictly between positions `i` and `j`. -/
def between (code : List Nat) (i j : Nat) : List Nat :=
  (code.take j).drop (i + 1)

/-- Position `j` holds the `]` that matches the `[` at position `i`. -/
def Matching (code : List Nat) (i j : Nat) : Prop :=
  i < j ∧ code[i]? = some 91 ∧ code[j]? = some 93 ∧ WellFormed (between code i j)

instance (code : List Nat) (i j : Nat) : Decidable (Matching code i j) := by
  unfold Matching; infer_instance

/-! ## Auxiliary notions used in the proofs -/

/-- The byte-wise view of the program from index `k` on: each index with its byte. -/
def bytesFrom (s : List Nat) (k : Nat) : List (Nat × Nat) :=
  List.enumFrom k (s.drop k)

/-- No initial part has more `]` than `[`. -/
def NonNeg (l : List Nat) : Prop :=
  ∀ k, closes (l.take k) ≤ opens (l.take k)

/-- The pending stack (top first) against the scanned bytes: each pending position holds a
`[`, and the bytes after it up to the next pending position (or the end) are well formed;
so are the bytes before the lowest pending position. -/
def Pend : List Nat → List Nat → Prop
  | [], pre => WellFormed pre
  | p :: below, pre =>
    ∃ l mid, pre = l ++ 91 :: mid ∧ p = l.length ∧ WellFormed mid ∧ Pend below l

/-- Invariant of the loop of `BuildLoopMap` after the bytes `pre` have been scanned. -/
structure Inv (pre : List Nat) (stack : List Nat) (m : List (Nat × Nat)) : Prop where
  pend : Pend stack.reverse pre
  keys : ∀ k v, mapLookup m k = some v →
    k ∉ stack ∧ (pre[k]? = some 91 ∨ pre[k]? = some 93)
  opened : ∀ i, pre[i]? = some 91 → i ∉ stack →
    ∃ j, mapLookup m i = some j ∧ Matching pre i j ∧ mapLookup m j = some i
  closed : ∀ j, pre[j]? = some 93 →
    ∃ i, mapLookup m j = some i ∧ Matching pre i j ∧ mapLookup m i = some j

/-- What the loop of `BuildLoopMap` establishes on the whole program. -/
def ScanPost (code : List Nat) :
    List (Nat × Nat) × Except BracketError (List Nat) → Prop
  | (m, .ok stack) => Inv code stack m
  | (m, .error e) =>
    ∃ p r, code = p ++ 93 :: r ∧ e = .unmatchedClosing p.length ∧ Inv p [] m

/-- Runs of the loop of `Execute` from the state `bf0`: `Run bf0 tr bf` when the loop,
started in `bf0`, is back at its head in state `bf` after executing the instruction bytes
`tr`, in that order, each pass having completed. -/
inductive Run (bf0 : Interpreter) : List Nat → Interpreter → Prop
  | start : Run bf0 [] bf0
  | next {tr : List Nat} {bf bf1 : Interpreter} {cmd : Nat} :
    Run bf0 tr bf → bf.code[bf.codePtr]? = some cmd → step bf = .next bf1 →
      Run bf0 (tr ++ [cmd]) bf1

/-- The state in which `main` calls `Execute`. -/
def resolved (code input : List Nat) (memorySize : Nat) (debugMode : Bool) : Interpreter :=
  (BuildLoopMap (NewInterpreter code input memorySize debugMode)).1

/-- States at the head of the loop of `Execute` in a run of `main`, together with the
instructions executed so far: the program was accepted by `BuildLoopMap`. -/
def ReachableVia (code input : List Nat) (memorySize : Nat) (debugMode : Bool)
    (tr : List Nat) (bf : Interpreter) : Prop :=
  (BuildLoopMap (NewInterpreter code input memorySize debugMode)).2 = none ∧
    Run (resolved code input memorySize debugMode) tr bf

/-- States at the head of the loop of `Execute` in a run of `main`. -/
def Reachable (code input : List Nat) (memorySize : Nat) (debugMode : Bool)
    (bf : Interpreter) : Prop :=
  ∃ tr, ReachableVia code input memorySize debugMode tr bf

/-- The instruction about to execute moves the pointer off the tape: `>` with the pointer
on the last cell or beyond, or `<` with the pointer on cell 0. -/
def FaultStep (bf : Interpreter) : Prop :=
  (bf.code[bf.codePtr]? = some 62 ∧ (bf.memorySize : Int) ≤ bf.ptr + 1) ∨
  (bf.code[bf.codePtr]? = some 60 ∧ bf.ptr = 0)

/-- Two states that differ at most in what has been written to standard output, and not in
the bytes written by `.`. -/
def SameMachine (a b : Interpreter) : Prop :=
  a.code = b.code ∧ a.input = b.input ∧ a.memory = b.memory ∧ a.ptr = b.ptr ∧
  a.codePtr = b.codePtr ∧ a.inputPtr = b.inputPtr ∧ a.loopMap = b.loopMap ∧
  a.debugMode = b.debugMode ∧ a.memorySize = b.memorySize ∧ emitted a = emitted b

/-- What `Execute` never changes, and the shape of the tape. -/
structure Frame (bf0 bf : Interpreter) : Prop where
  code : bf.code = bf0.code
  input : bf.input = bf0.input
  loopMap : bf.loopMap = bf0.loopMap
  debugMode : bf.debugMode = bf0.debugMode
  memorySize : bf.memorySize = bf0.memorySize
  memLen : bf.memory.length = bf0.memory.length

/-- The pointer is on the tape, or on cell 0 of an empty tape. -/
def PtrOK (bf : Interpreter) : Prop :=
  0 ≤ bf.ptr ∧ (bf.ptr < (bf.memorySize : Int) ∨ bf.ptr = 0)

/-- Facts about every state at the head of the loop in a run of `main`. -/
structure LoopHead (code input : List Nat) (n : Nat) (dbg : Bool) (tr : List Nat)
    (bf : Interpreter) : Prop where
  codeEq : bf.code = code
  inputEq : bf.input = input
  debugEq : bf.debugMode = dbg
  sizeEq : bf.memorySize = n
  memLen : bf.memory.length = n
  ptrOK : PtrOK bf
  cursor : bf.inputPtr = min (tr.count 44) input.length
  table : Inv code [] bf.loopMap

/-- The same state on a tape with further cells `t` after the last one. -/
def extendTape (bf : Interpreter) (t : List Nat) : Interpreter :=
  { bf with memory := bf.memory ++ t }

/-- The same result on a tape with further cells `t` after the last one. -/
def Step.extendTape : Step → List Nat → Step
  | .next bf, t => .next (Brainfuck.extendTape bf t)
  | .fail bf e, t => .fail (Brainfuck.extendTape bf t) e
  | .panic bf, t => .panic (Brainfuck.extendTape bf t)

/-- The result is not a panic. -/
def Step.noPanic : Step → Prop
  | .panic _ => False
  | _ => True

/-- The program `++++++[>++++++++++<-]>+++++.` of end-to-end scenario 1. -/
def scenario1 : List Nat :=
  [43, 43, 43, 43, 43, 43, 91, 62, 43, 43, 43, 43, 43, 43, 43, 43, 43, 43, 60, 45, 93, 62,
    43, 43, 43, 43, 43, 46]

/-- Scenario 1 after `BuildLoopMap`, on a tape cut down to its first two cells. -/
def scenario1Short : Interpreter :=
  { code := scenario1
    input := []
    memory := [0, 0]
    ptr := 0
    codePtr := 0
    inputPtr := 0
    loopMap := [(20, 6), (6, 20)]
    debugMode := false
    memorySize := 30000
    stdout := [] }

/-- Scenario 1 on the short tape when it halts. -/
def scenario1ShortEnd : Interpreter :=
  { scenario1Short with
    memory := [0, 65]
    ptr := 1
    codePtr := 28
    stdout := [.byte 65] }

/-- One of the nine bytes `Execute` has a case for: `>`, `<`, `+`, `-`, `.`, `,`, `[`, `]`
and `#`. -/
def isCmd (c : Nat) : Bool :=
  c == 62 || c == 60 || c == 43 || c == 45 || c == 46 || c == 44 || c == 91 || c == 93 ||
    c == 35

/-- The program with every byte that is not one of the nine removed. -/
def strip (p : List Nat) : List Nat :=
  p.filter isCmd

/-- Where the byte at index `k` of `p` lands in `strip p`: the number of bytes kept among
the first `k`. -/
def cmdsBefore (p : List Nat) (k : Nat) : Nat :=
  (strip (p.take k)).length

/-- Two states that agree on everything but the program text, the program counter, the jump
table and the diagnostic lines on standard output. -/
structure Sim (a b : Interpreter) : Prop where
  input : a.input = b.input
  memory : a.memory = b.memory
  ptr : a.ptr = b.ptr
  inputPtr : a.inputPtr = b.inputPtr
  debugMode : a.debugMode = b.debugMode
  memorySize : a.memorySize = b.memorySize
  out : emitted a = emitted b

/-- Two results of the same kind, with the same error, in states related by `Sim`. -/
def StepSim : Step → Step → Prop
  | .next a, .next b => Sim a b
  | .fail a e, .fail b e2 => Sim a b ∧ e = e2
  | .panic a, .panic b => Sim a b
  | _, _ => False

/-- The states of a run of `p` and of a run of `strip p` at corresponding heads of the loop
of `Execute`: the same machine, and the program counter of the second is the translation of
the program counter of the first. -/
structure StripRel (p : List Nat) (a b : Interpreter) : Prop where
  sim : Sim a b
  codeA : a.code = p
  codeB : b.code = strip p
  pc : b.codePtr = cmdsBefore p a.codePtr
  pcLe : a.codePtr ≤ p.length
  tableA : Inv p [] a.loopMap
  tableB : Inv (strip p) [] b.loopMap
  ptrOK : PtrOK a
  memLen : a.memory.length = a.memorySize
  quiet : a.debugMode = false ∨ 16 ≤ a.memorySize

/-- Corresponding results of a pass of the loop on `p` and on `strip p`. -/
def StepRel (p : List Nat) : Step → Step → Prop
  | .next a, .next b => StripRel p a b
  | .fail a e, .fail b e2 => Sim a b ∧ e = e2
  | .panic a, .panic b => Sim a b
  | _, _ => False

/-- The state `main` ends in when `Execute` has left the state `bf` and ended as `o`: an
error is printed on standard output, and nothing else changes. -/
def reported (bf : Interpreter) : Option Outcome → Interpreter
  | some (.error e) => emit bf [.errExec e]
  | _ => bf

/-! # Proofs -/

/-! ## The rune-wise scan sees exactly the bracket bytes -/


theorem decoderune_rune (s : List Nat) (k : Nat) : 0x7F < (decoderune s k).1 := by
  unfold decoderune
  simp only []
  split_ifs with c1 c2 c3 c4 c5 c6 c7 c8 c9 c10
  all_goals first
    | (simp [runeError]; done)
    | exact c4
    | exact lt_trans (by norm_num) c7.1
    | exact lt_trans (by norm_num) c10.1

theorem getD_drop_eq (s : List Nat) (k i : Nat) : (s.drop k).getD i 0 = s.getD (k + i) 0 := by
  simp [List.getD_eq_getElem?_getD, List.getElem?_drop]

theorem isCont_ge {b : Nat} (h : isCont b = true) : 0x80 ≤ b := by
  simp [isCont] at h; omega

theorem decoderune_skip (s : List Nat) (k : Nat) (hb : 0x80 ≤ s.getD k 0) :
    k < (decoderune s k).2 ∧ ∀ j, k ≤ j → j < (decoderune s k).2 → 0x80 ≤ s.getD j 0 := by
  have h1 : ∀ j, k ≤ j → j < k + 1 → 0x80 ≤ s.getD j 0 := by
    intro j h1 h2
    have : j = k := by omega
    subst this; exact hb
  unfold decoderune
  simp only [getD_drop_eq]
  split_ifs with c1 c2 c3 c4 c5 c6 c7 c8 c9 c10
  all_goals first
    | exact ⟨by simp, by simpa using h1⟩
    | skip
  · refine ⟨by simp, ?_⟩
    intro j hj1 hj2
    simp only at hj2
    have h2 := isCont_ge c3.2
    rcases (by omega : j = k ∨ j = k + 1) with rfl | rfl
    · exact hb
    · exact h2
  · refine ⟨by simp, ?_⟩
    intro j hj1 hj2
    simp only at hj2
    have h2 := isCont_ge c6.2.1
    have h3 := isCont_ge c6.2.2
    rcases (by omega : j = k ∨ j = k + 1 ∨ j = k + 2) with rfl | rfl | rfl
    · exact hb
    · exact h2
    · exact h3
  · refine ⟨by simp, ?_⟩
    intro j hj1 hj2
    simp only at hj2
    have h2 := isCont_ge c9.2.1
    have h3 := isCont_ge c9.2.2.1
    have h4 := isCont_ge c9.2.2.2
    rcases (by omega : j = k ∨ j = k + 1 ∨ j = k + 2 ∨ j = k + 3) with rfl | rfl | rfl | rfl
    · exact hb
    · exact h2
    · exact h3
    · exact h4


theorem bytesFrom_of_le (s : List Nat) (k : Nat) (h : s.length ≤ k) : bytesFrom s k = [] := by
  simp [bytesFrom, List.drop_eq_nil_of_le h]

theorem bytesFrom_of_lt (s : List Nat) (k : Nat) (h : k < s.length) :
    bytesFrom s k = (k, s.getD k 0) :: bytesFrom s (k + 1) := by
  unfold bytesFrom
  rw [List.drop_eq_getElem_cons h]
  simp [List.enumFrom, h]

theorem scanLoop_other (i cmd : Nat) (rest : List (Nat × Nat)) (stack : List Nat)
    (m : List (Nat × Nat)) (h1 : cmd ≠ 91) (h2 : cmd ≠ 93) :
    scanLoop ((i, cmd) :: rest) stack m = scanLoop rest stack m := by
  simp [scanLoop, h1, h2]

theorem scanLoop_skip (s : List Nat) (stack : List Nat) (m : List (Nat × Nat)) :
    ∀ (d k : Nat), (∀ j, k ≤ j → j < k + d → 0x80 ≤ s.getD j 0) →
      scanLoop (bytesFrom s k) stack m = scanLoop (bytesFrom s (k + d)) stack m := by
  intro d
  induction d with
  | zero => intro k _; rfl
  | succ d ih =>
    intro k h
    by_cases hk : k < s.length
    · have hb := h k (le_refl _) (by omega)
      rw [bytesFrom_of_lt s k hk, scanLoop_other _ _ _ _ _ (by omega) (by omega)]
      rw [ih (k + 1) (fun j h1 h2 => h j (by omega) (by omega))]
      congr 2; omega
    · rw [bytesFrom_of_le s k (by omega), bytesFrom_of_le s (k + (d + 1)) (by omega)]

theorem scanLoop_rangeLoop (s : List Nat) :
    ∀ (fuel k : Nat) (stack : List Nat) (m : List (Nat × Nat)), s.length ≤ k + fuel →
      scanLoop (rangeLoop s fuel k) stack m = scanLoop (bytesFrom s k) stack m := by
  intro fuel
  induction fuel with
  | zero =>
    intro k stack m h
    rw [bytesFrom_of_le s k (by omega)]; rfl
  | succ fuel ih =>
    intro k stack m h
    by_cases hk : k < s.length
    · by_cases hb : s.getD k 0 < 0x80
      · rw [bytesFrom_of_lt s k hk]
        simp only [rangeLoop, hk, hb, if_true]
        unfold scanLoop
        simp only [ih (k + 1) _ _ (by omega)]
      · have hb2 : 0x80 ≤ s.getD k 0 := by omega
        obtain ⟨h1, h2⟩ := decoderune_skip s k hb2
        have hr := decoderune_rune s k
        simp only [rangeLoop, hk, hb, if_true, if_false]
        rw [scanLoop_other _ _ _ _ _ (by omega) (by omega), ih _ _ _ (by omega)]
        obtain ⟨d, hd⟩ : ∃ d, (decoderune s k).2 = k + d := ⟨(decoderune s k).2 - k, by omega⟩
        rw [hd, ← scanLoop_skip s stack m d k (fun j g1 g2 => h2 j g1 (by omega))]
    · rw [bytesFrom_of_le s k (by omega)]
      simp [rangeLoop, hk]

theorem scanLoop_rangeString (s : List Nat) (stack : List Nat) (m : List (Nat × Nat)) :
    scanLoop (rangeString s) stack m = scanLoop (bytesFrom s 0) stack m :=
  scanLoop_rangeLoop s s.length 0 stack m (by omega)


/-! ## Counting brackets -/

@[simp] theorem opens_nil : opens [] = 0 := rfl
@[simp] theorem closes_nil : closes [] = 0 := rfl

@[simp] theorem opens_append (a b : List Nat) : opens (a ++ b) = opens a + opens b := by
  simp [opens]

@[simp] theorem closes_append (a b : List Nat) : closes (a ++ b) = closes a + closes b := by
  simp [closes]

@[simp] theorem opens_cons (x : Nat) (l : List Nat) :
    opens (x :: l) = opens l + (if x = 91 then 1 else 0) := by
  simp [opens, List.count_cons]

@[simp] theorem closes_cons (x : Nat) (l : List Nat) :
    closes (x :: l) = closes l + (if x = 93 then 1 else 0) := by
  simp [closes, List.count_cons]

theorem wellFormed_iff (l : List Nat) : WellFormed l ↔ NonNeg l ∧ opens l = closes l := by
  unfold WellFormed NonNeg
  constructor
  · rintro ⟨h1, h2⟩
    refine ⟨fun k => ?_, h2⟩
    by_cases hk : k ≤ l.length
    · exact h1 k hk
    · rw [List.take_of_length_le (by omega)]; omega
  · rintro ⟨h1, h2⟩
    exact ⟨fun k _ => h1 k, h2⟩

theorem nonNeg_nil : NonNeg [] := by
  intro k; simp

theorem wellFormed_nil : WellFormed [] := by decide

theorem nonNeg_append {a b : List Nat} (ha : NonNeg a) (hb : NonNeg b) : NonNeg (a ++ b) := by
  intro k
  rw [List.take_append_eq_append_take]
  have h1 := ha k
  have h2 := hb (k - a.length)
  simp only [opens_append, closes_append]
  omega

theorem nonNeg_open (b : List Nat) (hb : NonNeg b) : NonNeg (91 :: b) := by
  intro k
  cases k with
  | zero => simp
  | succ k =>
    have h := hb k
    simp only [List.take_succ_cons, opens_cons, closes_cons]
    simp; omega

theorem nonNeg_wrap (b : List Nat) (hb : NonNeg b) : NonNeg (91 :: (b ++ [93])) := by
  intro k
  cases k with
  | zero => simp
  | succ k =>
    have h := hb k
    have h2 : closes (List.take (k - b.length) [93]) ≤ 1 := by
      cases (k - b.length) <;> simp
    simp only [List.take_succ_cons, List.take_append_eq_append_take, opens_cons, closes_cons,
      opens_append, closes_append]
    simp; omega

theorem nonNeg_single (x : Nat) (h : x ≠ 93) : NonNeg [x] := by
  intro k
  cases k <;> simp [h]

theorem wellFormed_snoc {l : List Nat} (h : WellFormed l) (x : Nat) (h1 : x ≠ 91)
    (h2 : x ≠ 93) : WellFormed (l ++ [x]) := by
  rw [wellFormed_iff] at h ⊢
  refine ⟨nonNeg_append h.1 (nonNeg_single x h2), ?_⟩
  simp [h1, h2, h.2]

theorem wellFormed_wrap {a b : List Nat} (ha : WellFormed a) (hb : WellFormed b) :
    WellFormed (a ++ 91 :: (b ++ [93])) := by
  rw [wellFormed_iff] at ha hb ⊢
  refine ⟨nonNeg_append ha.1 (nonNeg_wrap b hb.1), ?_⟩
  simp [ha.2, hb.2]

/-- A well-formed run followed by `]` is not an initial part of a sequence in which no
initial part has more `]` than `[`. -/
theorem nonNeg_no_close {r : List Nat} (hr : NonNeg r) (n : Nat)
    (hw : WellFormed (r.take n)) (h93 : r[n]? = some 93) : False := by
  have h := hr (n + 1)
  have hn : n < r.length := by
    rcases Nat.lt_or_ge n r.length with h | h
    · exact h
    · rw [List.getElem?_eq_none h] at h93; cases h93
  rw [List.take_succ, h93] at h
  rw [wellFormed_iff] at hw
  simp at h
  omega


/-! ## Go maps -/

theorem mapLookup_filter (m : List (Nat × Nat)) (k k' : Nat) (h : k' ≠ k) :
    mapLookup (m.filter (fun e => e.1 != k)) k' = mapLookup m k' := by
  induction m with
  | nil => rfl
  | cons e m ih =>
    obtain ⟨a, b⟩ := e
    by_cases ha : a = k
    · subst ha
      simp [List.filter_cons, mapLookup, h, ih]
    · simp [List.filter_cons, mapLookup, ha, ih]

theorem mapLookup_mapSet (m : List (Nat × Nat)) (k v k' : Nat) :
    mapLookup (mapSet m k v) k' = if k' = k then some v else mapLookup m k' := by
  unfold mapSet
  by_cases h : k' = k
  · simp [mapLookup, h]
  · simp [mapLookup, h, mapLookup_filter m k k' h]

/-! ## Matching brackets -/

theorem lt_length_of_getElem? {l : List Nat} {i v : Nat} (h : l[i]? = some v) :
    i < l.length := by
  rcases Nat.lt_or_ge i l.length with h1 | h1
  · exact h1
  · rw [List.getElem?_eq_none h1] at h; cases h

theorem getElem?_append_of_some {l : List Nat} {i v : Nat} (h : l[i]? = some v)
    (x : List Nat) : (l ++ x)[i]? = some v := by
  rw [List.getElem?_append_left (lt_length_of_getElem? h)]; exact h

theorem between_append (pre x : List Nat) (i j : Nat) (hj : j ≤ pre.length) :
    between (pre ++ x) i j = between pre i j := by
  unfold between
  rw [List.take_append_of_le_length hj]

theorem Matching.append {pre : List Nat} {i j : Nat} (h : Matching pre i j) (x : List Nat) :
    Matching (pre ++ x) i j := by
  obtain ⟨h1, h2, h3, h4⟩ := h
  refine ⟨h1, getElem?_append_of_some h2 x, getElem?_append_of_some h3 x, ?_⟩
  rw [between_append pre x i j (le_of_lt (lt_length_of_getElem? h3))]
  exact h4

theorem matching_wrap (l mid x : List Nat) (hw : WellFormed mid) :
    Matching ((l ++ 91 :: mid) ++ 93 :: x) l.length (l ++ 91 :: mid).length := by
  refine ⟨by simp, ?_, ?_, ?_⟩
  · rw [List.append_assoc, List.getElem?_append_right (le_refl _)]; simp
  · rw [List.getElem?_append_right (le_refl _)]; simp
  · unfold between
    have h : l ++ 91 :: mid = (l ++ [91]) ++ mid := by simp
    rw [List.take_left' rfl, h, List.drop_left' (by simp)]
    exact hw

/-- At most one position matches a given `[`. -/
theorem Matching.unique {code : List Nat} {i j j' : Nat} (h : Matching code i j)
    (h' : Matching code i j') : j = j' := by
  have key : ∀ a b, Matching code i a → Matching code i b → ¬ a < b := by
    intro a b ha hb hlt
    obtain ⟨a1, _, a3, a4⟩ := ha
    obtain ⟨b1, _, b3, b4⟩ := hb
    have hbl := lt_length_of_getElem? b3
    apply nonNeg_no_close ((wellFormed_iff _).1 b4).1 (a - (i + 1))
    · have : List.take (a - (i + 1)) (between code i b) = between code i a := by
        unfold between
        rw [List.take_drop, List.take_take]
        congr 2; omega
      rw [this]; exact a4
    · unfold between
      rw [List.getElem?_drop, List.getElem?_take_of_lt (by omega)]
      rw [← a3]; congr 1; omega
  rcases Nat.lt_trichotomy j j' with h1 | h1 | h1
  · exact absurd h1 (key j j' h h')
  · exact h1
  · exact absurd h1 (key j' j h' h)


/-! ## The pending stack -/

theorem Pend.holds_open : ∀ {st pre : List Nat}, Pend st pre → ∀ p ∈ st, pre[p]? = some 91 := by
  intro st
  induction st with
  | nil => intro pre _ p hp; cases hp
  | cons q below ih =>
    intro pre h p hp
    obtain ⟨l, mid, rfl, rfl, _, hl⟩ := h
    rcases List.mem_cons.1 hp with rfl | hp
    · rw [List.getElem?_append_right (le_refl _)]; simp
    · exact getElem?_append_of_some (ih hl p hp) _

theorem Pend.lt_top {p : Nat} {below pre : List Nat} (h : Pend (p :: below) pre) :
    ∀ q ∈ below, q < p := by
  obtain ⟨l, mid, rfl, rfl, _, hl⟩ := h
  intro q hq
  exact lt_length_of_getElem? (hl.holds_open q hq)

theorem Pend.count : ∀ {st pre : List Nat}, Pend st pre →
    opens pre = closes pre + st.length := by
  intro st
  induction st with
  | nil => intro pre h; simpa using ((wellFormed_iff _).1 h).2
  | cons q below ih =>
    intro pre h
    obtain ⟨l, mid, rfl, rfl, hm, hl⟩ := h
    have h1 := ih hl
    have h2 := ((wellFormed_iff _).1 hm).2
    simp; omega

theorem Pend.nonNeg : ∀ {st pre : List Nat}, Pend st pre → NonNeg pre := by
  intro st
  induction st with
  | nil => intro pre h; exact ((wellFormed_iff _).1 h).1
  | cons q below ih =>
    intro pre h
    obtain ⟨l, mid, rfl, rfl, hm, hl⟩ := h
    exact nonNeg_append (ih hl) (nonNeg_open mid ((wellFormed_iff _).1 hm).1)

theorem Pend.tail : ∀ {st pre : List Nat}, Pend st pre → ∀ p ∈ st,
    ∃ l r, pre = l ++ 91 :: r ∧ l.length = p ∧ NonNeg r := by
  intro st
  induction st with
  | nil => intro pre _ p hp; cases hp
  | cons q below ih =>
    intro pre h p hp
    obtain ⟨l, mid, rfl, rfl, hm, hl⟩ := h
    have hmid := nonNeg_open mid ((wellFormed_iff _).1 hm).1
    rcases List.mem_cons.1 hp with rfl | hp
    · exact ⟨l, mid, rfl, rfl, ((wellFormed_iff _).1 hm).1⟩
    · obtain ⟨l2, r2, rfl, rfl, hr2⟩ := ih hl p hp
      exact ⟨l2, r2 ++ 91 :: mid, by simp, rfl, nonNeg_append hr2 hmid⟩

theorem Pend.snoc_other : ∀ {st pre : List Nat}, Pend st pre → ∀ x, x ≠ 91 → x ≠ 93 →
    Pend st (pre ++ [x]) := by
  intro st pre h x h1 h2
  cases st with
  | nil => exact wellFormed_snoc h x h1 h2
  | cons q below =>
    obtain ⟨l, mid, rfl, rfl, hm, hl⟩ := h
    exact ⟨l, mid ++ [x], by simp, rfl, wellFormed_snoc hm x h1 h2, hl⟩

theorem Pend.push {st pre : List Nat} (h : Pend st pre) :
    Pend (pre.length :: st) (pre ++ [91]) :=
  ⟨pre, [], rfl, rfl, wellFormed_nil, h⟩

theorem Pend.pop {p : Nat} {st pre : List Nat} (h : Pend (p :: st) pre) :
    Pend st (pre ++ [93]) := by
  obtain ⟨l, mid, rfl, rfl, hm, hl⟩ := h
  cases st with
  | nil =>
    have := wellFormed_wrap hl hm
    simpa [Pend] using this
  | cons q below =>
    obtain ⟨l2, mid2, rfl, rfl, hm2, hl2⟩ := hl
    exact ⟨l2, mid2 ++ 91 :: (mid ++ [93]), by simp, rfl, wellFormed_wrap hm2 hm, hl2⟩


/-! ## The invariant of the loop of `BuildLoopMap` -/

theorem getElem?_snoc_cases {pre : List Nat} {x j v : Nat} (h : (pre ++ [x])[j]? = some v) :
    pre[j]? = some v ∨ (j = pre.length ∧ v = x) := by
  rcases Nat.lt_trichotomy j pre.length with h1 | h1 | h1
  · left; rwa [List.getElem?_append_left h1] at h
  · right
    subst h1
    rw [List.getElem?_append_right (le_refl _)] at h
    simp at h
    exact ⟨rfl, h.symm⟩
  · rw [List.getElem?_eq_none (by simp; omega)] at h; cases h

theorem Inv.init : Inv [] [] [] where
  pend := wellFormed_nil
  keys := fun k v h => by simp [mapLookup] at h
  opened := fun i h => by simp at h
  closed := fun j h => by simp at h

theorem Inv.key_lt {pre stack : List Nat} {m : List (Nat × Nat)} (h : Inv pre stack m)
    {k v : Nat} (hk : mapLookup m k = some v) : k < pre.length := by
  rcases (h.keys k v hk).2 with h2 | h2 <;> exact lt_length_of_getElem? h2

theorem Inv.step_other {pre stack : List Nat} {m : List (Nat × Nat)} (h : Inv pre stack m)
    (x : Nat) (h1 : x ≠ 91) (h2 : x ≠ 93) : Inv (pre ++ [x]) stack m where
  pend := h.pend.snoc_other x h1 h2
  keys := fun k v hk => by
    obtain ⟨a, b⟩ := h.keys k v hk
    exact ⟨a, b.imp (fun c => getElem?_append_of_some c _) (fun c => getElem?_append_of_some c _)⟩
  opened := fun i hi hs => by
    rcases getElem?_snoc_cases hi with c | ⟨_, c⟩
    · obtain ⟨j, a, b, d⟩ := h.opened i c hs
      exact ⟨j, a, b.append _, d⟩
    · exact absurd c.symm h1
  closed := fun j hj => by
    rcases getElem?_snoc_cases hj with c | ⟨_, c⟩
    · obtain ⟨i, a, b, d⟩ := h.closed j c
      exact ⟨i, a, b.append _, d⟩
    · exact absurd c.symm h2

theorem Inv.step_open {pre stack : List Nat} {m : List (Nat × Nat)} (h : Inv pre stack m) :
    Inv (pre ++ [91]) (stack ++ [pre.length]) m where
  pend := by simpa using h.pend.push
  keys := fun k v hk => by
    obtain ⟨a, b⟩ := h.keys k v hk
    have hlt := h.key_lt hk
    refine ⟨?_, b.imp (fun c => getElem?_append_of_some c _)
      (fun c => getElem?_append_of_some c _)⟩
    simp only [List.mem_append, List.mem_singleton, not_or]
    exact ⟨a, by omega⟩
  opened := fun i hi hs => by
    simp only [List.mem_append, List.mem_singleton, not_or] at hs
    rcases getElem?_snoc_cases hi with c | ⟨c, _⟩
    · obtain ⟨j, a, b, d⟩ := h.opened i c hs.1
      exact ⟨j, a, b.append _, d⟩
    · exact absurd c hs.2
  closed := fun j hj => by
    rcases getElem?_snoc_cases hj with c | ⟨_, c⟩
    · obtain ⟨i, a, b, d⟩ := h.closed j c
      exact ⟨i, a, b.append _, d⟩
    · cases c

theorem Inv.step_close {pre stack : List Nat} {m : List (Nat × Nat)} {start : Nat}
    (h : Inv pre (stack ++ [start]) m) :
    Inv (pre ++ [93]) stack (mapSet (mapSet m start pre.length) pre.length start) := by
  have hp : Pend (start :: stack.reverse) pre := by simpa using h.pend
  have hstart : pre[start]? = some 91 := hp.holds_open start (List.mem_cons_self _ _)
  have hslt : start < pre.length := lt_length_of_getElem? hstart
  have hbelow : ∀ q ∈ stack, q < start := fun q hq => hp.lt_top q (by simpa using hq)
  have hmatch : Matching (pre ++ [93]) start pre.length := by
    obtain ⟨l, mid, rfl, rfl, hm, _⟩ := hp
    exact matching_wrap l mid [] hm
  -- entries for other keys are untouched
  have hold : ∀ k v, mapLookup m k = some v →
      mapLookup (mapSet (mapSet m start pre.length) pre.length start) k = some v := by
    intro k v hk
    have h1 := h.key_lt hk
    have h2 : k ≠ start := by
      intro e
      exact (h.keys k v hk).1 (by simp [e])
    rw [mapLookup_mapSet, mapLookup_mapSet, if_neg (by omega), if_neg h2]
    exact hk
  refine ⟨hp.pop, ?_, ?_, ?_⟩
  · intro k v hk
    rw [mapLookup_mapSet, mapLookup_mapSet] at hk
    by_cases c1 : k = pre.length
    · subst c1
      refine ⟨fun hmem => ?_, Or.inr (by simp)⟩
      have := hbelow _ hmem
      omega
    · rw [if_neg c1] at hk
      by_cases c2 : k = start
      · subst c2
        exact ⟨fun hmem => lt_irrefl _ (hbelow _ hmem),
          Or.inl (getElem?_append_of_some hstart _)⟩
      · rw [if_neg c2] at hk
        obtain ⟨a, b⟩ := h.keys k v hk
        refine ⟨fun hmem => a (by simp [hmem]), b.imp (fun c => getElem?_append_of_some c _)
          (fun c => getElem?_append_of_some c _)⟩
  · intro i hi hs
    rcases getElem?_snoc_cases hi with c | ⟨_, c⟩
    · by_cases c2 : i = start
      · subst c2
        refine ⟨pre.length, ?_, hmatch, ?_⟩
        · rw [mapLookup_mapSet, mapLookup_mapSet, if_neg (by omega), if_pos rfl]
        · rw [mapLookup_mapSet, if_pos rfl]
      · obtain ⟨j, a, b, d⟩ := h.opened i c (by simp [hs, c2])
        exact ⟨j, hold _ _ a, b.append _, hold _ _ d⟩
    · cases c
  · intro j hj
    rcases getElem?_snoc_cases hj with c | ⟨c, _⟩
    · obtain ⟨i, a, b, d⟩ := h.closed j c
      exact ⟨i, hold _ _ a, b.append _, hold _ _ d⟩
    · subst c
      refine ⟨start, ?_, hmatch, ?_⟩
      · rw [mapLookup_mapSet, if_pos rfl]
      · rw [mapLookup_mapSet, mapLookup_mapSet, if_neg (by omega), if_pos rfl]


theorem bytesFrom_append_cons (pre : List Nat) (b : Nat) (rest : List Nat) :
    bytesFrom (pre ++ b :: rest) pre.length =
      (pre.length, b) :: bytesFrom ((pre ++ [b]) ++ rest) (pre ++ [b]).length := by
  rw [bytesFrom_of_lt _ _ (by simp)]
  have h : (pre ++ b :: rest).getD pre.length 0 = b := by
    rw [List.getD_eq_getElem?_getD, List.getElem?_append_right (le_refl _)]
    simp
  rw [h]
  simp

theorem scanLoop_post : ∀ (rest pre stack : List Nat) (m : List (Nat × Nat)),
    Inv pre stack m →
      ScanPost (pre ++ rest) (scanLoop (bytesFrom (pre ++ rest) pre.length) stack m) := by
  intro rest
  induction rest with
  | nil =>
    intro pre stack m h
    rw [bytesFrom_of_le _ _ (by simp)]
    simpa [scanLoop, ScanPost] using h
  | cons b rest ih =>
    intro pre stack m h
    have e : pre ++ b :: rest = (pre ++ [b]) ++ rest := by simp
    rw [bytesFrom_append_cons]
    by_cases h1 : b = 91
    · subst h1
      have := ih (pre ++ [91]) _ m h.step_open
      rw [e]
      simpa [scanLoop] using this
    · by_cases h2 : b = 93
      · subst h2
        rcases List.eq_nil_or_concat stack with rfl | ⟨st, start, rfl⟩
        · simp only [scanLoop, List.getLast?_nil]
          exact ⟨pre, rest, rfl, rfl, h⟩
        · rw [List.concat_eq_append] at h ⊢
          have := ih (pre ++ [93]) _ _ h.step_close
          rw [e]
          simpa [scanLoop] using this
      · have := ih (pre ++ [b]) _ m (h.step_other b h1 h2)
        rw [e]
        simpa [scanLoop, h1, h2] using this

/-- The loop of `BuildLoopMap`, started on a fresh interpreter, establishes `ScanPost`. -/
theorem scanLoop_fresh (code : List Nat) :
    ScanPost code (scanLoop (rangeString code) [] []) := by
  rw [scanLoop_rangeString]
  simpa using scanLoop_post code [] [] [] Inv.init


theorem between_append_cons (l r : List Nat) (x d : Nat) :
    between (l ++ x :: r) l.length (l.length + 1 + d) = r.take d := by
  unfold between
  have e : l ++ x :: r = (l ++ [x]) ++ r := by simp
  have e2 : l.length + 1 + d = (l ++ [x]).length + d := by simp
  rw [e, e2, List.take_append, List.drop_append_of_le_length (by simp)]
  rw [List.drop_eq_nil_of_le (by simp)]
  rfl

theorem getElem?_append_cons (l r : List Nat) (x d : Nat) :
    (l ++ x :: r)[l.length + 1 + d]? = r[d]? := by
  have e : l ++ x :: r = (l ++ [x]) ++ r := by simp
  rw [e, List.getElem?_append_right (by simp)]
  congr 1; simp

theorem Pend.unmatched {st pre : List Nat} (h : Pend st pre) {p : Nat} (hp : p ∈ st) (j : Nat) :
    ¬ Matching pre p j := by
  rintro ⟨h1, _, h3, h4⟩
  obtain ⟨l, r, rfl, rfl, hr⟩ := h.tail p hp
  obtain ⟨d, rfl⟩ : ∃ d, j = l.length + 1 + d := ⟨j - (l.length + 1), by omega⟩
  rw [between_append_cons] at h4
  rw [getElem?_append_cons] at h3
  exact nonNeg_no_close hr d h4 h3

theorem Pend.pairwise : ∀ {st pre : List Nat}, Pend st pre → st.Pairwise (fun a b => b < a) := by
  intro st
  induction st with
  | nil => intro pre _; exact List.Pairwise.nil
  | cons q below ih =>
    intro pre h
    have h1 := h.lt_top
    obtain ⟨l, mid, rfl, rfl, _, hl⟩ := h
    exact List.Pairwise.cons h1 (ih hl)

/-- The state of the jump table and the returned error after `BuildLoopMap` on a fresh
interpreter, in terms of the loop. -/
theorem buildLoopMap_fresh (code input : List Nat) (n : Nat) (dbg : Bool) :
    BuildLoopMap (NewInterpreter code input n dbg) =
      match scanLoop (rangeString code) [] [] with
      | (m, .error e) => ({ NewInterpreter code input n dbg with loopMap := m }, some e)
      | (m, .ok []) => ({ NewInterpreter code input n dbg with loopMap := m }, none)
      | (m, .ok (p :: _)) =>
        ({ NewInterpreter code input n dbg with loopMap := m }, some (.unmatchedOpening p)) :=
  rfl

/-- Acceptance by `BuildLoopMap` in terms of the loop: no error inside, empty final stack. -/
theorem buildLoopMap_accepts {code input : List Nat} {n : Nat} {dbg : Bool}
    (h : (BuildLoopMap (NewInterpreter code input n dbg)).2 = none) :
    Inv code [] (BuildLoopMap (NewInterpreter code input n dbg)).1.loopMap := by
  have hp := scanLoop_fresh code
  rw [buildLoopMap_fresh] at h ⊢
  rcases hs : scanLoop (rangeString code) [] [] with ⟨m, e | stack⟩
  · rw [hs] at h; simp at h
  · rw [hs] at h hp
    cases stack with
    | nil => simpa [ScanPost] using hp
    | cons p t => simp at h


/-- A well-formed program is accepted by `BuildLoopMap`. -/
theorem buildLoopMap_of_wellFormed {code : List Nat} (input : List Nat) (n : Nat) (dbg : Bool)
    (hw : WellFormed code) : (BuildLoopMap (NewInterpreter code input n dbg)).2 = none := by
  have hp := scanLoop_fresh code
  have hw2 := (wellFormed_iff _).1 hw
  rw [buildLoopMap_fresh]
  rcases hs : scanLoop (rangeString code) [] [] with ⟨m, e | stack⟩
  · rw [hs] at hp
    obtain ⟨p, r, rfl, rfl, hinv⟩ := hp
    have hw1 : WellFormed p := hinv.pend
    have h1 := hw2.1 (p.length + 1)
    have e : p ++ 93 :: r = (p ++ [93]) ++ r := by simp
    rw [e, List.take_left' (by simp)] at h1
    have h2 := ((wellFormed_iff _).1 hw1).2
    simp at h1
    omega
  · rw [hs] at hp
    cases stack with
    | nil => rfl
    | cons q t =>
      have hinv : Inv code (q :: t) m := hp
      have hc := hinv.pend.count
      simp at hc
      omega

/-! ## The loop resolver: claims -/

/-- C1. On a fresh interpreter, when `BuildLoopMap` returns `nil`, every position `i`
holding `[` has a table entry `j` which is its matching `]`: `j > i`, `code[j]` is `]`,
the bytes strictly between are well formed, and the table maps `j` back to `i`; and `j` is
the only position with these matching properties. -/
theorem buildLoopMap_matches (code input : List Nat) (n : Nat) (dbg : Bool) (i : Nat)
    (hok : (BuildLoopMap (NewInterpreter code input n dbg)).2 = none)
    (hi : code[i]? = some 91) :
    ∃ j, mapLookup (BuildLoopMap (NewInterpreter code input n dbg)).1.loopMap i = some j ∧
      mapGet (BuildLoopMap (NewInterpreter code input n dbg)).1.loopMap i = j ∧
      i < j ∧ code[j]? = some 93 ∧ WellFormed (between code i j) ∧
      mapGet (BuildLoopMap (NewInterpreter code input n dbg)).1.loopMap j = i ∧
      ∀ j', Matching code i j' → j' = j := by
  have hinv := buildLoopMap_accepts hok
  obtain ⟨j, a, b, c⟩ := hinv.opened i hi (by simp)
  refine ⟨j, a, by simp [mapGet, a], b.1, b.2.2.1, b.2.2.2, by simp [mapGet, c], ?_⟩
  intro j' hj'
  exact hj'.unique b

/-- C1, instance: the program `[[]+]`, position 0. -/
theorem buildLoopMap_matches_witness :
    ∃ j, mapLookup (BuildLoopMap (NewInterpreter [91, 91, 93, 43, 93] [] 1 false)).1.loopMap 0
        = some j ∧
      mapGet (BuildLoopMap (NewInterpreter [91, 91, 93, 43, 93] [] 1 false)).1.loopMap 0 = j ∧
      0 < j ∧ [91, 91, 93, 43, 93][j]? = some 93 ∧
      WellFormed (between [91, 91, 93, 43, 93] 0 j) ∧
      mapGet (BuildLoopMap (NewInterpreter [91, 91, 93, 43, 93] [] 1 false)).1.loopMap j = 0 ∧
      ∀ j', Matching [91, 91, 93, 43, 93] 0 j' → j' = j :=
  buildLoopMap_matches [91, 91, 93, 43, 93] [] 1 false 0 (by decide) (by decide)

/-- C2. `BuildLoopMap` returns `nil` exactly when the brackets of the program are well
formed; in every other case it returns one of the two unmatched-bracket errors. -/
theorem buildLoopMap_nil_iff (code input : List Nat) (n : Nat) (dbg : Bool) :
    ((BuildLoopMap (NewInterpreter code input n dbg)).2 = none ↔ WellFormed code) ∧
    (WellFormed code ∨ ∃ p,
      (BuildLoopMap (NewInterpreter code input n dbg)).2 = some (.unmatchedClosing p) ∨
      (BuildLoopMap (NewInterpreter code input n dbg)).2 = some (.unmatchedOpening p)) := by
  have hp := scanLoop_fresh code
  rw [buildLoopMap_fresh]
  rcases hs : scanLoop (rangeString code) [] [] with ⟨m, e | stack⟩
  · rw [hs] at hp
    obtain ⟨p, r, rfl, rfl, hinv⟩ := hp
    have hnot : ¬ WellFormed (p ++ 93 :: r) := by
      intro hw
      have hw1 : WellFormed p := hinv.pend
      have h1 := ((wellFormed_iff _).1 hw).1 (p.length + 1)
      have e : p ++ 93 :: r = (p ++ [93]) ++ r := by simp
      rw [e, List.take_left' (by simp)] at h1
      have h2 := ((wellFormed_iff _).1 hw1).2
      simp at h1
      omega
    exact ⟨by simp [hnot], Or.inr ⟨p.length, Or.inl rfl⟩⟩
  · rw [hs] at hp
    cases stack with
    | nil =>
      have hw : WellFormed code := hp.pend
      exact ⟨by simp [hw], Or.inl hw⟩
    | cons q t =>
      have hinv : Inv code (q :: t) m := hp
      have hc := hinv.pend.count
      have hnot : ¬ WellFormed code := by
        intro hw
        have := ((wellFormed_iff _).1 hw).2
        simp at hc
        omega
      exact ⟨by simp [hnot], Or.inr ⟨q, Or.inr rfl⟩⟩


/-- C3. For a well-formed program the table built by `BuildLoopMap` is an involution on
bracket positions: every position `i` holding `[` or `]` has an entry, reading the table
twice gives `i` back, and the entry of `i` is not `i`. -/
theorem loopMap_involution (code input : List Nat) (n : Nat) (dbg : Bool) (i : Nat)
    (hwf : WellFormed code) (hi : code[i]? = some 91 ∨ code[i]? = some 93) :
    (mapLookup (BuildLoopMap (NewInterpreter code input n dbg)).1.loopMap i).isSome ∧
    mapGet (BuildLoopMap (NewInterpreter code input n dbg)).1.loopMap
      (mapGet (BuildLoopMap (NewInterpreter code input n dbg)).1.loopMap i) = i ∧
    mapGet (BuildLoopMap (NewInterpreter code input n dbg)).1.loopMap i ≠ i := by
  have hok := buildLoopMap_of_wellFormed input n dbg hwf
  have hinv := buildLoopMap_accepts hok
  rcases hi with hi | hi
  · obtain ⟨j, a, b, c⟩ := hinv.opened i hi (by simp)
    have := b.1
    refine ⟨by simp [a], by simp [mapGet, a, c], ?_⟩
    simp only [mapGet, a, Option.getD_some]
    omega
  · obtain ⟨j, a, b, c⟩ := hinv.closed i hi
    have := b.1
    refine ⟨by simp [a], by simp [mapGet, a, c], ?_⟩
    simp only [mapGet, a, Option.getD_some]
    omega

/-- C3, instance: the program `[[]+]`, position 4 (the last `]`). -/
theorem loopMap_involution_witness :
    (mapLookup (BuildLoopMap (NewInterpreter [91, 91, 93, 43, 93] [] 1 false)).1.loopMap
      4).isSome ∧
    mapGet (BuildLoopMap (NewInterpreter [91, 91, 93, 43, 93] [] 1 false)).1.loopMap
      (mapGet (BuildLoopMap (NewInterpreter [91, 91, 93, 43, 93] [] 1 false)).1.loopMap 4)
        = 4 ∧
    mapGet (BuildLoopMap (NewInterpreter [91, 91, 93, 43, 93] [] 1 false)).1.loopMap 4 ≠ 4 :=
  loopMap_involution [91, 91, 93, 43, 93] [] 1 false 4 (by decide) (by decide)

/-- C4. A program with more `]` than `[` makes `BuildLoopMap` fail with the
unmatched-closing-bracket error, and the reported position `k` is the first unmatched `]`:
the initial part ending at `k` has more `]` than `[`, and no shorter initial part does. -/
theorem buildLoopMap_excess_closing (code input : List Nat) (n : Nat) (dbg : Bool)
    (h : opens code < closes code) :
    ∃ k, (BuildLoopMap (NewInterpreter code input n dbg)).2 = some (.unmatchedClosing k) ∧
      code[k]? = some 93 ∧
      opens (code.take (k + 1)) < closes (code.take (k + 1)) ∧
      ∀ k', k' < k → closes (code.take (k' + 1)) ≤ opens (code.take (k' + 1)) := by
  have hp := scanLoop_fresh code
  rw [buildLoopMap_fresh]
  rcases hs : scanLoop (rangeString code) [] [] with ⟨m, e | stack⟩
  · rw [hs] at hp
    obtain ⟨p, r, rfl, rfl, hinv⟩ := hp
    have hw : WellFormed p := hinv.pend
    have hw2 := (wellFormed_iff _).1 hw
    have e : p ++ 93 :: r = (p ++ [93]) ++ r := by simp
    refine ⟨p.length, rfl, ?_, ?_, ?_⟩
    · rw [List.getElem?_append_right (le_refl _)]; simp
    · rw [e, List.take_left' (by simp)]
      simp; omega
    · intro k' hk'
      rw [List.take_append_of_le_length (by omega)]
      exact hw2.1 _
  · rw [hs] at hp
    have hinv : Inv code stack m := hp
    have hc := hinv.pend.count
    omega

/-- C4, instance: the program `]` fails with an unmatched closing bracket at position 0. -/
theorem buildLoopMap_excess_closing_witness :
    (BuildLoopMap (NewInterpreter [93] [] 1 false)).2 = some (.unmatchedClosing 0) ∧
    ∃ k, (BuildLoopMap (NewInterpreter [93] [] 1 false)).2 = some (.unmatchedClosing k) ∧
      [93][k]? = some 93 ∧
      opens ([93].take (k + 1)) < closes ([93].take (k + 1)) ∧
      ∀ k', k' < k → closes ([93].take (k' + 1)) ≤ opens ([93].take (k' + 1)) :=
  ⟨by decide, buildLoopMap_excess_closing [93] [] 1 false (by decide)⟩

/-- C5. When no initial part of the program has more `]` than `[` (the scan meets no
unmatched `]`) and the program has more `[` than `]` (some `[` stays pending),
`BuildLoopMap` fails with the unmatched-opening-bracket error.  The reported position `p`
is the bottom of the final stack and its least element, it holds a `[` that no position
matches, and every `[` to its left has a match. -/
theorem buildLoopMap_excess_opening (code input : List Nat) (n : Nat) (dbg : Bool)
    (h1 : ∀ k, k ≤ code.length → closes (code.take k) ≤ opens (code.take k))
    (h2 : closes code < opens code) :
    ∃ p m stack, scanLoop (rangeString code) [] [] = (m, .ok stack) ∧
      stack.head? = some p ∧ (∀ q ∈ stack, p ≤ q) ∧
      (BuildLoopMap (NewInterpreter code input n dbg)).2 = some (.unmatchedOpening p) ∧
      code[p]? = some 91 ∧ (∀ j, ¬ Matching code p j) ∧
      ∀ q, q < p → code[q]? = some 91 → ∃ j, Matching code q j := by
  have hp := scanLoop_fresh code
  rw [buildLoopMap_fresh]
  rcases hs : scanLoop (rangeString code) [] [] with ⟨m, e | stack⟩
  · rw [hs] at hp
    obtain ⟨p, r, rfl, rfl, hinv⟩ := hp
    have hw : WellFormed p := hinv.pend
    have hw2 := (wellFormed_iff _).1 hw
    have e : p ++ 93 :: r = (p ++ [93]) ++ r := by simp
    have h3 := h1 (p.length + 1) (by simp)
    rw [e, List.take_left' (by simp)] at h3
    simp at h3
    omega
  · rw [hs] at hp
    have hinv : Inv code stack m := hp
    have hc := hinv.pend.count
    cases stack with
    | nil => simp at hc; omega
    | cons p t =>
      have hsorted : (p :: t).Pairwise (fun a b => a < b) := by
        have := hinv.pend.pairwise
        rwa [List.pairwise_reverse] at this
      have hmin : ∀ q ∈ p :: t, p ≤ q := by
        intro q hq
        rcases List.mem_cons.1 hq with rfl | hq
        · exact le_refl _
        · exact le_of_lt (List.rel_of_pairwise_cons hsorted hq)
      have hmem : p ∈ (p :: t).reverse := by simp
      refine ⟨p, m, p :: t, rfl, rfl, hmin, rfl, hinv.pend.holds_open p hmem,
        fun j => hinv.pend.unmatched hmem j, ?_⟩
      intro q hq h91
      obtain ⟨j, _, b, _⟩ := hinv.opened q h91 (fun hmem => by
        have := hmin q hmem
        omega)
      exact ⟨j, b⟩

/-- C5, instance: the program `[` fails with an unmatched opening bracket at position 0. -/
theorem buildLoopMap_excess_opening_witness :
    (BuildLoopMap (NewInterpreter [91] [] 1 false)).2 = some (.unmatchedOpening 0) ∧
    ∃ p m stack, scanLoop (rangeString [91]) [] [] = (m, .ok stack) ∧
      stack.head? = some p ∧ (∀ q ∈ stack, p ≤ q) ∧
      (BuildLoopMap (NewInterpreter [91] [] 1 false)).2 = some (.unmatchedOpening p) ∧
      [91][p]? = some 91 ∧ (∀ j, ¬ Matching [91] p j) ∧
      ∀ q, q < p → [91][q]? = some 91 → ∃ j, Matching [91] q j :=
  ⟨by decide, buildLoopMap_excess_opening [91] [] 1 false (by decide) (by decide)⟩


/-! ## The single-step block and `DebugPrint` leave the machine alone -/

theorem SameMachine.same (a : Interpreter) : SameMachine a a :=
  ⟨rfl, rfl, rfl, rfl, rfl, rfl, rfl, rfl, rfl, rfl⟩

theorem DebugPrint_same (bf : Interpreter) : SameMachine (DebugPrint bf).state bf := by
  unfold DebugPrint
  cases hc : cell bf with
  | none => simp [Step.state, SameMachine, emit, emitted]
  | some v =>
    by_cases h : 16 ≤ bf.memory.length
    · simp [h, Step.state, SameMachine, emit, emitted]
    · simp [h, Step.state, SameMachine, emit, emitted]

theorem DebugPrint_not_fail (bf bf1 : Interpreter) (e : ExecError) :
    DebugPrint bf ≠ .fail bf1 e := by
  unfold DebugPrint
  cases hc : cell bf with
  | none => simp
  | some v =>
    by_cases h : 16 ≤ bf.memory.length <;> simp [h]

theorem debugPause_off {bf : Interpreter} (h : bf.debugMode = false) :
    debugPause bf = .next bf := by
  simp [debugPause, h]

theorem debugPause_same (bf : Interpreter) : SameMachine (debugPause bf).state bf := by
  unfold debugPause
  by_cases h : bf.debugMode = true
  · have hd := DebugPrint_same bf
    simp only [h, if_true]
    cases hp : DebugPrint bf with
    | next bf1 =>
      rw [hp] at hd
      simpa [Step.state, SameMachine, emit, emitted] using hd
    | fail bf1 e => rw [hp] at hd; simpa [Step.state] using hd
    | panic bf1 => rw [hp] at hd; simpa [Step.state] using hd
  · simp [h, Step.state, SameMachine.same]

theorem debugPause_not_fail (bf bf1 : Interpreter) (e : ExecError) :
    debugPause bf ≠ .fail bf1 e := by
  unfold debugPause
  by_cases h : bf.debugMode = true
  · simp only [h, if_true]
    cases hp : DebugPrint bf with
    | next bf2 => simp
    | fail bf2 e2 => exact absurd hp (DebugPrint_not_fail _ _ _)
    | panic bf2 => simp
  · simp [h]

/-! ## One pass of the loop -/

theorem stepCore_next {bf bf1 : Interpreter} {cmd : Nat} (h : bf.code[bf.codePtr]? = some cmd)
    (hx : execCmd bf cmd = .next bf1) : stepCore bf = .next (advance bf1) := by
  simp [stepCore, h, hx]

theorem stepCore_fail {bf bf1 : Interpreter} {cmd : Nat} {e : ExecError}
    (h : bf.code[bf.codePtr]? = some cmd) (hx : execCmd bf cmd = .fail bf1 e) :
    stepCore bf = .fail bf1 e := by
  simp [stepCore, h, hx]

theorem stepCore_panic {bf bf1 : Interpreter} {cmd : Nat}
    (h : bf.code[bf.codePtr]? = some cmd) (hx : execCmd bf cmd = .panic bf1) :
    stepCore bf = .panic bf1 := by
  simp [stepCore, h, hx]

theorem step_eq_of_core_next {bf bf1 : Interpreter} (h : stepCore bf = .next bf1) :
    step bf = debugPause bf1 := by
  simp [step, h]

theorem step_eq_of_core_fail {bf bf1 : Interpreter} {e : ExecError}
    (h : stepCore bf = .fail bf1 e) : step bf = .fail bf1 e := by
  simp [step, h]

theorem step_eq_of_core_panic {bf bf1 : Interpreter} (h : stepCore bf = .panic bf1) :
    step bf = .panic bf1 := by
  simp [step, h]

/-- A pass of the loop returns an error only out of the `switch`. -/
theorem step_fail_iff (bf bf1 : Interpreter) (e : ExecError) :
    step bf = .fail bf1 e ↔ stepCore bf = .fail bf1 e := by
  constructor
  · intro h
    cases hc : stepCore bf with
    | next bf2 =>
      rw [step_eq_of_core_next hc] at h
      exact absurd h (debugPause_not_fail _ _ _)
    | fail bf2 e2 => rw [step_eq_of_core_fail hc] at h; exact h
    | panic bf2 => rw [step_eq_of_core_panic hc] at h; cases h
  · exact step_eq_of_core_fail


theorem Frame.unchanged (bf : Interpreter) : Frame bf bf := ⟨rfl, rfl, rfl, rfl, rfl, rfl⟩

theorem Frame.chain {a b c : Interpreter} (h1 : Frame a b) (h2 : Frame b c) : Frame a c :=
  ⟨h2.code.trans h1.code, h2.input.trans h1.input, h2.loopMap.trans h1.loopMap,
    h2.debugMode.trans h1.debugMode, h2.memorySize.trans h1.memorySize,
    h2.memLen.trans h1.memLen⟩

theorem execCmd_right (bf : Interpreter) :
    execCmd bf 62 =
      if (bf.memorySize : Int) ≤ bf.ptr + 1 then
        .fail { bf with ptr := bf.ptr + 1 } (.overflow (bf.ptr + 1))
      else .next { bf with ptr := bf.ptr + 1 } := by
  simp [execCmd]

theorem execCmd_left (bf : Interpreter) :
    execCmd bf 60 =
      if bf.ptr - 1 < 0 then .fail { bf with ptr := bf.ptr - 1 } (.underflow (bf.ptr - 1))
      else .next { bf with ptr := bf.ptr - 1 } := by
  simp [execCmd]

theorem execCmd_plus {bf : Interpreter} {v : Nat} (h : cell bf = some v) :
    execCmd bf 43 = .next (setCell bf ((v + 1) % 256)) := by
  simp [execCmd, h]

theorem execCmd_minus {bf : Interpreter} {v : Nat} (h : cell bf = some v) :
    execCmd bf 45 = .next (setCell bf ((v + 255) % 256)) := by
  simp [execCmd, h]

theorem execCmd_dot {bf : Interpreter} {v : Nat} (h : cell bf = some v) :
    execCmd bf 46 = .next (emit bf ((fmtC v).map Out.byte)) := by
  simp [execCmd, h]

theorem execCmd_comma {bf : Interpreter} {v : Nat} (h : cell bf = some v) :
    execCmd bf 44 =
      if bf.inputPtr < bf.input.length then
        .next { setCell bf (bf.input.getD bf.inputPtr 0) with inputPtr := bf.inputPtr + 1 }
      else .next (setCell bf 0) := by
  by_cases c : bf.inputPtr < bf.input.length <;> simp [execCmd, h, c]

theorem execCmd_open {bf : Interpreter} {v : Nat} (h : cell bf = some v) :
    execCmd bf 91 =
      if v = 0 then .next { bf with codePtr := mapGet bf.loopMap bf.codePtr } else .next bf := by
  simp [execCmd, h]

theorem execCmd_close {bf : Interpreter} {v : Nat} (h : cell bf = some v) :
    execCmd bf 93 =
      if v ≠ 0 then .next { bf with codePtr := mapGet bf.loopMap bf.codePtr } else .next bf := by
  simp [execCmd, h]

theorem execCmd_hash (bf : Interpreter) : execCmd bf 35 = DebugPrint bf := by
  simp [execCmd]

theorem execCmd_other (bf : Interpreter) (cmd : Nat) (h1 : cmd ≠ 62) (h2 : cmd ≠ 60)
    (h3 : cmd ≠ 43) (h4 : cmd ≠ 45) (h5 : cmd ≠ 46) (h6 : cmd ≠ 44) (h7 : cmd ≠ 91)
    (h8 : cmd ≠ 93) (h9 : cmd ≠ 35) : execCmd bf cmd = .next bf := by
  simp [execCmd, h1, h2, h3, h4, h5, h6, h7, h8, h9]

/-- Without a current cell the six cell instructions panic. -/
theorem execCmd_no_cell {bf : Interpreter} (h : cell bf = none) (cmd : Nat)
    (hc : cmd = 43 ∨ cmd = 45 ∨ cmd = 46 ∨ cmd = 44 ∨ cmd = 91 ∨ cmd = 93) :
    execCmd bf cmd = .panic bf := by
  rcases hc with rfl | rfl | rfl | rfl | rfl | rfl <;> simp [execCmd, h]

theorem execCmd_next_effect {bf bf1 : Interpreter} {cmd : Nat}
    (h : execCmd bf cmd = .next bf1) :
    Frame bf bf1 ∧ (PtrOK bf → PtrOK bf1) ∧
      bf1.inputPtr =
        (if cmd = 44 ∧ bf.inputPtr < bf.input.length then bf.inputPtr + 1 else bf.inputPtr) ∧
      (cmd ≠ 91 → cmd ≠ 93 → bf1.codePtr = bf.codePtr) := by
  by_cases c1 : cmd = 62
  · subst c1
    rw [execCmd_right] at h
    split_ifs at h with c
    cases h
    refine ⟨⟨rfl, rfl, rfl, rfl, rfl, rfl⟩, ?_, by simp, fun _ _ => rfl⟩
    intro hp
    simp only [PtrOK] at hp ⊢
    constructor
    · omega
    · left; omega
  by_cases c2 : cmd = 60
  · subst c2
    rw [execCmd_left] at h
    split_ifs at h with c
    cases h
    refine ⟨⟨rfl, rfl, rfl, rfl, rfl, rfl⟩, ?_, by simp, fun _ _ => rfl⟩
    intro hp
    simp only [PtrOK] at hp ⊢
    constructor
    · omega
    · left; omega
  by_cases c9 : cmd = 35
  · subst c9
    rw [execCmd_hash] at h
    have hs := DebugPrint_same bf
    rw [h] at hs
    obtain ⟨a1, a2, a3, a4, a5, a6, a7, a8, a9, _⟩ := hs
    simp only [Step.state] at a1 a2 a3 a4 a5 a6 a7 a8 a9
    refine ⟨⟨a1, a2, a7, a8, a9, by rw [a3]⟩, ?_, by simp [a6], fun _ _ => a5⟩
    intro hp
    simp only [PtrOK] at hp ⊢
    rw [a4, a9]; exact hp
  by_cases cc : cmd = 43 ∨ cmd = 45 ∨ cmd = 46 ∨ cmd = 44 ∨ cmd = 91 ∨ cmd = 93
  · cases hv : cell bf with
    | none => rw [execCmd_no_cell hv cmd cc] at h; cases h
    | some v =>
      rcases cc with rfl | rfl | rfl | rfl | rfl | rfl
      · rw [execCmd_plus hv] at h; cases h
        exact ⟨⟨rfl, rfl, rfl, rfl, rfl, by simp [setCell]⟩, fun hp => hp, by simp [setCell],
          fun _ _ => rfl⟩
      · rw [execCmd_minus hv] at h; cases h
        exact ⟨⟨rfl, rfl, rfl, rfl, rfl, by simp [setCell]⟩, fun hp => hp, by simp [setCell],
          fun _ _ => rfl⟩
      · rw [execCmd_dot hv] at h; cases h
        exact ⟨⟨rfl, rfl, rfl, rfl, rfl, rfl⟩, fun hp => hp, by simp [emit], fun _ _ => rfl⟩
      · rw [execCmd_comma hv] at h
        split_ifs at h with c <;> cases h
        · exact ⟨⟨rfl, rfl, rfl, rfl, rfl, by simp [setCell]⟩, fun hp => hp,
            by simp [c], fun _ _ => rfl⟩
        · exact ⟨⟨rfl, rfl, rfl, rfl, rfl, by simp [setCell]⟩, fun hp => hp,
            by simp [c, setCell], fun _ _ => rfl⟩
      · rw [execCmd_open hv] at h
        split_ifs at h with c <;> cases h <;>
          exact ⟨⟨rfl, rfl, rfl, rfl, rfl, rfl⟩, fun hp => hp, by simp,
            fun a _ => absurd rfl a⟩
      · rw [execCmd_close hv] at h
        split_ifs at h with c <;> cases h <;>
          exact ⟨⟨rfl, rfl, rfl, rfl, rfl, rfl⟩, fun hp => hp, by simp,
            fun _ a => absurd rfl a⟩
  · simp only [not_or] at cc
    rw [execCmd_other bf cmd c1 c2 cc.1 cc.2.1 cc.2.2.1 cc.2.2.2.1 cc.2.2.2.2.1
      cc.2.2.2.2.2 c9] at h
    cases h
    exact ⟨Frame.unchanged _, fun hp => hp, by simp [cc.2.2.2.1], fun _ _ => rfl⟩


/-! ## Runs of the loop -/

theorem step_of_core_next {bf b : Interpreter} (h : stepCore bf = .next b) :
    SameMachine (step bf).state b ∧ (∀ s e, step bf ≠ .fail s e) ∧
      (b.debugMode = false → step bf = .next b) := by
  rw [step_eq_of_core_next h]
  exact ⟨debugPause_same b, fun s e => debugPause_not_fail b s e, debugPause_off⟩

theorem step_next_effect {bf bf1 : Interpreter} {cmd : Nat}
    (hf : bf.code[bf.codePtr]? = some cmd) (h : step bf = .next bf1) :
    Frame bf bf1 ∧ (PtrOK bf → PtrOK bf1) ∧
      bf1.inputPtr =
        (if cmd = 44 ∧ bf.inputPtr < bf.input.length then bf.inputPtr + 1 else bf.inputPtr) ∧
      (cmd ≠ 91 → cmd ≠ 93 → bf1.codePtr = bf.codePtr + 1) := by
  cases hx : execCmd bf cmd with
  | next b =>
    have hc := stepCore_next hf hx
    obtain ⟨hs, _, _⟩ := step_of_core_next hc
    rw [h] at hs
    obtain ⟨a1, a2, a3, a4, a5, a6, a7, a8, a9, _⟩ := hs
    simp only [Step.state, advance] at a1 a2 a3 a4 a5 a6 a7 a8 a9
    obtain ⟨f, p, i, c⟩ := execCmd_next_effect hx
    refine ⟨⟨a1.trans f.code, a2.trans f.input, a7.trans f.loopMap, a8.trans f.debugMode,
      a9.trans f.memorySize, by rw [a3]; exact f.memLen⟩, ?_, by rw [a6]; exact i, ?_⟩
    · intro hp
      have := p hp
      simp only [PtrOK] at this ⊢
      rw [a4, a9]; exact this
    · intro c1 c2
      rw [a5, c c1 c2]
  | fail b e =>
    rw [step_eq_of_core_fail (stepCore_fail hf hx)] at h; cases h
  | panic b =>
    rw [step_eq_of_core_panic (stepCore_panic hf hx)] at h; cases h

theorem Run.frame {bf0 bf : Interpreter} {tr : List Nat} (h : Run bf0 tr bf) : Frame bf0 bf := by
  induction h with
  | start => exact Frame.unchanged _
  | next _ hf hs ih => exact ih.chain (step_next_effect hf hs).1

theorem Run.ptrOK {bf0 bf : Interpreter} {tr : List Nat} (h : Run bf0 tr bf)
    (h0 : PtrOK bf0) : PtrOK bf := by
  induction h with
  | start => exact h0
  | next _ hf hs ih => exact (step_next_effect hf hs).2.1 ih

/-- The input cursor is the number of `,` executed so far, capped at the input length. -/
theorem Run.inputPtr {bf0 bf : Interpreter} {tr : List Nat} (h : Run bf0 tr bf)
    (h0 : bf0.inputPtr = 0) : bf.inputPtr = min (tr.count 44) bf0.input.length := by
  induction h with
  | start => simp [h0]
  | @next tr b b1 cmd hr hf hs ih =>
    have hi := (step_next_effect hf hs).2.2.1
    have hfr := hr.frame
    rw [hi, ih, hfr.input]
    by_cases c : cmd = 44
    · subst c
      simp only [List.count_append, List.count_singleton_self, true_and]
      split_ifs with c2 <;> omega
    · have : List.count 44 [cmd] = 0 := by
        rw [List.count_eq_zero]; simpa using fun h => c h.symm
      simp only [List.count_append, this, c, false_and, if_false]
      simp

theorem Run.followedBy {bf0 bf1 bf2 : Interpreter} {tr1 tr2 : List Nat} (h1 : Run bf0 tr1 bf1)
    (h2 : Run bf1 tr2 bf2) : Run bf0 (tr1 ++ tr2) bf2 := by
  induction h2 with
  | start => simpa using h1
  | next _ hf hs ih =>
    rw [← List.append_assoc]
    exact Run.next ih hf hs

theorem Run.single {bf bf1 : Interpreter} {cmd : Nat} (hf : bf.code[bf.codePtr]? = some cmd)
    (hs : step bf = .next bf1) : Run bf [cmd] bf1 := by
  simpa using Run.next Run.start hf hs

theorem Execute_succ_next {bf bf1 : Interpreter} (hlt : bf.codePtr < bf.code.length)
    (hs : step bf = .next bf1) (fuel : Nat) : Execute (fuel + 1) bf = Execute fuel bf1 := by
  simp [Execute, hlt, hs]

theorem Execute_succ_fail {bf bf1 : Interpreter} {e : ExecError}
    (hlt : bf.codePtr < bf.code.length) (hs : step bf = .fail bf1 e) (fuel : Nat) :
    Execute (fuel + 1) bf = (bf1, some (.error e)) := by
  simp [Execute, hlt, hs]

/-- Running on from a state the loop reaches is running from the start with more fuel. -/
theorem Run.execute {bf0 bf : Interpreter} {tr : List Nat} (h : Run bf0 tr bf) :
    ∀ fuel, Execute (tr.length + fuel) bf0 = Execute fuel bf := by
  induction h with
  | start => intro fuel; simp
  | @next tr b b1 cmd _ hf hs ih =>
    intro fuel
    have hlt := lt_length_of_getElem? hf
    have e : (tr ++ [cmd]).length + fuel = tr.length + (fuel + 1) := by simp; omega
    rw [e, ih (fuel + 1), Execute_succ_next hlt hs]

/-- An error returned by `Execute` comes from a pass of the loop in a state it reached. -/
theorem Execute_error_run : ∀ (fuel : Nat) (bf0 bf1 : Interpreter) (e : ExecError),
    Execute fuel bf0 = (bf1, some (.error e)) →
      ∃ tr bf, Run bf0 tr bf ∧ bf.codePtr < bf.code.length ∧ step bf = .fail bf1 e := by
  intro fuel
  induction fuel with
  | zero =>
    intro bf0 bf1 e h
    unfold Execute at h
    split_ifs at h <;> cases h
  | succ fuel ih =>
    intro bf0 bf1 e h
    by_cases hlt : bf0.codePtr < bf0.code.length
    · cases hs : step bf0 with
      | next b =>
        rw [Execute_succ_next hlt hs] at h
        obtain ⟨tr, bf, hr, h1, h2⟩ := ih b bf1 e h
        obtain ⟨cmd, hf⟩ : ∃ cmd, bf0.code[bf0.codePtr]? = some cmd :=
          ⟨_, List.getElem?_eq_getElem hlt⟩
        exact ⟨[cmd] ++ tr, bf, (Run.single hf hs).followedBy hr, h1, h2⟩
      | fail b e2 =>
        rw [Execute_succ_fail hlt hs] at h
        cases h
        exact ⟨[], bf0, Run.start, hlt, hs⟩
      | panic b =>
        simp [Execute, hlt, hs] at h
    · simp [Execute, hlt] at h


/-! ## States reached in a run of `main` -/

theorem resolved_fields (code input : List Nat) (n : Nat) (dbg : Bool) :
    (resolved code input n dbg).code = code ∧ (resolved code input n dbg).input = input ∧
    (resolved code input n dbg).memory = List.replicate n 0 ∧
    (resolved code input n dbg).ptr = 0 ∧ (resolved code input n dbg).codePtr = 0 ∧
    (resolved code input n dbg).inputPtr = 0 ∧ (resolved code input n dbg).debugMode = dbg ∧
    (resolved code input n dbg).memorySize = n ∧ (resolved code input n dbg).stdout = [] := by
  unfold resolved
  rw [buildLoopMap_fresh]
  rcases scanLoop (rangeString code) [] [] with ⟨m, e | stack⟩
  · simp [NewInterpreter]
  · cases stack <;> simp [NewInterpreter]

theorem ReachableVia.loopHead {code input : List Nat} {n : Nat} {dbg : Bool} {tr : List Nat}
    {bf : Interpreter} (h : ReachableVia code input n dbg tr bf) :
    LoopHead code input n dbg tr bf := by
  obtain ⟨hok, hr⟩ := h
  obtain ⟨r1, r2, r3, r4, _, r6, r7, r8, _⟩ := resolved_fields code input n dbg
  have hf := hr.frame
  have hp : PtrOK (resolved code input n dbg) := by
    simp only [PtrOK]; rw [r4]; exact ⟨le_refl _, Or.inr rfl⟩
  refine ⟨hf.code.trans r1, hf.input.trans r2, hf.debugMode.trans r7,
    hf.memorySize.trans r8, ?_, hr.ptrOK hp, ?_, ?_⟩
  · rw [hf.memLen, r3]; simp
  · rw [hr.inputPtr r6, r2]
  · rw [hf.loopMap]; exact buildLoopMap_accepts hok

theorem cell_of_ptrOK {bf : Interpreter} (hp : PtrOK bf) (hl : bf.memory.length = bf.memorySize)
    (hn : 0 < bf.memorySize) : ∃ v, cell bf = some v := by
  obtain ⟨h0, h1⟩ := hp
  have hlt : bf.ptr.toNat < bf.memory.length := by
    rw [hl]; omega
  exact ⟨bf.memory[bf.ptr.toNat], by simp [cell, h0, List.getElem?_eq_getElem hlt]⟩

theorem cell_setCell {bf : Interpreter} {v : Nat} (h : cell bf = some v) (w : Nat) :
    cell (setCell bf w) = some w := by
  unfold cell at h ⊢
  by_cases h0 : 0 ≤ bf.ptr
  · simp only [h0, if_true] at h
    have hlt := lt_length_of_getElem? h
    simp [setCell, h0, hlt]
  · simp [h0] at h

theorem setCell_other (bf : Interpreter) (w i : Nat) (h : i ≠ bf.ptr.toNat) :
    (setCell bf w).memory[i]? = bf.memory[i]? := by
  simp [setCell, List.getElem?_set, Ne.symm h]

theorem execCmd_fail_cases {bf b : Interpreter} {cmd : Nat} {e : ExecError}
    (h : execCmd bf cmd = .fail b e) :
    (cmd = 62 ∧ (bf.memorySize : Int) ≤ bf.ptr + 1) ∨ (cmd = 60 ∧ bf.ptr - 1 < 0) := by
  by_cases c1 : cmd = 62
  · subst c1
    rw [execCmd_right] at h
    split_ifs at h with c
    exact Or.inl ⟨rfl, c⟩
  by_cases c2 : cmd = 60
  · subst c2
    rw [execCmd_left] at h
    split_ifs at h with c
    exact Or.inr ⟨rfl, c⟩
  by_cases c9 : cmd = 35
  · subst c9
    rw [execCmd_hash] at h
    exact absurd h (DebugPrint_not_fail _ _ _)
  by_cases cc : cmd = 43 ∨ cmd = 45 ∨ cmd = 46 ∨ cmd = 44 ∨ cmd = 91 ∨ cmd = 93
  · cases hv : cell bf with
    | none => rw [execCmd_no_cell hv cmd cc] at h; cases h
    | some v =>
      rcases cc with rfl | rfl | rfl | rfl | rfl | rfl
      · rw [execCmd_plus hv] at h; cases h
      · rw [execCmd_minus hv] at h; cases h
      · rw [execCmd_dot hv] at h; cases h
      · rw [execCmd_comma hv] at h; split_ifs at h
      · rw [execCmd_open hv] at h; split_ifs at h
      · rw [execCmd_close hv] at h; split_ifs at h
  · simp only [not_or] at cc
    rw [execCmd_other bf cmd c1 c2 cc.1 cc.2.1 cc.2.2.1 cc.2.2.2.1 cc.2.2.2.2.1
      cc.2.2.2.2.2 c9] at h
    cases h

theorem stepCore_fail_cases {bf b : Interpreter} {e : ExecError}
    (h : stepCore bf = .fail b e) :
    (bf.code[bf.codePtr]? = some 62 ∧ (bf.memorySize : Int) ≤ bf.ptr + 1) ∨
    (bf.code[bf.codePtr]? = some 60 ∧ bf.ptr - 1 < 0) := by
  cases hf : bf.code[bf.codePtr]? with
  | none => simp [stepCore, hf] at h
  | some cmd =>
    cases hx : execCmd bf cmd with
    | next b1 => rw [stepCore_next hf hx] at h; cases h
    | fail b1 e1 =>
      rcases execCmd_fail_cases hx with ⟨rfl, c⟩ | ⟨rfl, c⟩
      · exact Or.inl ⟨rfl, c⟩
      · exact Or.inr ⟨rfl, c⟩
    | panic b1 => rw [stepCore_panic hf hx] at h; cases h

theorem step_right_fail {bf : Interpreter} (hf : bf.code[bf.codePtr]? = some 62)
    (h : (bf.memorySize : Int) ≤ bf.ptr + 1) :
    step bf = .fail { bf with ptr := bf.ptr + 1 } (.overflow (bf.ptr + 1)) :=
  step_eq_of_core_fail (stepCore_fail hf (by rw [execCmd_right, if_pos h]))

theorem step_left_fail {bf : Interpreter} (hf : bf.code[bf.codePtr]? = some 60)
    (h : bf.ptr - 1 < 0) :
    step bf = .fail { bf with ptr := bf.ptr - 1 } (.underflow (bf.ptr - 1)) :=
  step_eq_of_core_fail (stepCore_fail hf (by rw [execCmd_left, if_pos h]))

theorem Reachable.run {code input : List Nat} {n : Nat} {dbg : Bool} {bf bf1 : Interpreter}
    {tr : List Nat} (h : Reachable code input n dbg bf) (hr : Run bf tr bf1) :
    Reachable code input n dbg bf1 := by
  obtain ⟨tr0, hok, h0⟩ := h
  exact ⟨tr0 ++ tr, hok, h0.followedBy hr⟩

/-! ## The execution engine: claims -/

/-- C6 (as amended). In every state at the head of the loop in a run of `main`: `>` with
pointer + 1 at or beyond the tape length (for a tape of at least one cell: pointer equal to
tape length - 1) makes `Execute` return the memory-overflow error, and `<` with pointer 0
the memory-underflow error, at once and with standard output as it was; in every other such
state `>` and `<` change only the pointer, by +1 and -1.  `Execute` returns an error exactly
when a state with such an instruction is reached. -/
theorem pointer_moves_checked (code input : List Nat) (n : Nat) (dbg : Bool)
    (bf : Interpreter) (hr : Reachable code input n dbg bf) :
    (bf.code[bf.codePtr]? = some 62 →
      ((bf.memorySize : Int) ≤ bf.ptr + 1 →
        step bf = .fail { bf with ptr := bf.ptr + 1 } (.overflow (bf.ptr + 1)) ∧
        ∀ fuel, Execute (fuel + 1) bf =
          ({ bf with ptr := bf.ptr + 1 }, some (.error (.overflow (bf.ptr + 1))))) ∧
      (bf.ptr + 1 < (bf.memorySize : Int) →
        execCmd bf 62 = .next { bf with ptr := bf.ptr + 1 })) ∧
    (bf.code[bf.codePtr]? = some 60 →
      (bf.ptr = 0 →
        step bf = .fail { bf with ptr := bf.ptr - 1 } (.underflow (-1)) ∧
        ∀ fuel, Execute (fuel + 1) bf =
          ({ bf with ptr := bf.ptr - 1 }, some (.error (.underflow (-1))))) ∧
      (bf.ptr ≠ 0 → execCmd bf 60 = .next { bf with ptr := bf.ptr - 1 })) ∧
    bf.memorySize = n ∧ 0 ≤ bf.ptr ∧
    (1 ≤ n → ((bf.memorySize : Int) ≤ bf.ptr + 1 ↔ bf.ptr = (n : Int) - 1)) ∧
    ((∃ fuel bf1 e, Execute fuel bf = (bf1, some (.error e))) ↔
      ∃ tr bf1, Run bf tr bf1 ∧ FaultStep bf1) := by
  obtain ⟨tr0, hvia⟩ := hr
  have hh := hvia.loopHead
  obtain ⟨hp0, hp1⟩ := hh.ptrOK
  refine ⟨?_, ?_, hh.sizeEq, hp0, ?_, ?_⟩
  · intro hf
    refine ⟨fun h => ?_, fun h => ?_⟩
    · have hs := step_right_fail hf h
      exact ⟨hs, fun fuel => Execute_succ_fail (lt_length_of_getElem? hf) hs fuel⟩
    · rw [execCmd_right, if_neg (by omega)]
  · intro hf
    refine ⟨fun h => ?_, fun h => ?_⟩
    · have hs := step_left_fail hf (by omega)
      have e : bf.ptr - 1 = -1 := by omega
      rw [e] at hs
      rw [e]
      exact ⟨hs, fun fuel => Execute_succ_fail (lt_length_of_getElem? hf) hs fuel⟩
    · rw [execCmd_left, if_neg (by omega)]
  · intro hn
    rw [hh.sizeEq] at hp1 ⊢
    omega
  · constructor
    · rintro ⟨fuel, bf1, e, h⟩
      obtain ⟨tr, b, hrun, _, hs⟩ := Execute_error_run fuel bf bf1 e h
      refine ⟨tr, b, hrun, ?_⟩
      have hb := (ReachableVia.loopHead ⟨hvia.1, hvia.2.followedBy hrun⟩).ptrOK
      rcases stepCore_fail_cases ((step_fail_iff _ _ _).1 hs) with ⟨c1, c2⟩ | ⟨c1, c2⟩
      · exact Or.inl ⟨c1, c2⟩
      · exact Or.inr ⟨c1, by have := hb.1; omega⟩
    · rintro ⟨tr, b, hrun, hfault⟩
      have hx := hrun.execute 1
      rcases hfault with ⟨c1, c2⟩ | ⟨c1, c2⟩
      · rw [Execute_succ_fail (lt_length_of_getElem? c1) (step_right_fail c1 c2)] at hx
        exact ⟨_, _, _, hx⟩
      · rw [Execute_succ_fail (lt_length_of_getElem? c1)
          (step_left_fail c1 (by omega))] at hx
        exact ⟨_, _, _, hx⟩

/-- C6, instance: the program `>` on a tape of one cell fails with memory overflow on its
first instruction; `Execute` has written nothing to standard output, and `main` then prints
the error line there, so that no byte of program output has been written. -/
theorem pointer_moves_checked_witness :
    Reachable [62] [] 1 false (resolved [62] [] 1 false) ∧
    (∀ fuel, Execute (fuel + 1) (resolved [62] [] 1 false) =
      ({ resolved [62] [] 1 false with ptr := (resolved [62] [] 1 false).ptr + 1 },
        some (.error (.overflow ((resolved [62] [] 1 false).ptr + 1))))) ∧
    (main [62] [] 1 false 1).2 = some (.inr (.error (.overflow 1))) ∧
    (Execute 1 (resolved [62] [] 1 false)).1.stdout = [] ∧
    (main [62] [] 1 false 1).1.stdout = [.errExec (.overflow 1)] ∧
    emitted (main [62] [] 1 false 1).1 = [] :=
  ⟨⟨[], by decide, Run.start⟩,
    (((pointer_moves_checked [62] [] 1 false (resolved [62] [] 1 false)
      ⟨[], by decide, Run.start⟩).1 (by decide)).1 (by decide)).2,
    by decide, by decide, by decide, by decide⟩

/-- C6 as stated fails on an empty tape: the program `>` with tape length 0 starts with
pointer 0, which is not tape length - 1, and yet `>` returns the memory-overflow error
instead of moving the pointer. -/
theorem pointer_claim_fails_on_empty_tape :
    Reachable [62] [] 0 false (resolved [62] [] 0 false) ∧
    (resolved [62] [] 0 false).code[(resolved [62] [] 0 false).codePtr]? = some 62 ∧
    (resolved [62] [] 0 false).ptr ≠ ((resolved [62] [] 0 false).memorySize : Int) - 1 ∧
    execCmd (resolved [62] [] 0 false) 62 =
      .fail { resolved [62] [] 0 false with ptr := 1 } (.overflow 1) ∧
    (main [62] [] 0 false 1).2 = some (.inr (.error (.overflow 1))) :=
  ⟨⟨[], by decide, Run.start⟩, by decide, by decide, by decide, by decide⟩

/-- C7. With the pointer on a cell holding `v`, `+` leaves that cell at `(v + 1) mod 256` and
`-` at `(v + 255) mod 256` (255 becomes 0, 0 becomes 255); neither returns an error or
panics, and every other cell, the tape length, the pointer, the input cursor and standard
output are unchanged.  The rest of the pass only advances the program counter (and, in
single-step mode, prints). -/
theorem cell_arithmetic (bf : Interpreter) (v : Nat) (hv : cell bf = some v) :
    (∃ bf1, execCmd bf 43 = .next bf1 ∧ cell bf1 = some ((v + 1) % 256) ∧
      (∀ i, i ≠ bf.ptr.toNat → bf1.memory[i]? = bf.memory[i]?) ∧
      bf1.memory.length = bf.memory.length ∧ bf1.ptr = bf.ptr ∧
      bf1.inputPtr = bf.inputPtr ∧ bf1.codePtr = bf.codePtr ∧ bf1.stdout = bf.stdout ∧
      (bf.code[bf.codePtr]? = some 43 →
        stepCore bf = .next (advance bf1) ∧ SameMachine (step bf).state (advance bf1) ∧
        ∀ s e, step bf ≠ .fail s e)) ∧
    (∃ bf1, execCmd bf 45 = .next bf1 ∧ cell bf1 = some ((v + 255) % 256) ∧
      (∀ i, i ≠ bf.ptr.toNat → bf1.memory[i]? = bf.memory[i]?) ∧
      bf1.memory.length = bf.memory.length ∧ bf1.ptr = bf.ptr ∧
      bf1.inputPtr = bf.inputPtr ∧ bf1.codePtr = bf.codePtr ∧ bf1.stdout = bf.stdout ∧
      (bf.code[bf.codePtr]? = some 45 →
        stepCore bf = .next (advance bf1) ∧ SameMachine (step bf).state (advance bf1) ∧
        ∀ s e, step bf ≠ .fail s e)) ∧
    (v = 255 → (v + 1) % 256 = 0) ∧ (v = 0 → (v + 255) % 256 = 255) := by
  refine ⟨⟨setCell bf ((v + 1) % 256), execCmd_plus hv, cell_setCell hv _,
      fun i hi => setCell_other bf _ i hi, by simp [setCell], rfl, rfl, rfl, rfl, ?_⟩,
    ⟨setCell bf ((v + 255) % 256), execCmd_minus hv, cell_setCell hv _,
      fun i hi => setCell_other bf _ i hi, by simp [setCell], rfl, rfl, rfl, rfl, ?_⟩,
    fun h => by subst h; rfl, fun h => by subst h; rfl⟩
  · intro hf
    have hc := stepCore_next hf (execCmd_plus hv)
    exact ⟨hc, (step_of_core_next hc).1, (step_of_core_next hc).2.1⟩
  · intro hf
    have hc := stepCore_next hf (execCmd_minus hv)
    exact ⟨hc, (step_of_core_next hc).1, (step_of_core_next hc).2.1⟩

/-- C7, instance: a cell holding 255 (the program `+` on a one-cell tape). -/
theorem cell_arithmetic_witness :
    (cell (setCell (NewInterpreter [43] [] 1 false) 255) = some 255) ∧
    ∃ bf1, execCmd (setCell (NewInterpreter [43] [] 1 false) 255) 43 = .next bf1 ∧
      cell bf1 = some 0 :=
  ⟨by decide,
    (cell_arithmetic (setCell (NewInterpreter [43] [] 1 false) 255) 255 (by decide)).1.imp
      fun _ h => ⟨h.1, h.2.1⟩⟩

theorem between_split (code : List Nat) (i i' j : Nat) (h1 : i < i') (h2 : i' < j)
    (h3 : j ≤ code.length) :
    between code i j = between code i i' ++ code.getD i' 0 :: between code i' j := by
  unfold between
  have hlen : i' < (code.take j).length := by simp; omega
  have e1 : code.take j = (code.take j).take i' ++ (code.take j).drop i' :=
    (List.take_append_drop i' _).symm
  have e2 : (code.take j).take i' = code.take i' := by
    rw [List.take_take]; congr 1; omega
  have e3 : (code.take j).drop i' = code.getD i' 0 :: (code.take j).drop (i' + 1) := by
    rw [List.drop_eq_getElem_cons hlen]
    congr 1
    rw [List.getElem_take, List.getD_eq_getElem?_getD, List.getElem?_eq_getElem (by omega)]
    rfl
  conv_lhs => rw [e1, e2, e3]
  rw [List.drop_append_of_le_length (by simp; omega)]

/-- At most one position is matched by a given `]`. -/
theorem Matching.unique_left {code : List Nat} {i i' j : Nat} (h : Matching code i j)
    (h' : Matching code i' j) : i = i' := by
  have key : ∀ a b, Matching code a j → Matching code b j → ¬ a < b := by
    intro a b ha hb hlt
    obtain ⟨_, _, a3, a4⟩ := ha
    obtain ⟨b1, b2, _, b4⟩ := hb
    have hj := lt_length_of_getElem? a3
    have hb91 : code.getD b 0 = 91 := by
      rw [List.getD_eq_getElem?_getD, b2]; rfl
    rw [between_split code a b j hlt b1 (le_of_lt hj), hb91] at a4
    have a5 := (wellFormed_iff _).1 a4
    have b5 := (wellFormed_iff _).1 b4
    have h1 := a5.1 (between code a b).length
    rw [List.take_left' rfl] at h1
    have h2 := a5.2
    simp at h2
    omega
  rcases Nat.lt_trichotomy i i' with h1 | h1 | h1
  · exact absurd h1 (key i i' h h')
  · exact h1
  · exact absurd h1 (key i' i h' h)

/-- C8. In a state at the head of the loop in a run of `main` (so the program was accepted
by `BuildLoopMap`), with the pointer on a cell holding `v`: on `[` the next program counter
is the position of the matching `]` plus one when `v = 0` and `pc + 1` otherwise; on `]` it
is the position of the matching `[` plus one when `v` is non-zero and `pc + 1` otherwise.
After the instruction and `codePtr++` nothing else has changed (tape, pointer, input cursor,
standard output); the whole pass ends in that same machine state with the same bytes
written by `.`, and is exactly that state when single-step mode is off. -/
theorem bracket_jumps (code input : List Nat) (n : Nat) (dbg : Bool) (bf : Interpreter)
    (v : Nat) (hr : Reachable code input n dbg bf) (hv : cell bf = some v) :
    (bf.code[bf.codePtr]? = some 91 →
      ∃ j, Matching code bf.codePtr j ∧ (∀ j', Matching code bf.codePtr j' → j' = j) ∧
        stepCore bf = .next { bf with codePtr := (if v = 0 then j else bf.codePtr) + 1 } ∧
        SameMachine (step bf).state
          { bf with codePtr := (if v = 0 then j else bf.codePtr) + 1 } ∧
        (bf.debugMode = false →
          step bf = .next { bf with codePtr := (if v = 0 then j else bf.codePtr) + 1 })) ∧
    (bf.code[bf.codePtr]? = some 93 →
      ∃ i, Matching code i bf.codePtr ∧ (∀ i', Matching code i' bf.codePtr → i' = i) ∧
        stepCore bf = .next { bf with codePtr := (if v ≠ 0 then i else bf.codePtr) + 1 } ∧
        SameMachine (step bf).state
          { bf with codePtr := (if v ≠ 0 then i else bf.codePtr) + 1 } ∧
        (bf.debugMode = false →
          step bf = .next { bf with codePtr := (if v ≠ 0 then i else bf.codePtr) + 1 })) := by
  obtain ⟨tr0, hvia⟩ := hr
  have hh := hvia.loopHead
  constructor
  · intro hf
    have hf2 : code[bf.codePtr]? = some 91 := by rw [← hh.codeEq]; exact hf
    obtain ⟨j, a, b, _⟩ := hh.table.opened bf.codePtr hf2 (by simp)
    have hget : mapGet bf.loopMap bf.codePtr = j := by simp [mapGet, a]
    have hc : stepCore bf =
        .next { bf with codePtr := (if v = 0 then j else bf.codePtr) + 1 } := by
      by_cases c : v = 0
      · have hx : execCmd bf 91 =
            .next { bf with codePtr := mapGet bf.loopMap bf.codePtr } := by
          rw [execCmd_open hv, if_pos c]
        rw [stepCore_next hf hx]; simp [c, advance, hget]
      · have hx : execCmd bf 91 = .next bf := by rw [execCmd_open hv, if_neg c]
        rw [stepCore_next hf hx]; simp [c, advance]
    exact ⟨j, b, fun j' hj' => hj'.unique b, hc, (step_of_core_next hc).1,
      (step_of_core_next hc).2.2⟩
  · intro hf
    have hf2 : code[bf.codePtr]? = some 93 := by rw [← hh.codeEq]; exact hf
    obtain ⟨i, a, b, _⟩ := hh.table.closed bf.codePtr hf2
    have hget : mapGet bf.loopMap bf.codePtr = i := by simp [mapGet, a]
    have hc : stepCore bf =
        .next { bf with codePtr := (if v ≠ 0 then i else bf.codePtr) + 1 } := by
      by_cases c : v = 0
      · have hx : execCmd bf 93 = .next bf := by rw [execCmd_close hv, if_neg (not_not.2 c)]
        rw [stepCore_next hf hx]; simp [c, advance]
      · have hx : execCmd bf 93 =
            .next { bf with codePtr := mapGet bf.loopMap bf.codePtr } := by
          rw [execCmd_close hv, if_pos c]
        rw [stepCore_next hf hx]; simp [c, advance, hget]
    exact ⟨i, b, fun i' hi' => hi'.unique_left b, hc, (step_of_core_next hc).1,
      (step_of_core_next hc).2.2⟩

/-- C8, instance: the program `[]` on a one-cell tape, at its first instruction with the
cell holding 0. -/
theorem bracket_jumps_witness :
    Reachable [91, 93] [] 1 false (resolved [91, 93] [] 1 false) ∧
    cell (resolved [91, 93] [] 1 false) = some 0 ∧
    ∃ j, Matching [91, 93] (resolved [91, 93] [] 1 false).codePtr j ∧
      (∀ j', Matching [91, 93] (resolved [91, 93] [] 1 false).codePtr j' → j' = j) ∧
      stepCore (resolved [91, 93] [] 1 false) =
        .next { resolved [91, 93] [] 1 false with
          codePtr := (if 0 = 0 then j else (resolved [91, 93] [] 1 false).codePtr) + 1 } :=
  ⟨⟨[], by decide, Run.start⟩, by decide,
    ((bracket_jumps [91, 93] [] 1 false (resolved [91, 93] [] 1 false) 0
      ⟨[], by decide, Run.start⟩ (by decide)).1 (by decide)).imp
      fun _ h => ⟨h.1, h.2.1, h.2.2.1⟩⟩

/-- Only `,` moves the input cursor, however the `switch` ends. -/
theorem execCmd_cursor (bf : Interpreter) (cmd : Nat) (hne : cmd ≠ 44) :
    (execCmd bf cmd).state.inputPtr = bf.inputPtr := by
  by_cases c1 : cmd = 62
  · subst c1
    rw [execCmd_right]
    split_ifs <;> rfl
  by_cases c2 : cmd = 60
  · subst c2
    rw [execCmd_left]
    split_ifs <;> rfl
  by_cases c9 : cmd = 35
  · subst c9
    rw [execCmd_hash]
    exact (DebugPrint_same bf).2.2.2.2.2.1
  by_cases cc : cmd = 43 ∨ cmd = 45 ∨ cmd = 46 ∨ cmd = 44 ∨ cmd = 91 ∨ cmd = 93
  · cases hv : cell bf with
    | none => rw [execCmd_no_cell hv cmd cc]; rfl
    | some v =>
      rcases cc with rfl | rfl | rfl | rfl | rfl | rfl
      · rw [execCmd_plus hv]; rfl
      · rw [execCmd_minus hv]; rfl
      · rw [execCmd_dot hv]; rfl
      · exact absurd rfl hne
      · rw [execCmd_open hv]; split_ifs <;> rfl
      · rw [execCmd_close hv]; split_ifs <;> rfl
  · simp only [not_or] at cc
    rw [execCmd_other bf cmd c1 c2 cc.1 cc.2.1 cc.2.2.1 cc.2.2.2.1 cc.2.2.2.2.1
      cc.2.2.2.2.2 c9]
    rfl

/-- A pass of the loop on an instruction other than `,` leaves the input cursor where it
was, however the pass ends. -/
theorem step_cursor {bf : Interpreter} {cmd : Nat} (hf : bf.code[bf.codePtr]? = some cmd)
    (hne : cmd ≠ 44) : (step bf).state.inputPtr = bf.inputPtr := by
  have hx := execCmd_cursor bf cmd hne
  cases hc : execCmd bf cmd with
  | next b =>
    rw [hc] at hx
    have h1 := stepCore_next hf hc
    have h2 := (step_of_core_next h1).1.2.2.2.2.2.1
    rw [h2]; exact hx
  | fail b e =>
    rw [hc] at hx
    rw [step_eq_of_core_fail (stepCore_fail hf hc)]; exact hx
  | panic b =>
    rw [hc] at hx
    rw [step_eq_of_core_panic (stepCore_panic hf hc)]; exact hx

/-- C9 on every tape of at least one cell (where the empty-tape panic cannot occur). In a
state at the head of the loop in a run of `main` in which `k` instructions `,` have been
executed so far: the input cursor
is `min k (len input)`; if the next instruction is `,` (the `k`-th one, counting from 0)
and `k < len input`, it stores `input[k]` in the current cell and moves the cursor from `k`
to `k + 1`; if `k >= len input` it stores 0 and leaves the cursor where it is; in neither
case does it return an error or panic.  A pass on any other instruction leaves the cursor
unchanged, however the pass ends. -/
theorem comma_consumes_input (code input : List Nat) (n : Nat) (dbg : Bool) (tr : List Nat)
    (bf : Interpreter) (hr : ReachableVia code input n dbg tr bf) (hn : 1 ≤ n) :
    bf.inputPtr = min (tr.count 44) input.length ∧
    (bf.code[bf.codePtr]? = some 44 →
      (tr.count 44 < input.length →
        ∃ bf1, stepCore bf = .next bf1 ∧ cell bf1 = input[tr.count 44]? ∧
          bf.inputPtr = tr.count 44 ∧ bf1.inputPtr = tr.count 44 + 1 ∧
          SameMachine (step bf).state bf1 ∧ ∀ s e, step bf ≠ .fail s e) ∧
      (input.length ≤ tr.count 44 →
        ∃ bf1, stepCore bf = .next bf1 ∧ cell bf1 = some 0 ∧
          bf1.inputPtr = bf.inputPtr ∧
          SameMachine (step bf).state bf1 ∧ ∀ s e, step bf ≠ .fail s e)) ∧
    (∀ cmd, bf.code[bf.codePtr]? = some cmd → cmd ≠ 44 →
      (step bf).state.inputPtr = bf.inputPtr) := by
  have hh := hr.loopHead
  obtain ⟨v, hv⟩ := cell_of_ptrOK hh.ptrOK (hh.memLen.trans hh.sizeEq.symm)
    (by rw [hh.sizeEq]; omega)
  refine ⟨hh.cursor, fun hf => ⟨fun hk => ?_, fun hk => ?_⟩, ?_⟩
  · have hcur : bf.inputPtr = tr.count 44 := by rw [hh.cursor]; omega
    have hlt : bf.inputPtr < bf.input.length := by rw [hcur, hh.inputEq]; exact hk
    have hx : execCmd bf 44 =
        .next { setCell bf (bf.input.getD bf.inputPtr 0) with inputPtr := bf.inputPtr + 1 } := by
      rw [execCmd_comma hv, if_pos hlt]
    have hc := stepCore_next hf hx
    refine ⟨_, hc, ?_, hcur, by simp [advance, hcur], (step_of_core_next hc).1,
      (step_of_core_next hc).2.1⟩
    have h1 := cell_setCell hv (bf.input.getD bf.inputPtr 0)
    have h2 : input[tr.count 44]? = some (bf.input.getD bf.inputPtr 0) := by
      rw [hh.inputEq, hcur, List.getD_eq_getElem?_getD, List.getElem?_eq_getElem hk]
      rfl
    rw [h2, ← h1]
    rfl
  · have hge : ¬ bf.inputPtr < bf.input.length := by
      rw [hh.cursor, hh.inputEq]; omega
    have hx : execCmd bf 44 = .next (setCell bf 0) := by
      rw [execCmd_comma hv, if_neg hge]
    have hc := stepCore_next hf hx
    refine ⟨_, hc, ?_, rfl, (step_of_core_next hc).1, (step_of_core_next hc).2.1⟩
    have h1 := cell_setCell hv 0
    rw [← h1]
    rfl
  · intro cmd hf hne
    exact step_cursor hf hne

/-- C9, instance: the program `,.` on a one-cell tape with input `Z`, at its first
instruction; run to the end it writes `Z`, and with empty input it writes the byte 0. -/
theorem comma_consumes_input_witness :
    ReachableVia [44, 46] [90] 1 false [] (resolved [44, 46] [90] 1 false) ∧
    (∃ bf1, stepCore (resolved [44, 46] [90] 1 false) = .next bf1 ∧
      cell bf1 = [90][List.count 44 ([] : List Nat)]? ∧
      bf1.inputPtr = List.count 44 ([] : List Nat) + 1) ∧
    (main [44, 46] [90] 1 false 2).2 = some (.inr .halted) ∧
    (main [44, 46] [90] 1 false 2).1.stdout = [.byte 90] ∧
    (main [44, 46] [] 1 false 2).2 = some (.inr .halted) ∧
    (main [44, 46] [] 1 false 2).1.stdout = [.byte 0] :=
  ⟨⟨by decide, Run.start⟩,
    (((comma_consumes_input [44, 46] [90] 1 false [] (resolved [44, 46] [90] 1 false)
      ⟨by decide, Run.start⟩ (by decide)).2.1 (by decide)).1 (by decide)).imp
      fun _ h => ⟨h.1, h.2.1, h.2.2.2.1⟩,
    by decide, by decide, by decide, by decide⟩

/-- C9: the code breaks the claim on an empty tape. For the program `,` with input `Z` and
tape length 0 (`-memory=0`, which `NewInterpreter` does not validate), the state at the first
`,` is reached, the cursor 0 is below the length of the input, and the pass panics on
`bf.memory[bf.ptr]` (index out of range) instead of storing `Z` and advancing the cursor:
`main` ends in a panic with the cursor still 0. -/
theorem comma_panics_on_empty_tape :
    ReachableVia [44] [90] 0 false [] (resolved [44] [90] 0 false) ∧
    (resolved [44] [90] 0 false).code[(resolved [44] [90] 0 false).codePtr]? = some 44 ∧
    List.count 44 ([] : List Nat) < [90].length ∧
    step (resolved [44] [90] 0 false) = .panic (resolved [44] [90] 0 false) ∧
    (main [44] [90] 0 false 1).2 = some (.inr .panicked) ∧
    (main [44] [90] 0 false 1).1.inputPtr = 0 :=
  ⟨⟨by decide, Run.start⟩, by decide, by decide, by decide, by decide, by decide⟩

/-- For a cell below 128 the verb `%c` writes the cell as one byte. -/
theorem fmtC_ascii (v : Nat) (h : v ≤ 127) : fmtC v = [v] := by
  have h1 : ¬ 1114111 < v := by omega
  simp [fmtC, h1, h]

/-- For a cell from 128 to 255 the verb `%c` writes two bytes. -/
theorem fmtC_high (v : Nat) (h1 : 128 ≤ v) (h2 : v ≤ 255) :
    fmtC v = [0xC0 ||| (v >>> 6), 0x80 ||| (v &&& 0x3F)] := by
  have a : ¬ 1114111 < v := by omega
  have b : ¬ v ≤ 127 := by omega
  have c : v ≤ 2047 := by omega
  simp [fmtC, a, b, c]

/-- C10 fails for a cell of 128 or more: the program `-.` on a one-cell tape halts having
written two bytes, 195 and 191 (the UTF-8 encoding of the code point 255 that `%c`
produces), not the single byte 255. -/
theorem dot_writes_two_bytes :
    fmtC 255 = [195, 191] ∧
    execCmd (setCell (NewInterpreter [46] [] 1 false) 255) 46 =
      .next (emit (setCell (NewInterpreter [46] [] 1 false) 255) [.byte 195, .byte 191]) ∧
    (main [45, 46] [] 1 false 2).2 = some (.inr .halted) ∧
    (main [45, 46] [] 1 false 2).1.memory = [255] ∧
    (main [45, 46] [] 1 false 2).1.stdout = [.byte 195, .byte 191] ∧
    emitted (main [45, 46] [] 1 false 2).1 ≠ [255] := by
  decide

/-! ## A longer tape -/

theorem cell_extendTape {bf : Interpreter} {v : Nat} (h : cell bf = some v) (t : List Nat) :
    cell (extendTape bf t) = some v := by
  unfold cell at h ⊢
  by_cases h0 : 0 ≤ bf.ptr
  · simp only [h0, if_true] at h
    simp only [extendTape, h0, if_true]
    exact getElem?_append_of_some h t
  · simp [h0] at h

theorem setCell_extendTape {bf : Interpreter} {v : Nat} (h : cell bf = some v) (w : Nat)
    (t : List Nat) : setCell (extendTape bf t) w = extendTape (setCell bf w) t := by
  unfold cell at h
  by_cases h0 : 0 ≤ bf.ptr
  · simp only [h0, if_true] at h
    have hlt := lt_length_of_getElem? h
    simp [setCell, extendTape, List.set_append_left _ _ hlt]
  · simp [h0] at h

theorem DebugPrint_extendTape (bf : Interpreter) (t : List Nat)
    (h : (DebugPrint bf).noPanic) :
    DebugPrint (extendTape bf t) = (DebugPrint bf).extendTape t := by
  unfold DebugPrint at h ⊢
  cases hc : cell bf with
  | none => simp [hc, Step.noPanic] at h
  | some v =>
    rw [cell_extendTape hc t]
    by_cases h16 : 16 ≤ bf.memory.length
    · have h16b : 16 ≤ (extendTape bf t).memory.length := by
        simp [extendTape]; omega
      have ht : List.take 16 (bf.memory ++ t) = List.take 16 bf.memory :=
        List.take_append_of_le_length h16
      have h16c : 16 ≤ bf.memory.length + t.length := by omega
      simp [hc, h16, h16c, Step.extendTape, extendTape, emit, ht]
    · simp [hc, h16, Step.noPanic] at h

theorem execCmd_extendTape (bf : Interpreter) (cmd : Nat) (t : List Nat)
    (h : (execCmd bf cmd).noPanic) :
    execCmd (extendTape bf t) cmd = (execCmd bf cmd).extendTape t := by
  by_cases c1 : cmd = 62
  · subst c1
    rw [execCmd_right, execCmd_right]
    by_cases c : (bf.memorySize : Int) ≤ bf.ptr + 1 <;>
      simp [c, extendTape, Step.extendTape]
  by_cases c2 : cmd = 60
  · subst c2
    rw [execCmd_left, execCmd_left]
    by_cases c : bf.ptr - 1 < 0 <;> simp [c, extendTape, Step.extendTape]
  by_cases c9 : cmd = 35
  · subst c9
    rw [execCmd_hash] at h
    rw [execCmd_hash, execCmd_hash]
    exact DebugPrint_extendTape bf t h
  by_cases cc : cmd = 43 ∨ cmd = 45 ∨ cmd = 46 ∨ cmd = 44 ∨ cmd = 91 ∨ cmd = 93
  · cases hv : cell bf with
    | none => rw [execCmd_no_cell hv cmd cc] at h; exact absurd h (by simp [Step.noPanic])
    | some v =>
      have hv2 := cell_extendTape hv t
      rcases cc with rfl | rfl | rfl | rfl | rfl | rfl
      · rw [execCmd_plus hv, execCmd_plus hv2, setCell_extendTape hv]; rfl
      · rw [execCmd_minus hv, execCmd_minus hv2, setCell_extendTape hv]; rfl
      · rw [execCmd_dot hv, execCmd_dot hv2]; rfl
      · rw [execCmd_comma hv, execCmd_comma hv2]
        by_cases c : bf.inputPtr < bf.input.length
        · have c2 : (extendTape bf t).inputPtr < (extendTape bf t).input.length := c
          rw [if_pos c, if_pos c2, setCell_extendTape hv]; rfl
        · have c2 : ¬ (extendTape bf t).inputPtr < (extendTape bf t).input.length := c
          rw [if_neg c, if_neg c2, setCell_extendTape hv]; rfl
      · rw [execCmd_open hv, execCmd_open hv2]
        by_cases c : v = 0 <;> simp [c, extendTape, Step.extendTape]
      · rw [execCmd_close hv, execCmd_close hv2]
        by_cases c : v = 0 <;> simp [c, extendTape, Step.extendTape]
  · simp only [not_or] at cc
    rw [execCmd_other _ cmd c1 c2 cc.1 cc.2.1 cc.2.2.1 cc.2.2.2.1 cc.2.2.2.2.1
      cc.2.2.2.2.2 c9, execCmd_other _ cmd c1 c2 cc.1 cc.2.1 cc.2.2.1 cc.2.2.2.1 cc.2.2.2.2.1
      cc.2.2.2.2.2 c9]
    rfl

theorem debugPause_extendTape (bf : Interpreter) (t : List Nat)
    (h : (debugPause bf).noPanic) :
    debugPause (extendTape bf t) = (debugPause bf).extendTape t := by
  unfold debugPause at h ⊢
  by_cases hd : bf.debugMode = true
  · have hd2 : (extendTape bf t).debugMode = true := hd
    simp only [hd, hd2, if_true] at h ⊢
    cases hp : DebugPrint bf with
    | next b =>
      rw [DebugPrint_extendTape bf t (by rw [hp]; trivial), hp]
      rfl
    | fail b e => exact absurd hp (DebugPrint_not_fail _ _ _)
    | panic b => rw [hp] at h; exact absurd h (by simp [Step.noPanic])
  · have hd2 : ¬ (extendTape bf t).debugMode = true := hd
    simp only [hd, hd2, if_false]
    rfl

theorem step_extendTape (bf : Interpreter) (t : List Nat) (h : (step bf).noPanic) :
    step (extendTape bf t) = (step bf).extendTape t := by
  cases hf : bf.code[bf.codePtr]? with
  | none =>
    have : step bf = .panic bf := by simp [step, stepCore, hf]
    rw [this] at h; exact absurd h (by simp [Step.noPanic])
  | some cmd =>
    have hf2 : (extendTape bf t).code[(extendTape bf t).codePtr]? = some cmd := hf
    cases hx : execCmd bf cmd with
    | next b =>
      have hx2 : execCmd (extendTape bf t) cmd = .next (extendTape b t) := by
        rw [execCmd_extendTape bf cmd t (by rw [hx]; trivial), hx]; rfl
      rw [step_eq_of_core_next (stepCore_next hf hx)] at h ⊢
      rw [step_eq_of_core_next (stepCore_next hf2 hx2)]
      exact debugPause_extendTape (advance b) t h
    | fail b e =>
      have hx2 : execCmd (extendTape bf t) cmd = .fail (extendTape b t) e := by
        rw [execCmd_extendTape bf cmd t (by rw [hx]; trivial), hx]; rfl
      rw [step_eq_of_core_fail (stepCore_fail hf hx),
        step_eq_of_core_fail (stepCore_fail hf2 hx2)]
      rfl
    | panic b =>
      rw [step_eq_of_core_panic (stepCore_panic hf hx)] at h
      exact absurd h (by simp [Step.noPanic])

/-- A run that does not panic goes the same way on a tape with further cells at the end,
which it leaves untouched. -/
theorem Execute_extendTape (t : List Nat) : ∀ (fuel : Nat) (bf : Interpreter),
    (Execute fuel bf).2 ≠ some .panicked →
      Execute fuel (extendTape bf t) = (extendTape (Execute fuel bf).1 t, (Execute fuel bf).2) := by
  intro fuel
  induction fuel with
  | zero =>
    intro bf _
    by_cases hlt : bf.codePtr < bf.code.length
    · have hlt2 : (extendTape bf t).codePtr < (extendTape bf t).code.length := hlt
      simp [Execute, hlt, hlt2]
    · have hlt2 : ¬ (extendTape bf t).codePtr < (extendTape bf t).code.length := hlt
      simp [Execute, hlt, hlt2]
  | succ fuel ih =>
    intro bf h
    by_cases hlt : bf.codePtr < bf.code.length
    · have hlt2 : (extendTape bf t).codePtr < (extendTape bf t).code.length := hlt
      cases hs : step bf with
      | next b =>
        have hs2 : step (extendTape bf t) = .next (extendTape b t) := by
          rw [step_extendTape bf t (by rw [hs]; trivial), hs]; rfl
        rw [Execute_succ_next hlt hs] at h ⊢
        rw [Execute_succ_next hlt2 hs2]
        exact ih b h
      | fail b e =>
        have hs2 : step (extendTape bf t) = .fail (extendTape b t) e := by
          rw [step_extendTape bf t (by rw [hs]; trivial), hs]; rfl
        rw [Execute_succ_fail hlt hs, Execute_succ_fail hlt2 hs2]
      | panic b =>
        simp [Execute, hlt, hs] at h
    · have hlt2 : ¬ (extendTape bf t).codePtr < (extendTape bf t).code.length := hlt
      simp [Execute, hlt, hlt2]

/-! ## End-to-end scenario 1 -/

theorem scenario1_resolved :
    BuildLoopMap (NewInterpreter scenario1 [] 30000 false) =
      (extendTape scenario1Short (List.replicate 29998 0), none) := by
  have hscan : scanLoop (rangeString scenario1) [] [] = ([(20, 6), (6, 20)], .ok []) := by
    rfl
  have hrep : List.replicate 30000 0 = [0, 0] ++ List.replicate 29998 0 := by
    show List.replicate (2 + 29998) 0 = _
    rw [List.replicate_add]
    rfl
  rw [buildLoopMap_fresh, hscan]
  simp only [NewInterpreter, extendTape, scenario1Short, hrep]

set_option maxRecDepth 8000 in
theorem scenario1_short : Execute 98 scenario1Short = (scenario1ShortEnd, some .halted) := by
  decide

set_option maxRecDepth 8000 in
theorem scenario1_short_running : (Execute 97 scenario1Short).2 = none := by
  decide

theorem scenario1_end_facts (t : List Nat) :
    (extendTape scenario1ShortEnd t).stdout = [.byte 65] ∧
    emitted (extendTape scenario1ShortEnd t) = [65] ∧
    (extendTape scenario1ShortEnd t).ptr = 1 ∧
    (extendTape scenario1ShortEnd t).memory[0]? = some 0 ∧
    (extendTape scenario1ShortEnd t).memory[1]? = some 65 ∧
    (extendTape scenario1ShortEnd t).memory.length = 2 + t.length ∧
    (extendTape scenario1ShortEnd t).codePtr = scenario1.length :=
  ⟨rfl, rfl, rfl, rfl, by simp [extendTape, scenario1ShortEnd],
    by simp [extendTape, scenario1ShortEnd]; omega, rfl⟩

theorem main_of_accept {code input : List Nat} {n : Nat} {dbg : Bool} {fuel : Nat}
    {bf bf1 : Interpreter} {o : Option Outcome}
    (h : BuildLoopMap (NewInterpreter code input n dbg) = (bf, none))
    (hx : Execute fuel bf = (bf1, o)) :
    main code input n dbg fuel = (reported bf1 o, o.map Sum.inr) := by
  rcases o with _ | (_ | e | _) <;> simp only [main, h, hx] <;> rfl

theorem reported_fields (bf : Interpreter) (o : Option Outcome) :
    emitted (reported bf o) = emitted bf ∧ (reported bf o).memory = bf.memory ∧
      (reported bf o).ptr = bf.ptr ∧ (reported bf o).inputPtr = bf.inputPtr ∧
      (reported bf o).codePtr = bf.codePtr ∧ (reported bf o).code = bf.code := by
  rcases o with _ | (_ | e | _)
  · exact ⟨rfl, rfl, rfl, rfl, rfl, rfl⟩
  · exact ⟨rfl, rfl, rfl, rfl, rfl, rfl⟩
  · exact ⟨by simp [reported, emitted, emit], rfl, rfl, rfl, rfl, rfl⟩
  · exact ⟨rfl, rfl, rfl, rfl, rfl, rfl⟩

theorem main_of_accept_outcome {code input : List Nat} {n : Nat} {dbg : Bool} {fuel : Nat}
    {bf : Interpreter} (h : BuildLoopMap (NewInterpreter code input n dbg) = (bf, none)) :
    (main code input n dbg fuel).2 = (Execute fuel bf).2.map Sum.inr := by
  rw [main_of_accept h (rfl : Execute fuel bf = ((Execute fuel bf).1, (Execute fuel bf).2))]

theorem scenario1_run :
    Execute 98 (extendTape scenario1Short (List.replicate 29998 0)) =
      (extendTape scenario1ShortEnd (List.replicate 29998 0), some .halted) := by
  have hx := Execute_extendTape (List.replicate 29998 0) 98 scenario1Short
    (by rw [scenario1_short]; decide)
  rw [scenario1_short] at hx
  exact hx

theorem scenario1_run_before :
    (Execute 97 (extendTape scenario1Short (List.replicate 29998 0))).2 = none := by
  rw [Execute_extendTape (List.replicate 29998 0) 97 scenario1Short
    (by rw [scenario1_short_running]; decide)]
  exact scenario1_short_running

/-- C11. Scenario 1, `++++++[>++++++++++<-]>+++++.` on a fresh interpreter with empty input
and the default tape of 30000 cells: `BuildLoopMap` accepts, `Execute` halts normally (after
98 passes of its loop and not earlier), standard output is the single byte 65 (`A`), the
pointer is 1, cell 0 holds 0 and cell 1 holds 65. -/
theorem scenario_one_outputs_A :
    ∃ bf, main scenario1 [] 30000 false 98 = (bf, some (.inr .halted)) ∧
      bf.stdout = [.byte 65] ∧ emitted bf = [65] ∧ bf.ptr = 1 ∧
      bf.memory[0]? = some 0 ∧ bf.memory[1]? = some 65 ∧ bf.memory.length = 30000 ∧
      bf.codePtr = scenario1.length ∧
      (main scenario1 [] 30000 false 97).2 = none := by
  obtain ⟨a1, a2, a3, a4, a5, a6, a7⟩ := scenario1_end_facts (List.replicate 29998 0)
  rw [List.length_replicate] at a6
  refine ⟨extendTape scenario1ShortEnd (List.replicate 29998 0),
    main_of_accept scenario1_resolved scenario1_run, a1, a2, a3, a4, a5, a6, a7, ?_⟩
  rw [main_of_accept_outcome scenario1_resolved, scenario1_run_before]
  rfl

/-! ## Pointer faults -/

/-- The state in which `Execute` returns an error, and the error, in terms of the state at
the head of the pass that faulted. -/
theorem Execute_error_shape {fuel : Nat} {bf0 bfF : Interpreter} {e : ExecError}
    (h : Execute fuel bf0 = (bfF, some (.error e))) :
    ∃ tr bf, Run bf0 tr bf ∧
      ((bf.code[bf.codePtr]? = some 62 ∧ (bf.memorySize : Int) ≤ bf.ptr + 1 ∧
          bfF = { bf with ptr := bf.ptr + 1 } ∧ e = .overflow (bf.ptr + 1)) ∨
        (bf.code[bf.codePtr]? = some 60 ∧ bf.ptr - 1 < 0 ∧
          bfF = { bf with ptr := bf.ptr - 1 } ∧ e = .underflow (bf.ptr - 1))) := by
  obtain ⟨tr, bf, hrun, _, hs⟩ := Execute_error_run fuel bf0 bfF e h
  refine ⟨tr, bf, hrun, ?_⟩
  rcases stepCore_fail_cases ((step_fail_iff _ _ _).1 hs) with ⟨c1, c2⟩ | ⟨c1, c2⟩
  · have := step_right_fail c1 c2
    rw [hs] at this
    injection this with h1 h2
    exact Or.inl ⟨c1, c2, h1, h2⟩
  · have := step_left_fail c1 c2
    rw [hs] at this
    injection this with h1 h2
    exact Or.inr ⟨c1, c2, h1, h2⟩

theorem main_inr {code input : List Nat} {n : Nat} {dbg : Bool} {fuel : Nat}
    {bfF : Interpreter} {o : Outcome}
    (h : main code input n dbg fuel = (bfF, some (.inr o))) :
    (BuildLoopMap (NewInterpreter code input n dbg)).2 = none ∧
      ∃ bf1, Execute fuel (resolved code input n dbg) = (bf1, some o) ∧
        bfF = reported bf1 (some o) := by
  unfold resolved
  rcases hb : BuildLoopMap (NewInterpreter code input n dbg) with ⟨bf, e | e⟩
  · rcases hx : Execute fuel bf with ⟨bf1, o1⟩
    rw [main_of_accept hb hx] at h
    cases o1 with
    | none => simp at h
    | some o1 =>
      simp only [Option.map_some', Prod.mk.injEq, Option.some.injEq, Sum.inr.injEq] at h
      obtain ⟨h1, rfl⟩ := h
      exact ⟨rfl, bf1, rfl, h1.symm⟩
  · unfold main at h
    rw [hb] at h
    simp at h

/-- C12 (as amended). Whenever `Execute` returns a memory-overflow or memory-underflow error,
the state it leaves has the program counter, input cursor, tape contents and standard output
(and code, input and jump table) of the state at the head of the faulting pass; only the
memory pointer differs: the faulting `>` has incremented it, the faulting `<` has
decremented it, and it holds the position that the error reports. -/
theorem fault_moves_only_pointer (fuel : Nat) (bf0 bfF : Interpreter) (e : ExecError)
    (h : Execute fuel bf0 = (bfF, some (.error e))) :
    ∃ tr bf, Run bf0 tr bf ∧
      bfF.codePtr = bf.codePtr ∧ bfF.inputPtr = bf.inputPtr ∧ bfF.memory = bf.memory ∧
      bfF.stdout = bf.stdout ∧ bfF.code = bf.code ∧ bfF.input = bf.input ∧
      bfF.loopMap = bf.loopMap ∧
      ((bf.code[bf.codePtr]? = some 62 ∧ bfF.ptr = bf.ptr + 1 ∧ e = .overflow bfF.ptr) ∨
        (bf.code[bf.codePtr]? = some 60 ∧ bfF.ptr = bf.ptr - 1 ∧ e = .underflow bfF.ptr)) ∧
      bfF.ptr ≠ bf.ptr := by
  obtain ⟨tr, bf, hrun, hc⟩ := Execute_error_shape h
  refine ⟨tr, bf, hrun, ?_⟩
  rcases hc with ⟨c1, _, rfl, rfl⟩ | ⟨c1, _, rfl, rfl⟩
  · exact ⟨rfl, rfl, rfl, rfl, rfl, rfl, rfl, Or.inl ⟨c1, rfl, rfl⟩, by simp⟩
  · exact ⟨rfl, rfl, rfl, rfl, rfl, rfl, rfl, Or.inr ⟨c1, rfl, rfl⟩, by simp⟩

/-- C12, instance: the program `<` on a one-cell tape. -/
theorem fault_moves_only_pointer_witness :
    ∃ tr bf, Run (resolved [60] [] 1 false) tr bf ∧
      (Execute 1 (resolved [60] [] 1 false)).1.codePtr = bf.codePtr ∧
      (Execute 1 (resolved [60] [] 1 false)).1.memory = bf.memory ∧
      (Execute 1 (resolved [60] [] 1 false)).1.ptr ≠ bf.ptr :=
  (fault_moves_only_pointer 1 (resolved [60] [] 1 false)
    (Execute 1 (resolved [60] [] 1 false)).1 (.underflow (-1)) (by decide)).imp
    fun _ h => h.imp fun _ h => ⟨h.1, h.2.1, h.2.2.2.1, h.2.2.2.2.2.2.2.2.2⟩

/-- C12 as stated fails: the program `>` on a one-cell tape faults on its first instruction,
which starts with the pointer at 0, and `Execute` returns with the pointer at 1. -/
theorem fault_is_not_atomic :
    (Execute 1 (resolved [62] [] 1 false)).2 = some (.error (.overflow 1)) ∧
    (resolved [62] [] 1 false).ptr = 0 ∧
    (Execute 1 (resolved [62] [] 1 false)).1.ptr = 1 ∧
    (Execute 1 (resolved [62] [] 1 false)).1 ≠ resolved [62] [] 1 false ∧
    (main [62] [] 1 false 1).1.ptr = 1 := by
  decide

/-- C13 (as amended). Whenever a run of `main` fails with memory overflow or underflow, the
position carried by the error is the out-of-range value of the memory pointer after the
move, which is also the pointer of the state `Execute` leaves: for overflow the pointer
before the `>` plus one, which is the tape length (1 on an empty tape); for underflow -1. -/
theorem fault_reports_pointer (code input : List Nat) (n : Nat) (dbg : Bool) (fuel : Nat)
    (bfF : Interpreter) (e : ExecError)
    (h : main code input n dbg fuel = (bfF, some (.inr (.error e)))) :
    ∃ tr bf, ReachableVia code input n dbg tr bf ∧
      ((bf.code[bf.codePtr]? = some 62 ∧ e = .overflow (bf.ptr + 1) ∧
          bfF.ptr = bf.ptr + 1 ∧ bf.ptr + 1 = ((max n 1 : Nat) : Int)) ∨
        (bf.code[bf.codePtr]? = some 60 ∧ e = .underflow (-1) ∧ bfF.ptr = -1 ∧
          bf.ptr = 0)) := by
  obtain ⟨hok, bf1, hx, rfl⟩ := main_inr h
  obtain ⟨tr, bf, hrun, hc⟩ := Execute_error_shape hx
  have hvia : ReachableVia code input n dbg tr bf := ⟨hok, hrun⟩
  have hh := hvia.loopHead
  obtain ⟨hp0, hp1⟩ := hh.ptrOK
  rw [hh.sizeEq] at hp1
  refine ⟨tr, bf, hvia, ?_⟩
  rcases hc with ⟨c1, c2, rfl, rfl⟩ | ⟨c1, c2, rfl, rfl⟩
  · rw [hh.sizeEq] at c2
    refine Or.inl ⟨c1, rfl, rfl, ?_⟩
    rcases Nat.eq_zero_or_pos n with hn | hn
    · subst hn
      have : bf.ptr = 0 := by omega
      rw [this]; rfl
    · have : max n 1 = n := by omega
      rw [this]; omega
  · have h0 : bf.ptr = 0 := by omega
    refine Or.inr ⟨c1, ?_, ?_, h0⟩
    · rw [h0]; rfl
    · show bf.ptr - 1 = -1
      omega

/-- C13, instance: the program `>>>` on a three-cell tape. -/
theorem fault_reports_pointer_witness :
    ∃ tr bf, ReachableVia [62, 62, 62] [] 3 false tr bf ∧
      ((bf.code[bf.codePtr]? = some 62 ∧ ExecError.overflow 3 = .overflow (bf.ptr + 1) ∧
          (main [62, 62, 62] [] 3 false 3).1.ptr = bf.ptr + 1 ∧
          bf.ptr + 1 = ((max 3 1 : Nat) : Int)) ∨
        (bf.code[bf.codePtr]? = some 60 ∧ ExecError.overflow 3 = .underflow (-1) ∧
          (main [62, 62, 62] [] 3 false 3).1.ptr = -1 ∧ bf.ptr = 0)) :=
  fault_reports_pointer [62, 62, 62] [] 3 false 3 (main [62, 62, 62] [] 3 false 3).1
    (.overflow 3) (by decide)

/-- C13 as stated fails: in the program `+<` the faulting `<` is at index 1 of the program
and the error carries -1; in `>` on a one-cell tape the faulting `>` is at index 0 and the
error carries 1. -/
theorem fault_position_is_not_program_counter :
    (main [43, 60] [] 1 false 2).2 = some (.inr (.error (.underflow (-1)))) ∧
    (main [43, 60] [] 1 false 2).1.codePtr = 1 ∧
    (main [43, 60] [] 1 false 2).1.code[1]? = some 60 ∧
    (main [62] [] 1 false 1).2 = some (.inr (.error (.overflow 1))) ∧
    (main [62] [] 1 false 1).1.codePtr = 0 ∧
    (main [62] [] 1 false 1).1.code[0]? = some 62 := by
  decide

/-! ## Tapes that are too short -/

/-- C15 fails on an empty tape: with tape length 0 the program `+` is accepted, the start
state has no current cell, and each of `+ - . , [ ]` panics there (index out of range), so
the run of `+` ends in a panic. -/
theorem cell_instructions_panic_on_empty_tape :
    Reachable [43] [] 0 false (resolved [43] [] 0 false) ∧
    cell (resolved [43] [] 0 false) = none ∧
    (∀ cmd ∈ [43, 45, 46, 44, 91, 93],
      execCmd (resolved [43] [] 0 false) cmd = .panic (resolved [43] [] 0 false)) ∧
    step (resolved [43] [] 0 false) = .panic (resolved [43] [] 0 false) ∧
    (main [43] [] 0 false 1).2 = some (.inr .panicked) :=
  ⟨⟨[], by decide, Run.start⟩, by decide, by decide, by decide, by decide⟩

/-- C16 fails on a tape of fewer than 16 cells: the program `#` on a tape of 1 cell, and of
15 cells, panics in `DebugPrint` (the slice `bf.memory[:16]` is out of range) after the
first lines of the snapshot are written; on 16 cells it completes and changes nothing but
standard output and the program counter. -/
theorem debug_trigger_panics_on_short_tape :
    Reachable [35] [] 1 false (resolved [35] [] 1 false) ∧
    (main [35] [] 1 false 1).2 = some (.inr .panicked) ∧
    (main [35] [] 1 false 1).1.stdout =
      [.dbgBanner, .dbgCodePtr 0, .dbgPtr 0, .dbgCell 0] ∧
    (main [35] [] 15 false 1).2 = some (.inr .panicked) ∧
    (main [35] [] 16 false 1).2 = some (.inr .halted) ∧
    (main [35] [] 16 false 1).1.codePtr = 1 ∧
    (main [35] [] 16 false 1).1.memory = (resolved [35] [] 16 false).memory :=
  ⟨⟨[], by decide, Run.start⟩, by decide, by decide, by decide, by decide, by decide,
    by decide⟩

/-- C19 fails on a tape of fewer than 16 cells: the program `+` on a one-cell tape halts
normally with cell 0 at 1 when single-step mode is off, and panics in `DebugPrint` after its
first instruction when single-step mode is on; on 16 cells both runs halt normally. -/
theorem single_step_mode_panics_on_short_tape :
    (main [43] [] 1 false 1).2 = some (.inr .halted) ∧
    (main [43] [] 1 true 1).2 = some (.inr .panicked) ∧
    (main [43] [] 15 true 1).2 = some (.inr .panicked) ∧
    (main [43] [] 16 false 1).2 = some (.inr .halted) ∧
    (main [43] [] 16 true 1).2 = some (.inr .halted) ∧
    emitted (main [43] [] 16 true 1).1 = emitted (main [43] [] 16 false 1).1 ∧
    (main [43] [] 16 true 1).1.memory = (main [43] [] 16 false 1).1.memory := by
  decide

/-! ## The program counter stays within the program -/

/-- The table entry of a bracket position is a position of the program. -/
theorem Inv.entry_lt {code : List Nat} {m : List (Nat × Nat)} (h : Inv code [] m) {i c : Nat}
    (hi : code[i]? = some c) (hc : c = 91 ∨ c = 93) :
    ∃ j, mapLookup m i = some j ∧ j < code.length ∧ mapGet m i = j := by
  rcases hc with rfl | rfl
  · obtain ⟨j, a, b, _⟩ := h.opened i hi (by simp)
    exact ⟨j, a, lt_length_of_getElem? b.2.2.1, by simp [mapGet, a]⟩
  · obtain ⟨j, a, b, _⟩ := h.closed i hi
    exact ⟨j, a, by have := lt_length_of_getElem? hi; have := b.1; omega, by simp [mapGet, a]⟩

/-- After a completed pass the program counter is at most the length of the program. -/
theorem step_codePtr_le {bf bf1 : Interpreter} {cmd : Nat}
    (hf : bf.code[bf.codePtr]? = some cmd) (hs : step bf = .next bf1)
    (ht : Inv bf.code [] bf.loopMap) : bf1.codePtr ≤ bf.code.length := by
  have hlt := lt_length_of_getElem? hf
  by_cases hc : cmd = 91 ∨ cmd = 93
  · obtain ⟨j, _, hj, hget⟩ := ht.entry_lt hf hc
    cases hx : execCmd bf cmd with
    | next b =>
      have hcore := stepCore_next hf hx
      have hsame := (step_of_core_next hcore).1
      rw [hs] at hsame
      have h5 : bf1.codePtr = (advance b).codePtr := hsame.2.2.2.2.1
      rw [h5]
      have hb : b.codePtr = j ∨ b.codePtr = bf.codePtr := by
        cases hv : cell bf with
        | none => rw [execCmd_no_cell hv cmd (by tauto)] at hx; cases hx
        | some v =>
          rcases hc with rfl | rfl
          · rw [execCmd_open hv] at hx
            split_ifs at hx <;> cases hx
            · exact Or.inl hget
            · exact Or.inr rfl
          · rw [execCmd_close hv] at hx
            split_ifs at hx <;> cases hx
            · exact Or.inl hget
            · exact Or.inr rfl
      simp only [advance]
      rcases hb with hb | hb <;> omega
    | fail b e => rw [step_eq_of_core_fail (stepCore_fail hf hx)] at hs; cases hs
    | panic b => rw [step_eq_of_core_panic (stepCore_panic hf hx)] at hs; cases hs
  · simp only [not_or] at hc
    have := (step_next_effect hf hs).2.2.2 hc.1 hc.2
    omega

theorem ReachableVia.codePtr_le {code input : List Nat} {n : Nat} {dbg : Bool}
    {tr : List Nat} {bf : Interpreter} (h : ReachableVia code input n dbg tr bf) :
    bf.codePtr ≤ code.length := by
  obtain ⟨hok, hr⟩ := h
  induction hr with
  | start => rw [(resolved_fields code input n dbg).2.2.2.2.1]; exact Nat.zero_le _
  | @next tr b b1 cmd hprev hf hs _ =>
    have hh := ReachableVia.loopHead ⟨hok, hprev⟩
    have := step_codePtr_le hf hs (by rw [hh.codeEq]; exact hh.table)
    rw [hh.codeEq] at this
    exact this

/-- A normal halt happens at the head of the loop, in a state the loop has reached. -/
theorem Execute_halted_run : ∀ (fuel : Nat) (bf0 bfF : Interpreter),
    Execute fuel bf0 = (bfF, some .halted) →
      ∃ tr, Run bf0 tr bfF ∧ ¬ bfF.codePtr < bfF.code.length := by
  intro fuel
  induction fuel with
  | zero =>
    intro bf0 bfF h
    unfold Execute at h
    split_ifs at h with c
    · cases h
    · cases h
      exact ⟨[], Run.start, c⟩
  | succ fuel ih =>
    intro bf0 bfF h
    by_cases hlt : bf0.codePtr < bf0.code.length
    · cases hs : step bf0 with
      | next b =>
        rw [Execute_succ_next hlt hs] at h
        obtain ⟨tr, hr, hc⟩ := ih b bfF h
        obtain ⟨cmd, hf⟩ : ∃ cmd, bf0.code[bf0.codePtr]? = some cmd :=
          ⟨_, List.getElem?_eq_getElem hlt⟩
        exact ⟨[cmd] ++ tr, (Run.single hf hs).followedBy hr, hc⟩
      | fail b e => rw [Execute_succ_fail hlt hs] at h; cases h
      | panic b => simp [Execute, hlt, hs] at h
    · simp only [Execute, hlt, if_false, Prod.mk.injEq] at h
      obtain ⟨rfl, _⟩ := h
      exact ⟨[], Run.start, hlt⟩

/-- C17. In a run of `main` on a tape of `n >= 1` cells, every state at the head of the loop
of `Execute` has `0 <= ptr < n`, a tape of `n` cells, program counter at most `len(code)`
and input cursor at most `len(input)`; when the instruction fetched is `[` or `]` the jump
table has an entry for the program counter, and it is a position of the program.  So the
current cell exists, none of `+ - . , [ ]` panics or returns an error, and when `Execute`
halts normally the program counter equals `len(code)`. -/
theorem loop_head_invariant (code input : List Nat) (n : Nat) (dbg : Bool) (bf : Interpreter)
    (hr : Reachable code input n dbg bf) (hn : 1 ≤ n) :
    0 ≤ bf.ptr ∧ bf.ptr < (n : Int) ∧ bf.memory.length = n ∧ bf.code = code ∧
    bf.codePtr ≤ code.length ∧ bf.inputPtr ≤ input.length ∧
    (∀ cmd, bf.code[bf.codePtr]? = some cmd → cmd = 91 ∨ cmd = 93 →
      ∃ j, mapLookup bf.loopMap bf.codePtr = some j ∧ j < code.length) ∧
    (∃ v, cell bf = some v) ∧
    (∀ cmd, cmd = 43 ∨ cmd = 45 ∨ cmd = 46 ∨ cmd = 44 ∨ cmd = 91 ∨ cmd = 93 →
      ∃ bf1, execCmd bf cmd = .next bf1) ∧
    (∀ fuel bfF, Execute fuel bf = (bfF, some .halted) → bfF.codePtr = code.length) := by
  obtain ⟨tr, hvia⟩ := hr
  have hh := hvia.loopHead
  obtain ⟨hp0, hp1⟩ := hh.ptrOK
  rw [hh.sizeEq] at hp1
  obtain ⟨v, hv⟩ := cell_of_ptrOK hh.ptrOK (hh.memLen.trans hh.sizeEq.symm)
    (by rw [hh.sizeEq]; omega)
  refine ⟨hp0, by omega, hh.memLen, hh.codeEq, hvia.codePtr_le, ?_, ?_, ⟨v, hv⟩, ?_, ?_⟩
  · rw [hh.cursor]; exact Nat.min_le_right _ _
  · intro cmd hf hc
    rw [hh.codeEq] at hf
    obtain ⟨j, a, b, _⟩ := hh.table.entry_lt hf hc
    exact ⟨j, a, b⟩
  · intro cmd hc
    rcases hc with rfl | rfl | rfl | rfl | rfl | rfl
    · exact ⟨_, execCmd_plus hv⟩
    · exact ⟨_, execCmd_minus hv⟩
    · exact ⟨_, execCmd_dot hv⟩
    · rw [execCmd_comma hv]; split_ifs <;> exact ⟨_, rfl⟩
    · rw [execCmd_open hv]; split_ifs <;> exact ⟨_, rfl⟩
    · rw [execCmd_close hv]; split_ifs <;> exact ⟨_, rfl⟩
  · intro fuel bfF hx
    obtain ⟨tr2, hrun, hc⟩ := Execute_halted_run fuel bf bfF hx
    have hv2 : ReachableVia code input n dbg (tr ++ tr2) bfF :=
      ⟨hvia.1, hvia.2.followedBy hrun⟩
    have h1 := hv2.codePtr_le
    have h2 := hv2.loopHead.codeEq
    rw [h2] at hc
    omega

/-- C17, instance: the program `[]` on a one-cell tape, at its start. -/
theorem loop_head_invariant_witness :
    0 ≤ (resolved [91, 93] [] 1 false).ptr ∧ (resolved [91, 93] [] 1 false).ptr < ((1 : Nat) : Int) ∧
    (resolved [91, 93] [] 1 false).memory.length = 1 ∧
    (resolved [91, 93] [] 1 false).codePtr ≤ [91, 93].length ∧
    (∀ fuel bfF, Execute fuel (resolved [91, 93] [] 1 false) = (bfF, some .halted) →
      bfF.codePtr = [91, 93].length) ∧
    (Execute 1 (resolved [91, 93] [] 1 false)).2 = some .halted :=
  have h := loop_head_invariant [91, 93] [] 1 false (resolved [91, 93] [] 1 false)
    ⟨[], by decide, Run.start⟩ (by decide)
  ⟨h.1, h.2.1, h.2.2.1, h.2.2.2.2.1, h.2.2.2.2.2.2.2.2.2, by decide⟩

/-! ## Rune-wise scan and byte-wise fetch -/

/-- The iterations of `range` over a string that yield a rune below `utf8.RuneSelf` are
exactly the byte positions holding that byte. -/
theorem rangeLoop_mem (s : List Nat) : ∀ (fuel k : Nat), s.length ≤ k + fuel →
    ∀ j c, c < 0x80 → ((j, c) ∈ rangeLoop s fuel k ↔ k ≤ j ∧ s[j]? = some c) := by
  intro fuel
  induction fuel with
  | zero =>
    intro k hk j c _
    simp only [rangeLoop, List.not_mem_nil, false_iff, not_and]
    intro h1 h2
    have := lt_length_of_getElem? h2
    omega
  | succ fuel ih =>
    intro k hk j c hc
    by_cases hlt : k < s.length
    · have hget : s[k]? = some (s.getD k 0) := by
        rw [List.getD_eq_getElem?_getD, List.getElem?_eq_getElem hlt]; rfl
      by_cases hb : s.getD k 0 < 0x80
      · simp only [rangeLoop, hlt, hb, if_true, List.mem_cons, Prod.mk.injEq]
        rw [ih (k + 1) (by omega) j c hc]
        constructor
        · rintro (⟨rfl, rfl⟩ | ⟨h1, h2⟩)
          · exact ⟨le_refl _, hget⟩
          · exact ⟨by omega, h2⟩
        · rintro ⟨h1, h2⟩
          rcases Nat.eq_or_lt_of_le h1 with rfl | h3
          · left
            rw [hget] at h2
            exact ⟨rfl, (Option.some.inj h2).symm⟩
          · exact Or.inr ⟨h3, h2⟩
      · obtain ⟨h1, h2⟩ := decoderune_skip s k (by omega)
        have hr := decoderune_rune s k
        simp only [rangeLoop, hlt, hb, if_true, if_false, List.mem_cons, Prod.mk.injEq]
        rw [ih _ (by omega) j c hc]
        constructor
        · rintro (⟨_, rfl⟩ | ⟨h3, h4⟩)
          · omega
          · exact ⟨by omega, h4⟩
        · rintro ⟨h3, h4⟩
          right
          refine ⟨?_, h4⟩
          by_contra hcon
          have := h2 j h3 (by omega)
          rw [List.getD_eq_getElem?_getD, h4] at this
          simp at this
          omega
    · simp only [rangeLoop, hlt, if_false, List.not_mem_nil, false_iff, not_and]
      intro _ h2
      have := lt_length_of_getElem? h2
      omega

/-- C18. For a program given as any string of bytes (valid UTF-8 or not), after a successful
`BuildLoopMap` on a fresh interpreter the keys of the jump table are exactly the byte indices
holding `[` or `]`; and the rune-wise scan of `BuildLoopMap` meets a bracket at index `i`
exactly when the byte that `Execute` fetches at index `i` is that bracket. -/
theorem loopMap_keys_are_bracket_bytes (code input : List Nat) (n : Nat) (dbg : Bool)
    (hok : (BuildLoopMap (NewInterpreter code input n dbg)).2 = none) (i : Nat) :
    ((mapLookup (BuildLoopMap (NewInterpreter code input n dbg)).1.loopMap i).isSome ↔
      (code[i]? = some 91 ∨ code[i]? = some 93)) ∧
    ((i, 91) ∈ rangeString code ↔ code[i]? = some 91) ∧
    ((i, 93) ∈ rangeString code ↔ code[i]? = some 93) := by
  have hinv := buildLoopMap_accepts hok
  refine ⟨⟨fun h => ?_, fun h => ?_⟩, ?_, ?_⟩
  · obtain ⟨v, hv⟩ := Option.isSome_iff_exists.1 h
    exact (hinv.keys i v hv).2
  · rcases h with h | h
    · obtain ⟨j, a, _⟩ := hinv.opened i h (by simp)
      simp [a]
    · obtain ⟨j, a, _⟩ := hinv.closed i h
      simp [a]
  · have := rangeLoop_mem code code.length 0 (by omega) i 91 (by norm_num)
    simpa [rangeString] using this
  · have := rangeLoop_mem code code.length 0 (by omega) i 93 (by norm_num)
    simpa [rangeString] using this

/-- C18, instance: the bytes `C3 [ E2 82 ] FF`, which are not valid UTF-8, index 1. -/
theorem loopMap_keys_are_bracket_bytes_witness :
    ((mapLookup (BuildLoopMap (NewInterpreter [0xC3, 91, 0xE2, 0x82, 93, 0xFF] [] 1
        false)).1.loopMap 1).isSome ↔
      ([0xC3, 91, 0xE2, 0x82, 93, 0xFF][1]? = some 91 ∨
        [0xC3, 91, 0xE2, 0x82, 93, 0xFF][1]? = some 93)) ∧
    ((1, 91) ∈ rangeString [0xC3, 91, 0xE2, 0x82, 93, 0xFF] ↔
      [0xC3, 91, 0xE2, 0x82, 93, 0xFF][1]? = some 91) ∧
    ((1, 93) ∈ rangeString [0xC3, 91, 0xE2, 0x82, 93, 0xFF] ↔
      [0xC3, 91, 0xE2, 0x82, 93, 0xFF][1]? = some 93) :=
  loopMap_keys_are_bracket_bytes [0xC3, 91, 0xE2, 0x82, 93, 0xFF] [] 1 false (by decide) 1

/-! ## Programs without loops -/

theorem execCmd_panic_cases {bf b : Interpreter} {cmd : Nat}
    (h : execCmd bf cmd = .panic b) : cell bf = none ∨ cmd = 35 := by
  by_cases c1 : cmd = 62
  · subst c1
    rw [execCmd_right] at h
    split_ifs at h
  by_cases c2 : cmd = 60
  · subst c2
    rw [execCmd_left] at h
    split_ifs at h
  by_cases c9 : cmd = 35
  · exact Or.inr c9
  by_cases cc : cmd = 43 ∨ cmd = 45 ∨ cmd = 46 ∨ cmd = 44 ∨ cmd = 91 ∨ cmd = 93
  · cases hv : cell bf with
    | none => exact Or.inl rfl
    | some v =>
      rcases cc with rfl | rfl | rfl | rfl | rfl | rfl
      · rw [execCmd_plus hv] at h; cases h
      · rw [execCmd_minus hv] at h; cases h
      · rw [execCmd_dot hv] at h; cases h
      · rw [execCmd_comma hv] at h; split_ifs at h
      · rw [execCmd_open hv] at h; split_ifs at h
      · rw [execCmd_close hv] at h; split_ifs at h
  · simp only [not_or] at cc
    rw [execCmd_other bf cmd c1 c2 cc.1 cc.2.1 cc.2.2.1 cc.2.2.2.1 cc.2.2.2.2.1
      cc.2.2.2.2.2 c9] at h
    cases h

theorem DebugPrint_next {bf : Interpreter} {v : Nat} (hv : cell bf = some v)
    (h16 : 16 ≤ bf.memory.length) : ∃ b, DebugPrint bf = .next b := by
  simp [DebugPrint, hv, h16]

theorem debugPause_next {bf : Interpreter} {v : Nat} (hv : cell bf = some v)
    (hd : bf.debugMode = false ∨ 16 ≤ bf.memory.length) : ∃ b, debugPause bf = .next b := by
  by_cases hm : bf.debugMode = true
  · have h16 : 16 ≤ bf.memory.length := by
      rcases hd with hd | hd
      · rw [hd] at hm; cases hm
      · exact hd
    obtain ⟨b, hb⟩ := DebugPrint_next hv h16
    exact ⟨emit b [.prompt], by simp [debugPause, hm, hb]⟩
  · exact ⟨bf, by simp [debugPause, hm]⟩

/-- A pass on an instruction other than `#`, with the pointer on the tape and single-step
mode off or a tape of at least 16 cells, completes or returns an error. -/
theorem step_straight {bf : Interpreter} {cmd : Nat} (hf : bf.code[bf.codePtr]? = some cmd)
    (h35 : cmd ≠ 35) (hp : PtrOK bf) (hl : bf.memory.length = bf.memorySize)
    (hn : 0 < bf.memorySize) (hd : bf.debugMode = false ∨ 16 ≤ bf.memory.length) :
    (∃ bf1, step bf = .next bf1) ∨ (∃ bf1 e, step bf = .fail bf1 e) := by
  obtain ⟨v, hv⟩ := cell_of_ptrOK hp hl hn
  cases hx : execCmd bf cmd with
  | next b =>
    left
    obtain ⟨hfr, hpb, _, _⟩ := execCmd_next_effect hx
    have hp2 : PtrOK (advance b) := hpb hp
    have hl2 : (advance b).memory.length = (advance b).memorySize := by
      show b.memory.length = b.memorySize
      rw [hfr.memLen, hfr.memorySize]; exact hl
    have hn2 : 0 < (advance b).memorySize := by
      show 0 < b.memorySize
      rw [hfr.memorySize]; exact hn
    obtain ⟨w, hw⟩ := cell_of_ptrOK hp2 hl2 hn2
    have hd2 : (advance b).debugMode = false ∨ 16 ≤ (advance b).memory.length := by
      show b.debugMode = false ∨ 16 ≤ b.memory.length
      rw [hfr.debugMode, hfr.memLen]; exact hd
    obtain ⟨b2, hb2⟩ := debugPause_next hw hd2
    exact ⟨b2, by rw [step_eq_of_core_next (stepCore_next hf hx)]; exact hb2⟩
  | fail b e => exact Or.inr ⟨b, e, step_eq_of_core_fail (stepCore_fail hf hx)⟩
  | panic b =>
    rcases execCmd_panic_cases hx with h | h
    · rw [hv] at h; cases h
    · exact absurd h h35

theorem mem_of_getElem?_some {l : List Nat} {i v : Nat} (h : l[i]? = some v) : v ∈ l :=
  List.mem_iff_getElem?.2 ⟨i, h⟩

theorem wellFormed_of_no_brackets {code : List Nat}
    (h : ∀ c ∈ code, c ≠ 91 ∧ c ≠ 93) : WellFormed code := by
  have key : ∀ l : List Nat, (∀ c ∈ l, c ∈ code) → opens l = 0 ∧ closes l = 0 := by
    intro l hl
    constructor
    · exact List.count_eq_zero.2 fun hm => (h 91 (hl 91 hm)).1 rfl
    · exact List.count_eq_zero.2 fun hm => (h 93 (hl 93 hm)).2 rfl
  refine ⟨fun k _ => ?_, ?_⟩
  · have := key (code.take k) fun c hc => List.mem_of_mem_take hc
    omega
  · have := key code fun c hc => hc
    omega

theorem ReachableVia.straight {code input : List Nat} {n : Nat} {dbg : Bool}
    (hb : ∀ c ∈ code, c ≠ 91 ∧ c ≠ 93) {tr : List Nat} {bf : Interpreter}
    (h : ReachableVia code input n dbg tr bf) :
    bf.codePtr = tr.length ∧ tr = code.take tr.length := by
  obtain ⟨hok, hr⟩ := h
  induction hr with
  | start =>
    rw [(resolved_fields code input n dbg).2.2.2.2.1]
    exact ⟨rfl, rfl⟩
  | @next tr b b1 cmd hprev hf hs ih =>
    have hh := ReachableVia.loopHead ⟨hok, hprev⟩
    obtain ⟨h1, h2⟩ := ih
    have hf2 : code[b.codePtr]? = some cmd := by rw [← hh.codeEq]; exact hf
    have hmem : cmd ∈ code := mem_of_getElem?_some hf2
    have hcp := (step_next_effect hf hs).2.2.2 (hb cmd hmem).1 (hb cmd hmem).2
    refine ⟨by rw [hcp, h1]; simp, ?_⟩
    rw [h1] at hf2
    rw [List.length_append, List.length_singleton, List.take_succ, hf2, ← h2]
    rfl

/-- The run of a program without loops from a state its loop has reached, with as much fuel
as instructions are left. -/
theorem straight_run {code input : List Nat} {n : Nat} {dbg : Bool}
    (hb : ∀ c ∈ code, c ≠ 91 ∧ c ≠ 93 ∧ c ≠ 35) (hn : 1 ≤ n) (hd : dbg = false ∨ 16 ≤ n) :
    ∀ (k : Nat) (tr : List Nat) (bf : Interpreter), ReachableVia code input n dbg tr bf →
      bf.codePtr + k = code.length →
      ∃ bfF o, Execute k bf = (bfF, some o) ∧
        ((o = .halted ∧ ReachableVia code input n dbg code bfF) ∨
          ∃ e tr1 bf1, o = .error e ∧ ReachableVia code input n dbg tr1 bf1 ∧
            tr1.length < code.length ∧ step bf1 = .fail bfF e) := by
  have hb2 : ∀ c ∈ code, c ≠ 91 ∧ c ≠ 93 := fun c hc => ⟨(hb c hc).1, (hb c hc).2.1⟩
  intro k
  induction k with
  | zero =>
    intro tr bf hvia hk
    have hh := hvia.loopHead
    obtain ⟨h1, h2⟩ := hvia.straight hb2
    have hnot : ¬ bf.codePtr < bf.code.length := by rw [hh.codeEq]; omega
    refine ⟨bf, .halted, by simp [Execute, hnot], Or.inl ⟨rfl, ?_⟩⟩
    have : tr = code := by
      rw [h2, List.take_of_length_le (by omega)]
    rw [this] at hvia; exact hvia
  | succ k ih =>
    intro tr bf hvia hk
    have hh := hvia.loopHead
    obtain ⟨h1, h2⟩ := hvia.straight hb2
    have hlt : bf.codePtr < bf.code.length := by rw [hh.codeEq]; omega
    obtain ⟨cmd, hf⟩ : ∃ cmd, bf.code[bf.codePtr]? = some cmd :=
      ⟨_, List.getElem?_eq_getElem hlt⟩
    have hmem : cmd ∈ code := by
      rw [hh.codeEq] at hf; exact mem_of_getElem?_some hf
    have hd2 : bf.debugMode = false ∨ 16 ≤ bf.memory.length := by
      rw [hh.debugEq, hh.memLen]; exact hd
    rcases step_straight hf (hb cmd hmem).2.2 hh.ptrOK (hh.memLen.trans hh.sizeEq.symm)
      (by rw [hh.sizeEq]; omega) hd2 with ⟨bf1, hs⟩ | ⟨bf1, e, hs⟩
    · have hvia1 : ReachableVia code input n dbg (tr ++ [cmd]) bf1 :=
        ⟨hvia.1, Run.next hvia.2 hf hs⟩
      have hcp := (hvia1.straight hb2).1
      rw [Execute_succ_next hlt hs]
      exact ih _ bf1 hvia1 (by rw [hcp]; simp; omega)
    · refine ⟨bf1, .error e, Execute_succ_fail hlt hs k,
        Or.inr ⟨e, tr, bf, rfl, hvia, ?_, hs⟩⟩
      omega

/-- C20 outside single-step mode on a short tape (where `DebugPrint` cannot panic). For a
program with no `[`, `]` or `#`, every input, every tape length `n >= 1`, and single-step
mode off or `n >= 16`: `BuildLoopMap` accepts; the program counter
is the number of passes completed so far, the instructions executed being the program read
left to right; and `Execute` ends within `len(code)` passes: either it halts normally having
executed exactly the `len(code)` instructions of the program, or it returns a pointer error
in a pass started after fewer than `len(code)` instructions. -/
theorem straight_line_terminates (code input : List Nat) (n : Nat) (dbg : Bool)
    (hb : ∀ c ∈ code, c ≠ 91 ∧ c ≠ 93 ∧ c ≠ 35) (hn : 1 ≤ n) (hd : dbg = false ∨ 16 ≤ n) :
    (BuildLoopMap (NewInterpreter code input n dbg)).2 = none ∧
    (∀ tr bf, ReachableVia code input n dbg tr bf →
      bf.codePtr = tr.length ∧ tr = code.take tr.length) ∧
    ∃ bfF o, Execute code.length (resolved code input n dbg) = (bfF, some o) ∧
      ((o = .halted ∧ ReachableVia code input n dbg code bfF) ∨
        ∃ e tr bf, o = .error e ∧ ReachableVia code input n dbg tr bf ∧
          tr.length < code.length ∧ step bf = .fail bfF e) := by
  have hb2 : ∀ c ∈ code, c ≠ 91 ∧ c ≠ 93 := fun c hc => ⟨(hb c hc).1, (hb c hc).2.1⟩
  have hok := buildLoopMap_of_wellFormed input n dbg (wellFormed_of_no_brackets hb2)
  have h0 : ReachableVia code input n dbg [] (resolved code input n dbg) := ⟨hok, Run.start⟩
  refine ⟨hok, fun tr bf h => h.straight hb2, ?_⟩
  exact straight_run hb hn hd code.length [] _ h0
    (by rw [(resolved_fields code input n dbg).2.2.2.2.1]; simp)

/-- C20, instance: the program `+>` on a one-cell tape, single-step mode off: it returns the
overflow error in its second pass. -/
theorem straight_line_terminates_witness :
    (BuildLoopMap (NewInterpreter [43, 62] [] 1 false)).2 = none ∧
    (∃ bfF o, Execute [43, 62].length (resolved [43, 62] [] 1 false) = (bfF, some o) ∧
      ((o = .halted ∧ ReachableVia [43, 62] [] 1 false [43, 62] bfF) ∨
        ∃ e tr bf, o = .error e ∧ ReachableVia [43, 62] [] 1 false tr bf ∧
          tr.length < [43, 62].length ∧ step bf = .fail bfF e)) ∧
    (Execute 2 (resolved [43, 62] [] 1 false)).2 = some (.error (.overflow 1)) :=
  have h := straight_line_terminates [43, 62] [] 1 false (by decide) (by decide)
    (Or.inl rfl)
  ⟨h.1, h.2.2, by decide⟩

/-- C20: the code breaks the claim in single-step mode on a tape of fewer than 16 cells. The
program `+` on a one-cell tape has no `[`, `]` or `#`, and its run neither halts normally
nor returns a pointer error: after the first instruction the single-step block calls
`DebugPrint`, which panics on `bf.memory[:16]`. -/
theorem straight_line_panics_in_single_step_mode :
    (∀ c ∈ [43], c ≠ 91 ∧ c ≠ 93 ∧ c ≠ 35) ∧
    (main [43] [] 1 true 1).2 = some (.inr .panicked) ∧
    (Execute [43].length (resolved [43] [] 1 true)).2 = some .panicked := by
  decide

/-! ## Removing the bytes that are not instructions -/

theorem isCmd_false_iff (c : Nat) :
    isCmd c = false ↔ c ≠ 62 ∧ c ≠ 60 ∧ c ≠ 43 ∧ c ≠ 45 ∧ c ≠ 46 ∧ c ≠ 44 ∧ c ≠ 91 ∧
      c ≠ 93 ∧ c ≠ 35 := by
  simp [isCmd, and_assoc]

theorem isCmd_open : isCmd 91 = true := by decide

theorem isCmd_close : isCmd 93 = true := by decide

theorem strip_append (a b : List Nat) : strip (a ++ b) = strip a ++ strip b := by
  simp [strip]

theorem opens_strip (l : List Nat) : opens (strip l) = opens l := by
  unfold opens strip
  rw [List.count_filter isCmd_open]

theorem closes_strip (l : List Nat) : closes (strip l) = closes l := by
  unfold closes strip
  rw [List.count_filter isCmd_close]

theorem strip_take (p : List Nat) (k : Nat) :
    strip (p.take k) = (strip p).take (cmdsBefore p k) := by
  have h : strip p = strip (p.take k) ++ strip (p.drop k) := by
    rw [← strip_append, List.take_append_drop]
  unfold cmdsBefore
  rw [h, List.take_left' rfl]

theorem strip_drop (p : List Nat) (k : Nat) :
    strip (p.drop k) = (strip p).drop (cmdsBefore p k) := by
  have h : strip p = strip (p.take k) ++ strip (p.drop k) := by
    rw [← strip_append, List.take_append_drop]
  unfold cmdsBefore
  rw [h, List.drop_left' rfl]

/-- Every initial part of `strip l` is `strip` of an initial part of `l`. -/
theorem take_strip (l : List Nat) : ∀ k, ∃ k2, (strip l).take k = strip (l.take k2) := by
  induction l with
  | nil => intro k; exact ⟨0, by simp [strip]⟩
  | cons x l ih =>
    intro k
    by_cases hx : isCmd x = true
    · cases k with
      | zero => exact ⟨0, by simp [strip]⟩
      | succ k =>
        obtain ⟨k2, h⟩ := ih k
        refine ⟨k2 + 1, ?_⟩
        simp only [strip, List.filter_cons, hx, if_true, List.take_succ_cons] at h ⊢
        rw [h]
    · obtain ⟨k2, h⟩ := ih k
      refine ⟨k2 + 1, ?_⟩
      simp only [strip, List.filter_cons, hx, List.take_succ_cons] at h ⊢
      simpa using h

theorem wellFormed_strip {l : List Nat} (h : WellFormed l) : WellFormed (strip l) := by
  rw [wellFormed_iff] at h ⊢
  refine ⟨fun k => ?_, by rw [opens_strip, closes_strip]; exact h.2⟩
  obtain ⟨k2, hk⟩ := take_strip l k
  rw [hk, opens_strip, closes_strip]
  exact h.1 k2

theorem cmdsBefore_zero (p : List Nat) : cmdsBefore p 0 = 0 := by
  simp [cmdsBefore, strip]

theorem cmdsBefore_length (p : List Nat) : cmdsBefore p p.length = (strip p).length := by
  simp [cmdsBefore]

theorem cmdsBefore_succ (p : List Nat) {k c : Nat} (h : p[k]? = some c) :
    cmdsBefore p (k + 1) = cmdsBefore p k + (if isCmd c = true then 1 else 0) := by
  unfold cmdsBefore
  rw [List.take_succ, h, strip_append]
  by_cases hc : isCmd c = true <;> simp [strip, hc]

theorem cmdsBefore_le_length (p : List Nat) (k : Nat) : cmdsBefore p k ≤ (strip p).length := by
  have := strip_take p k
  have h2 : (strip (p.take k)).length = ((strip p).take (cmdsBefore p k)).length := by
    rw [this]
  unfold cmdsBefore at h2 ⊢
  rw [List.length_take] at h2
  omega

/-- An instruction byte of `p` is found in `strip p` at the translated index. -/
theorem strip_getElem? (p : List Nat) {k c : Nat} (h : p[k]? = some c) (hc : isCmd c = true) :
    (strip p)[cmdsBefore p k]? = some c := by
  have hlt := lt_length_of_getElem? h
  have hsplit : p = p.take k ++ c :: p.drop (k + 1) := by
    conv_lhs => rw [← List.take_append_drop k p, List.drop_eq_getElem_cons hlt]
    rw [List.getElem?_eq_getElem hlt] at h
    rw [Option.some.inj h]
  have : strip p = strip (p.take k) ++ c :: strip (p.drop (k + 1)) := by
    conv_lhs => rw [hsplit, strip_append]
    simp [strip, hc]
  rw [this]
  unfold cmdsBefore
  rw [List.getElem?_append_right (le_refl _)]
  simp

theorem cmdsBefore_lt (p : List Nat) {k c : Nat} (h : p[k]? = some c) (hc : isCmd c = true) :
    cmdsBefore p k < (strip p).length :=
  lt_length_of_getElem? (strip_getElem? p h hc)

theorem emitted_emit (bf : Interpreter) (o : List Out) :
    emitted (emit bf o) = emitted bf ++ emitted { bf with stdout := o } := by
  simp [emitted, emit]

theorem Sim.cell {a b : Interpreter} (h : Sim a b) : cell a = cell b := by
  unfold Brainfuck.cell
  rw [h.ptr, h.memory]

theorem Sim.setCell {a b : Interpreter} (h : Sim a b) (v : Nat) :
    Sim (setCell a v) (setCell b v) := by
  refine ⟨h.input, ?_, h.ptr, h.inputPtr, h.debugMode, h.memorySize, h.out⟩
  show a.memory.set a.ptr.toNat v = b.memory.set b.ptr.toNat v
  rw [h.ptr, h.memory]

theorem Sim.emit {a b : Interpreter} (h : Sim a b) (o o2 : List Out)
    (ho : emitted { a with stdout := o } = emitted { b with stdout := o2 }) :
    Sim (emit a o) (emit b o2) := by
  refine ⟨h.input, h.memory, h.ptr, h.inputPtr, h.debugMode, h.memorySize, ?_⟩
  rw [emitted_emit, emitted_emit, h.out, ho]

theorem Sim.of_same {a a2 b : Interpreter} (h : Sim a b) (hs : SameMachine a2 a) :
    Sim a2 b := by
  obtain ⟨_, s2, s3, s4, _, s6, _, s8, s9, s10⟩ := hs
  exact ⟨s2.trans h.input, s3.trans h.memory, s4.trans h.ptr, s6.trans h.inputPtr,
    s8.trans h.debugMode, s9.trans h.memorySize, s10.trans h.out⟩

theorem Sim.symm {a b : Interpreter} (h : Sim a b) : Sim b a :=
  ⟨h.input.symm, h.memory.symm, h.ptr.symm, h.inputPtr.symm, h.debugMode.symm,
    h.memorySize.symm, h.out.symm⟩

theorem DebugPrint_sim {a b : Interpreter} (h : Sim a b) :
    StepSim (DebugPrint a) (DebugPrint b) := by
  have hc := h.cell
  have hm := h.memory
  unfold DebugPrint
  cases hv : Brainfuck.cell a with
  | none =>
    rw [← hc, hv]
    show Sim _ _
    refine Sim.emit h _ _ ?_
    rfl
  | some v =>
    rw [← hc, hv]
    by_cases h16 : 16 ≤ a.memory.length
    · have h16b : 16 ≤ b.memory.length := hm ▸ h16
      simp only [h16, h16b, if_true]
      show Sim _ _
      refine Sim.emit (Sim.emit (Sim.emit h _ _ ?_) _ _ ?_) _ _ ?_ <;> rfl
    · have h16b : ¬ 16 ≤ b.memory.length := hm ▸ h16
      simp only [h16, h16b, if_false]
      show Sim _ _
      refine Sim.emit (Sim.emit h _ _ ?_) _ _ ?_ <;> rfl

theorem debugPause_sim {a b : Interpreter} (h : Sim a b) :
    StepSim (debugPause a) (debugPause b) := by
  have hd := DebugPrint_sim h
  unfold debugPause
  rw [← h.debugMode]
  by_cases hm : a.debugMode = true
  · simp only [hm, if_true]
    cases ha : DebugPrint a with
    | next a1 =>
      cases hb : DebugPrint b with
      | next b1 =>
        rw [ha, hb] at hd
        show Sim _ _
        refine Sim.emit hd _ _ ?_
        rfl
      | fail b1 e => rw [ha, hb] at hd; exact hd.elim
      | panic b1 => rw [ha, hb] at hd; exact hd.elim
    | fail a1 e => exact absurd ha (DebugPrint_not_fail a a1 e)
    | panic a1 =>
      cases hb : DebugPrint b with
      | next b1 => rw [ha, hb] at hd; exact hd.elim
      | fail b1 e => rw [ha, hb] at hd; exact hd.elim
      | panic b1 =>
        rw [ha, hb] at hd
        exact hd
  · simp only [hm]
    exact h

/-- The `switch` on an instruction other than a bracket does not look at the program text,
the program counter or the jump table, except to print them. -/
theorem execCmd_sim {a b : Interpreter} (h : Sim a b) (cmd : Nat) (h1 : cmd ≠ 91)
    (h2 : cmd ≠ 93) : StepSim (execCmd a cmd) (execCmd b cmd) := by
  have hc := h.cell
  by_cases c1 : cmd = 62
  · subst c1
    rw [execCmd_right, execCmd_right]
    have hs : Sim { a with ptr := a.ptr + 1 } { b with ptr := b.ptr + 1 } :=
      ⟨h.input, h.memory, by show a.ptr + 1 = b.ptr + 1; rw [h.ptr], h.inputPtr, h.debugMode,
        h.memorySize, h.out⟩
    by_cases c : (a.memorySize : Int) ≤ a.ptr + 1
    · have c2 : (b.memorySize : Int) ≤ b.ptr + 1 := by
        rw [← h.ptr, ← h.memorySize]; exact c
      rw [if_pos c, if_pos c2]
      exact ⟨hs, by rw [h.ptr]⟩
    · have c2 : ¬ (b.memorySize : Int) ≤ b.ptr + 1 := by
        rw [← h.ptr, ← h.memorySize]; exact c
      rw [if_neg c, if_neg c2]
      exact hs
  by_cases c2 : cmd = 60
  · subst c2
    rw [execCmd_left, execCmd_left]
    have hs : Sim { a with ptr := a.ptr - 1 } { b with ptr := b.ptr - 1 } :=
      ⟨h.input, h.memory, by show a.ptr - 1 = b.ptr - 1; rw [h.ptr], h.inputPtr, h.debugMode,
        h.memorySize, h.out⟩
    by_cases c : a.ptr - 1 < 0
    · have c2 : b.ptr - 1 < 0 := by
        rw [← h.ptr]; exact c
      rw [if_pos c, if_pos c2]
      exact ⟨hs, by rw [h.ptr]⟩
    · have c2 : ¬ b.ptr - 1 < 0 := by
        rw [← h.ptr]; exact c
      rw [if_neg c, if_neg c2]
      exact hs
  by_cases c9 : cmd = 35
  · subst c9
    rw [execCmd_hash, execCmd_hash]
    exact DebugPrint_sim h
  by_cases c0 : cmd = 43 ∨ cmd = 45 ∨ cmd = 46 ∨ cmd = 44 ∨ cmd = 91 ∨ cmd = 93
  · cases hv : cell a with
    | none =>
      rw [execCmd_no_cell hv cmd c0, execCmd_no_cell (hc ▸ hv) cmd c0]
      exact h
    | some v =>
      have hv2 : cell b = some v := hc ▸ hv
      rcases c0 with rfl | rfl | rfl | rfl | rfl | rfl
      · rw [execCmd_plus hv, execCmd_plus hv2]
        exact h.setCell _
      · rw [execCmd_minus hv, execCmd_minus hv2]
        exact h.setCell _
      · rw [execCmd_dot hv, execCmd_dot hv2]
        refine Sim.emit h _ _ ?_
        rfl
      · rw [execCmd_comma hv, execCmd_comma hv2]
        by_cases c : a.inputPtr < a.input.length
        · have c2 : b.inputPtr < b.input.length := by
            rw [← h.inputPtr, ← h.input]; exact c
          rw [if_pos c, if_pos c2]
          have hs := h.setCell (a.input.getD a.inputPtr 0)
          rw [← h.inputPtr, ← h.input]
          show Sim _ _
          exact ⟨hs.input, hs.memory, hs.ptr, rfl, hs.debugMode, hs.memorySize, hs.out⟩
        · have c2 : ¬ b.inputPtr < b.input.length := by
            rw [← h.inputPtr, ← h.input]; exact c
          rw [if_neg c, if_neg c2]
          exact h.setCell 0
      · exact absurd rfl h1
      · exact absurd rfl h2
  · push_neg at c0
    obtain ⟨d3, d4, d5, d6, d7, d8⟩ := c0
    rw [execCmd_other a cmd c1 c2 d3 d4 d5 d6 d7 d8 c9,
      execCmd_other b cmd c1 c2 d3 d4 d5 d6 d7 d8 c9]
    exact h

theorem cmdsBefore_mono (p : List Nat) {i j : Nat} (h : i ≤ j) :
    cmdsBefore p i ≤ cmdsBefore p j := by
  have e : p.take j = p.take i ++ (p.take j).drop i := by
    conv_lhs => rw [← List.take_append_drop i (p.take j)]
    rw [List.take_take, min_eq_left h]
  unfold cmdsBefore
  rw [e, strip_append, List.length_append]
  omega

theorem cmdsBefore_take (p : List Nat) {i j : Nat} (h : i ≤ j) :
    cmdsBefore (p.take j) i = cmdsBefore p i := by
  unfold cmdsBefore
  rw [List.take_take, min_eq_left h]

/-- The bytes strictly between two positions, after the removal. -/
theorem between_strip (p : List Nat) {i j c : Nat} (hij : i < j) (hi : p[i]? = some c)
    (hc : isCmd c = true) :
    between (strip p) (cmdsBefore p i) (cmdsBefore p j) = strip (between p i j) := by
  unfold between
  rw [strip_drop, strip_take, cmdsBefore_take p (Nat.succ_le_of_lt hij), cmdsBefore_succ p hi,
    if_pos hc]

theorem Matching.strip {p : List Nat} {i j : Nat} (h : Matching p i j) :
    Matching (strip p) (cmdsBefore p i) (cmdsBefore p j) := by
  obtain ⟨h1, h2, h3, h4⟩ := h
  refine ⟨?_, strip_getElem? p h2 isCmd_open, strip_getElem? p h3 isCmd_close, ?_⟩
  · have := cmdsBefore_mono p (Nat.succ_le_of_lt h1)
    rw [cmdsBefore_succ p h2, if_pos isCmd_open] at this
    omega
  · rw [between_strip p h1 h2 isCmd_open]
    exact wellFormed_strip h4

/-- The jump table of the stripped program is the jump table of the program, translated. -/
theorem strip_table {p : List Nat} {m m2 : List (Nat × Nat)} (h : Inv p [] m)
    (h2 : Inv (strip p) [] m2) {i c : Nat} (hi : p[i]? = some c) (hc : c = 91 ∨ c = 93) :
    mapGet m2 (cmdsBefore p i) = cmdsBefore p (mapGet m i) ∧ mapGet m i < p.length ∧
      ∃ c2, p[mapGet m i]? = some c2 ∧ isCmd c2 = true := by
  rcases hc with rfl | rfl
  · obtain ⟨j, a, b, _⟩ := h.opened i hi (by simp)
    obtain ⟨j2, a2, b2, _⟩ := h2.opened _ (strip_getElem? p hi isCmd_open) (by simp)
    have e : j2 = cmdsBefore p j := Matching.unique b2 b.strip
    have g1 : mapGet m i = j := by simp [mapGet, a]
    have g2 : mapGet m2 (cmdsBefore p i) = j2 := by simp [mapGet, a2]
    rw [g1, g2]
    exact ⟨e, lt_length_of_getElem? b.2.2.1, 93, b.2.2.1, isCmd_close⟩
  · obtain ⟨j, a, b, _⟩ := h.closed i hi
    obtain ⟨j2, a2, b2, _⟩ := h2.closed _ (strip_getElem? p hi isCmd_close)
    have e : j2 = cmdsBefore p j := Matching.unique_left b2 b.strip
    have g1 : mapGet m i = j := by simp [mapGet, a]
    have g2 : mapGet m2 (cmdsBefore p i) = j2 := by simp [mapGet, a2]
    rw [g1, g2]
    exact ⟨e, lt_length_of_getElem? b.2.1, 91, b.2.1, isCmd_open⟩

theorem Execute_succ_panic {bf bf1 : Interpreter} (hlt : bf.codePtr < bf.code.length)
    (hs : step bf = .panic bf1) (fuel : Nat) :
    Execute (fuel + 1) bf = (bf1, some .panicked) := by
  simp [Execute, hlt, hs]

theorem Execute_at_end {bf : Interpreter} (h : ¬ bf.codePtr < bf.code.length) (fuel : Nat) :
    Execute fuel bf = (bf, some .halted) := by
  cases fuel <;> simp [Execute, h]

theorem Execute_zero_running {bf : Interpreter} (h : bf.codePtr < bf.code.length) :
    Execute 0 bf = (bf, none) := by
  simp [Execute, h]

theorem StripRel.fetch {p : List Nat} {a b : Interpreter} (R : StripRel p a b) {c : Nat}
    (hf : p[a.codePtr]? = some c) (hc : isCmd c = true) :
    a.code[a.codePtr]? = some c ∧ b.code[b.codePtr]? = some c := by
  refine ⟨by rw [R.codeA]; exact hf, ?_⟩
  rw [R.codeB, R.pc]
  exact strip_getElem? p hf hc

theorem StripRel.at_end {p : List Nat} {a b : Interpreter} (R : StripRel p a b)
    (h : a.codePtr = p.length) : ¬ b.codePtr < b.code.length := by
  rw [R.codeB, R.pc, h, cmdsBefore_length]
  exact lt_irrefl _

/-- From the `switch` to the whole pass, for an instruction byte. -/
theorem stepRel_of_switch {p : List Nat} {a b : Interpreter} {c : Nat} (R : StripRel p a b)
    (hfa : a.code[a.codePtr]? = some c) (hfb : b.code[b.codePtr]? = some c)
    (hx : StepSim (execCmd a c) (execCmd b c))
    (hpc : ∀ a1 b1, execCmd a c = .next a1 → execCmd b c = .next b1 →
      b1.codePtr + 1 = cmdsBefore p (a1.codePtr + 1)) :
    StepRel p (step a) (step b) := by
  cases ha : execCmd a c with
  | next a1 =>
    cases hb : execCmd b c with
    | next b1 =>
      rw [ha, hb] at hx
      have hs : Sim (advance a1) (advance b1) :=
        ⟨hx.input, hx.memory, hx.ptr, hx.inputPtr, hx.debugMode, hx.memorySize, hx.out⟩
      have hd := debugPause_sim hs
      have ea := step_eq_of_core_next (stepCore_next hfa ha)
      have eb := step_eq_of_core_next (stepCore_next hfb hb)
      have sa := debugPause_same (advance a1)
      have sb := debugPause_same (advance b1)
      rw [← ea] at hd sa
      rw [← eb] at hd sb
      cases ha2 : step a with
      | next a2 =>
        cases hb2 : step b with
        | next b2 =>
          rw [ha2, hb2] at hd
          rw [ha2] at sa
          rw [hb2] at sb
          obtain ⟨fa, pa, _, _⟩ := step_next_effect hfa ha2
          have hle := step_codePtr_le hfa ha2 (by rw [R.codeA]; exact R.tableA)
          rw [R.codeA] at hle
          have ca : a2.codePtr = a1.codePtr + 1 := sa.2.2.2.2.1
          have cb : b2.codePtr = b1.codePtr + 1 := sb.2.2.2.2.1
          have fb : b2.code = b1.code ∧ b2.loopMap = b1.loopMap := ⟨sb.1, sb.2.2.2.2.2.2.1⟩
          obtain ⟨fb0, _, _, _⟩ := execCmd_next_effect hb
          exact ⟨hd, fa.code.trans R.codeA, (fb.1.trans fb0.code).trans R.codeB,
            by rw [cb, ca]; exact hpc a1 b1 ha hb, hle,
            by rw [fa.loopMap]; exact R.tableA,
            by rw [fb.2, fb0.loopMap]; exact R.tableB, pa R.ptrOK,
            by rw [fa.memLen, fa.memorySize]; exact R.memLen,
            by rw [fa.debugMode, fa.memorySize]; exact R.quiet⟩
        | fail b2 e => rw [ha2, hb2] at hd; exact hd.elim
        | panic b2 => rw [ha2, hb2] at hd; exact hd.elim
      | fail a2 e =>
        cases hb2 : step b with
        | next b2 => rw [ha2, hb2] at hd; exact hd.elim
        | fail b2 e2 => rw [ha2, hb2] at hd; exact hd
        | panic b2 => rw [ha2, hb2] at hd; exact hd.elim
      | panic a2 =>
        cases hb2 : step b with
        | next b2 => rw [ha2, hb2] at hd; exact hd.elim
        | fail b2 e2 => rw [ha2, hb2] at hd; exact hd.elim
        | panic b2 => rw [ha2, hb2] at hd; exact hd
    | fail b1 e => rw [ha, hb] at hx; exact hx.elim
    | panic b1 => rw [ha, hb] at hx; exact hx.elim
  | fail a1 e =>
    cases hb : execCmd b c with
    | next b1 => rw [ha, hb] at hx; exact hx.elim
    | fail b1 e2 =>
      rw [ha, hb] at hx
      rw [step_eq_of_core_fail (stepCore_fail hfa ha), step_eq_of_core_fail (stepCore_fail hfb hb)]
      exact hx
    | panic b1 => rw [ha, hb] at hx; exact hx.elim
  | panic a1 =>
    cases hb : execCmd b c with
    | next b1 => rw [ha, hb] at hx; exact hx.elim
    | fail b1 e2 => rw [ha, hb] at hx; exact hx.elim
    | panic b1 =>
      rw [ha, hb] at hx
      rw [step_eq_of_core_panic (stepCore_panic hfa ha),
        step_eq_of_core_panic (stepCore_panic hfb hb)]
      exact hx

/-- A pass of the loop on an instruction byte of `p` is matched by a pass on `strip p`. -/
theorem StripRel.cmd_step {p : List Nat} {a b : Interpreter} (R : StripRel p a b) {c : Nat}
    (hf : p[a.codePtr]? = some c) (hc : isCmd c = true) : StepRel p (step a) (step b) := by
  obtain ⟨hfa, hfb⟩ := R.fetch hf hc
  have hsucc : b.codePtr + 1 = cmdsBefore p (a.codePtr + 1) := by
    rw [cmdsBefore_succ p hf, if_pos hc, R.pc]
  by_cases hbr : c = 91 ∨ c = 93
  · obtain ⟨t1, t2, c2, t3, t4⟩ := strip_table R.tableA R.tableB hf hbr
    have hjump : mapGet b.loopMap b.codePtr + 1 =
        cmdsBefore p (mapGet a.loopMap a.codePtr + 1) := by
      rw [cmdsBefore_succ p t3, if_pos t4, R.pc, t1]
    have hsj : Sim { a with codePtr := mapGet a.loopMap a.codePtr }
        { b with codePtr := mapGet b.loopMap b.codePtr } :=
      ⟨R.sim.input, R.sim.memory, R.sim.ptr, R.sim.inputPtr, R.sim.debugMode,
        R.sim.memorySize, R.sim.out⟩
    have hcell := R.sim.cell
    cases hv : cell a with
    | none =>
      have hv2 : cell b = none := hcell ▸ hv
      have c0 : c = 43 ∨ c = 45 ∨ c = 46 ∨ c = 44 ∨ c = 91 ∨ c = 93 := by
        rcases hbr with h | h
        · exact Or.inr (Or.inr (Or.inr (Or.inr (Or.inl h))))
        · exact Or.inr (Or.inr (Or.inr (Or.inr (Or.inr h))))
      refine stepRel_of_switch R hfa hfb ?_ ?_
      · rw [execCmd_no_cell hv c c0, execCmd_no_cell hv2 c c0]
        exact R.sim
      · intro a1 b1 h1
        rw [execCmd_no_cell hv c c0] at h1
        cases h1
    | some v =>
      have hv2 : cell b = some v := hcell ▸ hv
      rcases hbr with rfl | rfl
      · refine stepRel_of_switch R hfa hfb ?_ ?_
        · rw [execCmd_open hv, execCmd_open hv2]
          by_cases z : v = 0
          · rw [if_pos z, if_pos z]; exact hsj
          · rw [if_neg z, if_neg z]; exact R.sim
        · intro a1 b1 h1 h2
          rw [execCmd_open hv] at h1
          rw [execCmd_open hv2] at h2
          by_cases z : v = 0
          · rw [if_pos z] at h1 h2
            cases h1; cases h2
            exact hjump
          · rw [if_neg z] at h1 h2
            cases h1; cases h2
            exact hsucc
      · refine stepRel_of_switch R hfa hfb ?_ ?_
        · rw [execCmd_close hv, execCmd_close hv2]
          by_cases z : v ≠ 0
          · rw [if_pos z, if_pos z]; exact hsj
          · rw [if_neg z, if_neg z]; exact R.sim
        · intro a1 b1 h1 h2
          rw [execCmd_close hv] at h1
          rw [execCmd_close hv2] at h2
          by_cases z : v ≠ 0
          · rw [if_pos z] at h1 h2
            cases h1; cases h2
            exact hjump
          · rw [if_neg z] at h1 h2
            cases h1; cases h2
            exact hsucc
  · push_neg at hbr
    refine stepRel_of_switch R hfa hfb (execCmd_sim R.sim c hbr.1 hbr.2) ?_
    intro a1 b1 h1 h2
    obtain ⟨_, _, _, e1⟩ := execCmd_next_effect h1
    obtain ⟨_, _, _, e2⟩ := execCmd_next_effect h2
    rw [e1 hbr.1 hbr.2, e2 hbr.1 hbr.2]
    exact hsucc

/-- A pass of the loop on any other byte of `p` is matched by no pass on `strip p`. -/
theorem StripRel.comment_step {p : List Nat} {a b : Interpreter} (R : StripRel p a b) {c : Nat}
    (hf : p[a.codePtr]? = some c) (hc : isCmd c = false) :
    ∃ a1, step a = .next a1 ∧ StripRel p a1 b := by
  have hfa : a.code[a.codePtr]? = some c := by rw [R.codeA]; exact hf
  obtain ⟨d1, d2, d3, d4, d5, d6, d7, d8, d9⟩ := (isCmd_false_iff c).1 hc
  have hx := execCmd_other a c d1 d2 d3 d4 d5 d6 d7 d8 d9
  have hs := step_eq_of_core_next (stepCore_next hfa hx)
  have hlt := lt_length_of_getElem? hf
  have hpc : b.codePtr = cmdsBefore p (a.codePtr + 1) := by
    rw [cmdsBefore_succ p hf, hc, R.pc]; simp
  have hnext : ∃ a1, step a = .next a1 := by
    rw [hs]
    rcases R.quiet with q | q
    · exact ⟨_, debugPause_off q⟩
    · have hn : 0 < a.memorySize := by omega
      obtain ⟨v, hv⟩ := cell_of_ptrOK R.ptrOK R.memLen hn
      have hv2 : cell (advance a) = some v := hv
      have hm : 16 ≤ (advance a).memory.length := by
        show 16 ≤ a.memory.length
        rw [R.memLen]; exact q
      exact debugPause_next hv2 (Or.inr hm)
  obtain ⟨a1, h1⟩ := hnext
  refine ⟨a1, h1, ?_⟩
  have sa := debugPause_same (advance a)
  rw [← hs, h1] at sa
  obtain ⟨s1, s2, s3, s4, s5, s6, s7, s8, s9, s10⟩ := sa
  simp only [Step.state, advance] at s1 s2 s3 s4 s5 s6 s7 s8 s9 s10
  exact ⟨⟨s2.trans R.sim.input, s3.trans R.sim.memory, s4.trans R.sim.ptr,
      s6.trans R.sim.inputPtr, s8.trans R.sim.debugMode, s9.trans R.sim.memorySize,
      s10.trans R.sim.out⟩,
    s1.trans R.codeA, R.codeB, by rw [s5]; exact hpc, by rw [s5]; omega,
    by rw [s7]; exact R.tableA, R.tableB,
    by unfold PtrOK; rw [s4, s9]; exact R.ptrOK,
    by rw [s3, s9]; exact R.memLen, by rw [s8, s9]; exact R.quiet⟩

/-- Every outcome of a run of `p` is the outcome of a run of `strip p`. -/
theorem strip_forward (p : List Nat) : ∀ (fuel : Nat) (a b aF : Interpreter) (o : Outcome),
    StripRel p a b → Execute fuel a = (aF, some o) →
      ∃ fuel2 bF, Execute fuel2 b = (bF, some o) ∧ Sim aF bF := by
  intro fuel
  induction fuel with
  | zero =>
    intro a b aF o R h
    by_cases hlt : a.codePtr < a.code.length
    · rw [Execute_zero_running hlt] at h
      cases h
    · rw [Execute_at_end hlt] at h
      cases h
      have hend : a.codePtr = p.length := by
        have := R.pcLe
        rw [R.codeA] at hlt
        omega
      exact ⟨0, b, Execute_at_end (R.at_end hend) 0, R.sim⟩
  | succ fuel ih =>
    intro a b aF o R h
    by_cases hlt : a.codePtr < a.code.length
    · have hlt2 : a.codePtr < p.length := by rw [← R.codeA]; exact hlt
      have hf : p[a.codePtr]? = some (p[a.codePtr]) := List.getElem?_eq_getElem hlt2
      by_cases hc : isCmd (p[a.codePtr]) = true
      · have hrel := R.cmd_step hf hc
        have hltb : b.codePtr < b.code.length := lt_length_of_getElem? (R.fetch hf hc).2
        cases ha : step a with
        | next a1 =>
          cases hb : step b with
          | next b1 =>
            rw [ha, hb] at hrel
            rw [Execute_succ_next hlt ha] at h
            obtain ⟨fuel2, bF, h2, hs⟩ := ih a1 b1 aF o hrel h
            exact ⟨fuel2 + 1, bF, by rw [Execute_succ_next hltb hb]; exact h2, hs⟩
          | fail b1 e => rw [ha, hb] at hrel; exact hrel.elim
          | panic b1 => rw [ha, hb] at hrel; exact hrel.elim
        | fail a1 e =>
          cases hb : step b with
          | next b1 => rw [ha, hb] at hrel; exact hrel.elim
          | fail b1 e2 =>
            rw [ha, hb] at hrel
            rw [Execute_succ_fail hlt ha] at h
            cases h
            exact ⟨1, b1, by rw [Execute_succ_fail hltb hb, hrel.2], hrel.1⟩
          | panic b1 => rw [ha, hb] at hrel; exact hrel.elim
        | panic a1 =>
          cases hb : step b with
          | next b1 => rw [ha, hb] at hrel; exact hrel.elim
          | fail b1 e2 => rw [ha, hb] at hrel; exact hrel.elim
          | panic b1 =>
            rw [ha, hb] at hrel
            rw [Execute_succ_panic hlt ha] at h
            cases h
            exact ⟨1, b1, Execute_succ_panic hltb hb 0, hrel⟩
      · have hc2 : isCmd (p[a.codePtr]) = false := by
          cases hq : isCmd (p[a.codePtr])
          · rfl
          · exact absurd hq hc
        obtain ⟨a1, h1, R1⟩ := R.comment_step hf hc2
        rw [Execute_succ_next hlt h1] at h
        exact ih a1 b aF o R1 h
    · rw [Execute_at_end hlt] at h
      cases h
      have hend : a.codePtr = p.length := by
        have := R.pcLe
        rw [R.codeA] at hlt
        omega
      exact ⟨0, b, Execute_at_end (R.at_end hend) 0, R.sim⟩

/-- The run of `p` passes over the bytes that are not instructions, up to the next
instruction or the end of `p`. -/
theorem strip_skip (p : List Nat) : ∀ (d : Nat) (a b : Interpreter), StripRel p a b →
    p.length - a.codePtr = d →
      ∃ k a1, StripRel p a1 b ∧ (∀ fuel, Execute (k + fuel) a = Execute fuel a1) ∧
        (a1.codePtr = p.length ∨ ∃ c, p[a1.codePtr]? = some c ∧ isCmd c = true) := by
  intro d
  induction d with
  | zero =>
    intro a b R hd
    have := R.pcLe
    exact ⟨0, a, R, fun fuel => by rw [Nat.zero_add], Or.inl (by omega)⟩
  | succ d ih =>
    intro a b R hd
    have hlt2 : a.codePtr < p.length := by omega
    have hlt : a.codePtr < a.code.length := by rw [R.codeA]; exact hlt2
    have hf : p[a.codePtr]? = some (p[a.codePtr]) := List.getElem?_eq_getElem hlt2
    by_cases hc : isCmd (p[a.codePtr]) = true
    · exact ⟨0, a, R, fun fuel => by rw [Nat.zero_add], Or.inr ⟨_, hf, hc⟩⟩
    · have hc2 : isCmd (p[a.codePtr]) = false := by
        cases hq : isCmd (p[a.codePtr])
        · rfl
        · exact absurd hq hc
      obtain ⟨a1, h1, R1⟩ := R.comment_step hf hc2
      have hfa : a.code[a.codePtr]? = some (p[a.codePtr]) := by rw [R.codeA]; exact hf
      obtain ⟨d1, d2, d3, d4, d5, d6, d7, d8, d9⟩ := (isCmd_false_iff _).1 hc2
      obtain ⟨_, _, _, hpc⟩ := step_next_effect hfa h1
      have hpc1 := hpc d7 d8
      obtain ⟨k, a2, R2, hk, hat⟩ := ih a1 b R1 (by omega)
      refine ⟨k + 1, a2, R2, fun fuel => ?_, hat⟩
      rw [show k + 1 + fuel = (k + fuel) + 1 by omega, Execute_succ_next hlt h1]
      exact hk fuel

/-- Every outcome of a run of `strip p` is the outcome of a run of `p`. -/
theorem strip_backward (p : List Nat) : ∀ (fuel2 : Nat) (a b bF : Interpreter) (o : Outcome),
    StripRel p a b → Execute fuel2 b = (bF, some o) →
      ∃ fuel aF, Execute fuel a = (aF, some o) ∧ Sim aF bF := by
  intro fuel2
  induction fuel2 with
  | zero =>
    intro a b bF o R h
    obtain ⟨k, a1, R1, hk, hat⟩ := strip_skip p _ a b R rfl
    rcases hat with hend | ⟨c, hf, hc⟩
    · rw [Execute_at_end (R1.at_end hend)] at h
      cases h
      have hnlt : ¬ a1.codePtr < a1.code.length := by
        rw [R1.codeA, hend]; exact lt_irrefl _
      exact ⟨k + 0, a1, by rw [hk 0]; exact Execute_at_end hnlt 0, R1.sim⟩
    · have hltb : b.codePtr < b.code.length := lt_length_of_getElem? (R1.fetch hf hc).2
      rw [Execute_zero_running hltb] at h
      cases h
  | succ fuel2 ih =>
    intro a b bF o R h
    obtain ⟨k, a1, R1, hk, hat⟩ := strip_skip p _ a b R rfl
    rcases hat with hend | ⟨c, hf, hc⟩
    · rw [Execute_at_end (R1.at_end hend)] at h
      cases h
      have hnlt : ¬ a1.codePtr < a1.code.length := by
        rw [R1.codeA, hend]; exact lt_irrefl _
      exact ⟨k + 0, a1, by rw [hk 0]; exact Execute_at_end hnlt 0, R1.sim⟩
    · have hrel := R1.cmd_step hf hc
      have hlta : a1.codePtr < a1.code.length := lt_length_of_getElem? (R1.fetch hf hc).1
      have hltb : b.codePtr < b.code.length := lt_length_of_getElem? (R1.fetch hf hc).2
      cases ha : step a1 with
      | next a2 =>
        cases hb : step b with
        | next b2 =>
          rw [ha, hb] at hrel
          rw [Execute_succ_next hltb hb] at h
          obtain ⟨fuel, aF, h2, hs⟩ := ih a2 b2 bF o hrel h
          exact ⟨k + (fuel + 1), aF, by rw [hk, Execute_succ_next hlta ha]; exact h2, hs⟩
        | fail b2 e => rw [ha, hb] at hrel; exact hrel.elim
        | panic b2 => rw [ha, hb] at hrel; exact hrel.elim
      | fail a2 e =>
        cases hb : step b with
        | next b2 => rw [ha, hb] at hrel; exact hrel.elim
        | fail b2 e2 =>
          rw [ha, hb] at hrel
          rw [Execute_succ_fail hltb hb] at h
          cases h
          exact ⟨k + 1, a2, by rw [hk, Execute_succ_fail hlta ha, hrel.2], hrel.1⟩
        | panic b2 => rw [ha, hb] at hrel; exact hrel.elim
      | panic a2 =>
        cases hb : step b with
        | next b2 => rw [ha, hb] at hrel; exact hrel.elim
        | fail b2 e2 => rw [ha, hb] at hrel; exact hrel.elim
        | panic b2 =>
          rw [ha, hb] at hrel
          rw [Execute_succ_panic hltb hb] at h
          cases h
          exact ⟨k + 1, a2, by rw [hk, Execute_succ_panic hlta ha], hrel⟩

theorem wellFormed_of_accept {code input : List Nat} {n : Nat} {dbg : Bool}
    (h : (BuildLoopMap (NewInterpreter code input n dbg)).2 = none) : WellFormed code :=
  (buildLoopMap_accepts h).pend

/-- The two runs start in corresponding states. -/
theorem stripRel_start {p input : List Nat} {n : Nat} {dbg : Bool}
    (hok : (BuildLoopMap (NewInterpreter p input n dbg)).2 = none)
    (hd : dbg = false ∨ 16 ≤ n) :
    (BuildLoopMap (NewInterpreter (strip p) input n dbg)).2 = none ∧
      StripRel p (resolved p input n dbg) (resolved (strip p) input n dbg) := by
  have hok2 : (BuildLoopMap (NewInterpreter (strip p) input n dbg)).2 = none :=
    buildLoopMap_of_wellFormed input n dbg (wellFormed_strip (wellFormed_of_accept hok))
  obtain ⟨a1, a2, a3, a4, a5, a6, a7, a8, a9⟩ := resolved_fields p input n dbg
  obtain ⟨b1, b2, b3, b4, b5, b6, b7, b8, b9⟩ := resolved_fields (strip p) input n dbg
  refine ⟨hok2, ⟨a2.trans b2.symm, a3.trans b3.symm, a4.trans b4.symm, a6.trans b6.symm,
    a7.trans b7.symm, a8.trans b8.symm, by simp [emitted, a9, b9]⟩, a1, b1,
    by rw [a5, b5, cmdsBefore_zero], by rw [a5]; exact Nat.zero_le _,
    buildLoopMap_accepts hok, buildLoopMap_accepts hok2,
    by unfold PtrOK; rw [a4]; exact ⟨le_refl _, Or.inr rfl⟩,
    by rw [a3, a8, List.length_replicate], by rw [a7, a8]; exact hd⟩

theorem main_of_resolved {code input : List Nat} {n : Nat} {dbg : Bool} {fuel : Nat}
    {bf : Interpreter} {o : Outcome}
    (hok : (BuildLoopMap (NewInterpreter code input n dbg)).2 = none)
    (h : Execute fuel (resolved code input n dbg) = (bf, some o)) :
    main code input n dbg fuel = (reported bf (some o), some (.inr o)) := by
  have hb : BuildLoopMap (NewInterpreter code input n dbg) =
      (resolved code input n dbg, none) := Prod.ext rfl hok
  exact main_of_accept hb h

theorem main_outcome_of_accept {code input : List Nat} {n : Nat} {dbg : Bool}
    (hok : (BuildLoopMap (NewInterpreter code input n dbg)).2 = none) (fuel : Nat) :
    (main code input n dbg fuel).2 = none ∨
      ∃ bf o, main code input n dbg fuel = (bf, some (.inr o)) := by
  rcases hx : Execute fuel (resolved code input n dbg) with ⟨bf, o | o⟩
  · have hb : BuildLoopMap (NewInterpreter code input n dbg) =
        (resolved code input n dbg, none) := Prod.ext rfl hok
    left
    rw [main_of_accept hb hx]
    rfl
  · exact Or.inr ⟨_, o, main_of_resolved hok hx⟩

/-- C14 (as amended). Let `strip p` be `p` with every byte other than `>`, `<`, `+`, `-`,
`.`, `,`, `[`, `]`, `#` removed. For every program `p` accepted by `BuildLoopMap`, every
input and every tape length `n`, with single-step mode off or `n >= 16`: `strip p` is
accepted; every run of `p` that ends (halting normally, returning a pointer error, or
panicking) is matched by a run of `strip p` that ends the same way, with the same error
value, and with the same bytes written by `.`, the same final tape, pointer and input
cursor, and conversely; so either both runs end or neither does. The `switch` on a byte that
is not one of the nine changes nothing, the program counter then advances by one, and with
single-step mode off that is the whole pass of the loop. -/
theorem comments_are_skipped (p input : List Nat) (n : Nat) (dbg : Bool)
    (hok : (BuildLoopMap (NewInterpreter p input n dbg)).2 = none)
    (hd : dbg = false ∨ 16 ≤ n) :
    (BuildLoopMap (NewInterpreter (strip p) input n dbg)).2 = none ∧
    (∀ fuel bf o, main p input n dbg fuel = (bf, some (.inr o)) →
      ∃ fuel2 bf2, main (strip p) input n dbg fuel2 = (bf2, some (.inr o)) ∧
        emitted bf2 = emitted bf ∧ bf2.memory = bf.memory ∧ bf2.ptr = bf.ptr ∧
        bf2.inputPtr = bf.inputPtr) ∧
    (∀ fuel2 bf2 o, main (strip p) input n dbg fuel2 = (bf2, some (.inr o)) →
      ∃ fuel bf, main p input n dbg fuel = (bf, some (.inr o)) ∧
        emitted bf2 = emitted bf ∧ bf2.memory = bf.memory ∧ bf2.ptr = bf.ptr ∧
        bf2.inputPtr = bf.inputPtr) ∧
    ((∀ fuel, (main p input n dbg fuel).2 = none) ↔
      (∀ fuel2, (main (strip p) input n dbg fuel2).2 = none)) ∧
    (∀ (bf : Interpreter) (cmd : Nat), isCmd cmd = false →
      execCmd bf cmd = .next bf ∧
      (bf.code[bf.codePtr]? = some cmd →
        stepCore bf = .next (advance bf) ∧
        (bf.debugMode = false → step bf = .next (advance bf)))) := by
  obtain ⟨hok2, R⟩ := @stripRel_start p input n dbg hok hd
  have fwd : ∀ fuel bf o, main p input n dbg fuel = (bf, some (.inr o)) →
      ∃ fuel2 bf2, main (strip p) input n dbg fuel2 = (bf2, some (.inr o)) ∧
        emitted bf2 = emitted bf ∧ bf2.memory = bf.memory ∧ bf2.ptr = bf.ptr ∧
        bf2.inputPtr = bf.inputPtr := by
    intro fuel bf o h
    obtain ⟨_, bf1, hx, rfl⟩ := main_inr h
    obtain ⟨fuel2, bf2, h2, hs⟩ := strip_forward p fuel _ _ bf1 o R hx
    obtain ⟨r1, r2, r3, r4, _, _⟩ := reported_fields bf1 (some o)
    obtain ⟨q1, q2, q3, q4, _, _⟩ := reported_fields bf2 (some o)
    exact ⟨fuel2, _, main_of_resolved hok2 h2, by rw [q1, r1, hs.out], by rw [q2, r2, hs.memory],
      by rw [q3, r3, hs.ptr], by rw [q4, r4, hs.inputPtr]⟩
  have bwd : ∀ fuel2 bf2 o, main (strip p) input n dbg fuel2 = (bf2, some (.inr o)) →
      ∃ fuel bf, main p input n dbg fuel = (bf, some (.inr o)) ∧
        emitted bf2 = emitted bf ∧ bf2.memory = bf.memory ∧ bf2.ptr = bf.ptr ∧
        bf2.inputPtr = bf.inputPtr := by
    intro fuel2 bf2 o h
    obtain ⟨_, bf1, hx, rfl⟩ := main_inr h
    obtain ⟨fuel, bf, h1, hs⟩ := strip_backward p fuel2 _ _ bf1 o R hx
    obtain ⟨r1, r2, r3, r4, _, _⟩ := reported_fields bf (some o)
    obtain ⟨q1, q2, q3, q4, _, _⟩ := reported_fields bf1 (some o)
    exact ⟨fuel, _, main_of_resolved hok h1, by rw [q1, r1, hs.out], by rw [q2, r2, hs.memory],
      by rw [q3, r3, hs.ptr], by rw [q4, r4, hs.inputPtr]⟩
  refine ⟨hok2, fwd, bwd, ⟨fun h fuel2 => ?_, fun h fuel => ?_⟩, fun bf cmd hc => ?_⟩
  · rcases main_outcome_of_accept hok2 fuel2 with h0 | ⟨bf2, o, h2⟩
    · exact h0
    · obtain ⟨fuel, bf, h1, _⟩ := bwd fuel2 bf2 o h2
      have := h fuel
      rw [h1] at this
      cases this
  · rcases main_outcome_of_accept hok fuel with h0 | ⟨bf, o, h1⟩
    · exact h0
    · obtain ⟨fuel2, bf2, h2, _⟩ := fwd fuel bf o h1
      have := h fuel2
      rw [h2] at this
      cases this
  · obtain ⟨d1, d2, d3, d4, d5, d6, d7, d8, d9⟩ := (isCmd_false_iff cmd).1 hc
    have hx := execCmd_other bf cmd d1 d2 d3 d4 d5 d6 d7 d8 d9
    refine ⟨hx, fun hf => ?_⟩
    have hcore := stepCore_next hf hx
    refine ⟨hcore, fun hq => ?_⟩
    rw [step_eq_of_core_next hcore]
    exact debugPause_off hq

/-- C14, instance: the program `+ .` (with a space) on a one-cell tape, single-step mode
off. The stripped program is `+.`; both runs halt normally having written the byte 1. -/
theorem comments_are_skipped_witness :
    (BuildLoopMap (NewInterpreter [43, 32, 46] [] 1 false)).2 = none ∧
    strip [43, 32, 46] = [43, 46] ∧
    (BuildLoopMap (NewInterpreter (strip [43, 32, 46]) [] 1 false)).2 = none ∧
    (∀ fuel bf o, main [43, 32, 46] [] 1 false fuel = (bf, some (.inr o)) →
      ∃ fuel2 bf2, main (strip [43, 32, 46]) [] 1 false fuel2 = (bf2, some (.inr o)) ∧
        emitted bf2 = emitted bf ∧ bf2.memory = bf.memory ∧ bf2.ptr = bf.ptr ∧
        bf2.inputPtr = bf.inputPtr) ∧
    (main [43, 32, 46] [] 1 false 3).2 = some (.inr .halted) ∧
    emitted (main [43, 32, 46] [] 1 false 3).1 = [1] ∧
    (main (strip [43, 32, 46]) [] 1 false 2).2 = some (.inr .halted) ∧
    emitted (main (strip [43, 32, 46]) [] 1 false 2).1 = [1] :=
  have h := comments_are_skipped [43, 32, 46] [] 1 false (by decide) (Or.inl rfl)
  ⟨by decide, by decide, h.1, h.2.1, by decide, by decide, by decide, by decide⟩

/-- C14 as stated fails on the standard output and in single-step mode. The program ` #`
(a space, then the debug trigger) and its stripped form `#` both halt normally on a tape of
16 cells, but the snapshot printed by `#` shows the program counter, 1 in the first run and
0 in the second, so the two outputs differ. In single-step mode on a one-cell tape the
program of one space panics in `DebugPrint` after its only pass, while the empty program
halts normally. -/
theorem stripping_changes_snapshot :
    (BuildLoopMap (NewInterpreter [32, 35] [] 16 false)).2 = none ∧
    strip [32, 35] = [35] ∧
    (main [32, 35] [] 16 false 2).2 = some (.inr .halted) ∧
    (main (strip [32, 35]) [] 16 false 1).2 = some (.inr .halted) ∧
    (main [32, 35] [] 16 false 2).1.stdout ≠ (main (strip [32, 35]) [] 16 false 1).1.stdout ∧
    (main [32, 35] [] 16 false 2).1.stdout.take 2 = [.dbgBanner, .dbgCodePtr 1] ∧
    (main (strip [32, 35]) [] 16 false 1).1.stdout.take 2 = [.dbgBanner, .dbgCodePtr 0] ∧
    (BuildLoopMap (NewInterpreter [32] [] 1 true)).2 = none ∧
    strip [32] = [] ∧
    (main [32] [] 1 true 1).2 = some (.inr .panicked) ∧
    (main (strip [32]) [] 1 true 0).2 = some (.inr .halted) := by
  decide

end Brainfuck
